import Mathlib

/-! # grizz: IP-range membership service

A shallow embedding of the `grizz` tool of the repository (`src/grizz`): the range index
`ip.Looker` (`ip/ip.go`), the three protocol front-ends (`ip/network.go`, `ip/http.go`,
`ip/fibre.go`), the source loader (`fetch.go`) and the reload step of `serveEndpoint`
(`main.go`).

Go strings and byte slices are lists of bytes; a byte is a `Char` whose code is below 256, so
that text literals can be written directly.  Byte values inside addresses are natural numbers.

Two other tools of the repository are embedded as far as their properties below need:
the rule loader of `fakedns` (`src/fakedns/main.go`) and the flag validation of `elasticdump`
(`src/elasticdump/elasticdump.go`).

The packages the code calls into are embedded as well, function by function:
`strings`, `strconv`, `net` / `net/netip` of the Go standard library and the path-compressed
prefix trie of `github.com/yl2chen/cidranger` (`net/ip.go`, `trie.go`, `version.go`).
-/

namespace Grizz

/-- A Go `string` or `[]byte`: a sequence of bytes. -/
abbrev GoString := List Char

/-! ## Package `strings` and `strconv` -/

namespace strings

/-- The function `strings.HasPrefix`: does `s` begin with `pre`. -/
def HasPrefix : GoString → GoString → Bool
  | _, [] => true
  | [], _ :: _ => false
  | c :: s, d :: pre => c == d && HasPrefix s pre

/-- The function `strings.Contains`: is `substr` within `s`. -/
def Contains : GoString → GoString → Bool
  | [], substr => substr.isEmpty
  | c :: s, substr => HasPrefix (c :: s) substr || Contains s substr

/-- The function `strings.TrimPrefix`: `s` without the leading `pre`, or `s` itself when it
does not start with `pre`. -/
def TrimPrefix (s pre : GoString) : GoString :=
  if HasPrefix s pre then s.drop pre.length else s

/-- Worker of `Split` for the one-byte separator: `cur` is the field read so far, reversed. -/
def splitByte (sep : Char) : GoString → GoString → List GoString
  | [], cur => [cur.reverse]
  | c :: s, cur => if c == sep then cur.reverse :: splitByte sep s [] else splitByte sep s (c :: cur)

/-- The call `strings.Split(s, " ")`, the only use of `Split` in the program: the fields of
`s` between single spaces (always at least one field). -/
def SplitSpace (s : GoString) : List GoString :=
  splitByte ' ' s []

end strings

namespace strconv

/-- Decimal digits of `n`, least significant first, for at most `fuel` digits. -/
def digitsRev : Nat → Nat → List Char
  | 0, _ => []
  | fuel + 1, n =>
    Char.ofNat (48 + n % 10) :: (if n / 10 = 0 then [] else digitsRev fuel (n / 10))

/-- The function `strconv.Itoa` on a non-negative integer. -/
def Itoa (n : Nat) : GoString :=
  (digitsRev (n + 1) n).reverse

end strconv

/-! ## Package `net`: addresses, masks and networks -/

namespace net

/-- The constant `net.IPv4len`. -/
def IPv4len : Nat := 4

/-- The constant `net.IPv6len`. -/
def IPv6len : Nat := 16

/-- The type `net.IP`: a slice of bytes, 4 long for IPv4 or 16 long for IPv6 (and for IPv4
in its IPv4-mapped form).  The empty list is the `nil` address. -/
abbrev IP := List Nat

/-- The type `net.IPMask`. -/
abbrev IPMask := List Nat

/-- The type `net.IPNet`. -/
structure IPNet where
  IP : IP
  Mask : IPMask
  deriving DecidableEq, Repr

/-- The prefix `v4InV6Prefix` of an IPv4-mapped IPv6 address. -/
def v4InV6Prefix : List Nat := [0, 0, 0, 0, 0, 0, 0, 0, 0, 0, 0xff, 0xff]

/-- The constructor `net.IPv4`: the 16-byte form of the IPv4 address `a.b.c.d`. -/
def IPv4 (a b c d : Nat) : IP := v4InV6Prefix ++ [a, b, c, d]

/-- The helper `isZeros`. -/
def isZeros (p : List Nat) : Bool := p.all (· == 0)

/-- The method `IP.To4`: the 4-byte form of an IPv4 address, `none` (Go `nil`) when the
address is not an IPv4 address. -/
def IP.To4 (ip : IP) : Option IP :=
  if ip.length = IPv4len then some ip
  else if ip.length = IPv6len ∧ isZeros (ip.take 10) ∧ ip.getD 10 0 = 0xff ∧ ip.getD 11 0 = 0xff then
    some (ip.drop 12)
  else none

/-- The method `IP.To16`: the 16-byte form, `none` (Go `nil`) for a slice of the wrong
length. -/
def IP.To16 (ip : IP) : Option IP :=
  if ip.length = IPv4len then
    some (IPv4 (ip.getD 0 0) (ip.getD 1 0) (ip.getD 2 0) (ip.getD 3 0))
  else if ip.length = IPv6len then some ip
  else none

/-- The method `IP.Equal`: same address, an IPv4 address and its IPv4-mapped form being the
same. -/
def IP.Equal (ip x : IP) : Bool :=
  if ip.length = x.length then ip == x
  else if ip.length = IPv4len ∧ x.length = IPv6len then
    x.take 12 == v4InV6Prefix && ip == x.drop 12
  else if ip.length = IPv6len ∧ x.length = IPv4len then
    ip.take 12 == v4InV6Prefix && ip.drop 12 == x
  else false

/-- The byte loop of `CIDRMask`: `l` more bytes with `n` one-bits still to place. -/
def cidrMaskBytes : Nat → Nat → List Nat
  | 0, _ => []
  | l + 1, n =>
    if n ≥ 8 then 0xff :: cidrMaskBytes l (n - 8)
    else (0xff - 0xff >>> n) :: cidrMaskBytes l 0

/-- The function `net.CIDRMask`: `ones` one-bits followed by zeros up to `bits` bits; the
empty (`nil`) mask when `bits` is neither 32 nor 128 or `ones` is out of range. -/
def CIDRMask (ones : Int) (bits : Int) : IPMask :=
  if bits ≠ 8 * IPv4len ∧ bits ≠ 8 * IPv6len then []
  else if ones < 0 ∨ ones > bits then []
  else cidrMaskBytes (bits.toNat / 8) ones.toNat

/-- The inner loop of `simpleMaskLength` that counts the leading one-bits of the byte `v`
(at most `fuel` of them) and returns the count with the remaining shifted byte. -/
def countLeadingOnes : Nat → Nat → Nat × Nat
  | 0, v => (0, v)
  | fuel + 1, v =>
    if v &&& 0x80 ≠ 0 then
      let r := countLeadingOnes fuel ((v <<< 1) % 256)
      (r.1 + 1, r.2)
    else (0, v)

/-- The function `simpleMaskLength`: the number of leading ones of a mask made of ones
followed by zeros, and `-1` for any other mask. -/
def simpleMaskLength : IPMask → Int
  | [] => 0
  | v :: rest =>
    if v = 0xff then
      match simpleMaskLength rest with
      | Int.negSucc _ => -1
      | Int.ofNat n => Int.ofNat (n + 8)
    else
      let r := countLeadingOnes 8 v
      if r.2 ≠ 0 then -1
      else if rest.all (· == 0) then Int.ofNat r.1 else -1

/-- The method `IPMask.Size`: `(ones, bits)`, or `(0, 0)` for a mask that is not in the
canonical form. -/
def IPMask.Size (m : IPMask) : Int × Int :=
  let ones := simpleMaskLength m
  if ones = -1 then (0, 0) else (ones, m.length * 8)

/-- The helper `allFF`. -/
def allFF (b : List Nat) : Bool := b.all (· == 0xff)

/-- The method `IP.Mask`: the address masked byte by byte; the empty (`nil`) address when
the lengths do not fit. -/
def IP.Mask (ip : IP) (mask : IPMask) : IP :=
  let mask := if mask.length = IPv6len ∧ ip.length = IPv4len ∧ allFF (mask.take 12) then mask.drop 12 else mask
  let ip := if mask.length = IPv4len ∧ ip.length = IPv6len ∧ ip.take 12 = v4InV6Prefix then ip.drop 12 else ip
  if ip.length ≠ mask.length then []
  else List.zipWith (· &&& ·) ip mask

/-- The helper `networkNumberAndMask`: the address and mask of a network brought to the same
length, `none` (two `nil`s) when they do not fit. -/
def networkNumberAndMask (n : IPNet) : Option (IP × IPMask) :=
  let ip? : Option IP :=
    match n.IP.To4 with
    | some ip4 => some ip4
    | none => if n.IP.length ≠ IPv6len then none else some n.IP
  match ip? with
  | none => none
  | some ip =>
    if n.Mask.length = IPv4len then
      if ip.length ≠ IPv4len then none else some (ip, n.Mask)
    else if n.Mask.length = IPv6len then
      if ip.length = IPv4len then some (ip, n.Mask.drop 12) else some (ip, n.Mask)
    else none

/-- The comparison loop of `IPNet.Contains`: `nn[i] & m[i] == ip[i] & m[i]` at every index. -/
def maskedEqual : List Nat → List Nat → List Nat → Bool
  | a :: nn, b :: m, c :: ip => a &&& b == c &&& b && maskedEqual nn m ip
  | _, _, _ => true

/-- The method `IPNet.Contains`: whether the network includes the address. -/
def IPNet.Contains (n : IPNet) (ip : net.IP) : Bool :=
  match networkNumberAndMask n with
  | none => false
  | some (nn, m) =>
    let ip := match ip.To4 with
      | some x => x
      | none => ip
    if ip.length ≠ nn.length then false
    else maskedEqual nn m ip

/-! ### Parsing (`net/netip.ParseAddr`, `net.ParseIP`, `net.ParseCIDR`) -/

/-- The type `netip.Addr` as far as parsing produces it: an IPv4 address of 4 bytes, or an
IPv6 address of 16 bytes with its zone. -/
inductive Addr where
  | v4 (b : List Nat)
  | v6 (b : List Nat) (zone : GoString)
  deriving DecidableEq, Repr

/-- The method `Addr.Zone`. -/
def Addr.Zone : Addr → GoString
  | .v4 _ => []
  | .v6 _ z => z

/-- The method `Addr.BitLen`. -/
def Addr.BitLen : Addr → Nat
  | .v4 _ => 32
  | .v6 _ _ => 128

/-- The method `Addr.As16`: the 16-byte form, IPv4 addresses in IPv4-mapped form. -/
def Addr.As16 : Addr → List Nat
  | .v4 b => v4InV6Prefix ++ b
  | .v6 b _ => b

/-- The loop of `parseIPv4Fields` over the text `s`: `val` and `digLen` describe the octet
being read, `fields` the octets stored so far (`pos` is their number), `first` tells that
the index is 0 and `prevDot` that the previous byte was a dot. -/
def parseIPv4FieldsLoop : GoString → Nat → Nat → List Nat → Bool → Bool → Option (List Nat)
  | [], val, _, fields, _, _ => if fields.length < 3 then none else some (fields ++ [val])
  | c :: s, val, digLen, fields, first, prevDot =>
    if 48 ≤ c.toNat ∧ c.toNat ≤ 57 then
      if digLen = 1 ∧ val = 0 then none
      else
        let val := val * 10 + (c.toNat - 48)
        if val > 255 then none
        else parseIPv4FieldsLoop s val (digLen + 1) fields false false
    else if c = '.' then
      if first ∨ s.isEmpty ∨ prevDot then none
      else if fields.length = 3 then none
      else parseIPv4FieldsLoop s 0 0 (fields ++ [val]) false true
    else none

/-- The function `parseIPv4Fields` on the text it is given: the four octets of a dotted
decimal address, `none` on any error. -/
def parseIPv4Fields (s : GoString) : Option (List Nat) :=
  parseIPv4FieldsLoop s 0 0 [] true false

/-- The value of a hexadecimal digit, `none` for any other byte. -/
def hexDigit (c : Char) : Option Nat :=
  if 48 ≤ c.toNat ∧ c.toNat ≤ 57 then some (c.toNat - 48)
  else if 97 ≤ c.toNat ∧ c.toNat ≤ 102 then some (c.toNat - 97 + 10)
  else if 65 ≤ c.toNat ∧ c.toNat ≤ 70 then some (c.toNat - 65 + 10)
  else none

/-- The inner loop of `parseIPv6` that reads one group of hexadecimal digits: returns the
number `off` of digits read, the value `acc` and the text left, `none` when the group has
more than 4 digits. -/
def hexGroup : GoString → Nat → Nat → Option (Nat × Nat × GoString)
  | [], off, acc => some (off, acc, [])
  | c :: s, off, acc =>
    match hexDigit c with
    | none => some (off, acc, c :: s)
    | some d =>
      let acc := (acc <<< 4) + d
      if off > 3 then none
      else if acc > 0xffff then none
      else hexGroup s (off + 1) acc

/-- The main loop of `parseIPv6`, run while `i < 16`: `ip` holds the `i` bytes written so
far, `ellipsis` the position of the `::` when one was seen.  Returns the text left over, the
bytes written and the ellipsis, `none` on any error. -/
def parseIPv6Loop : Nat → GoString → List Nat → Option Nat → Option (GoString × List Nat × Option Nat)
  | 0, s, ip, ellipsis => some (s, ip, ellipsis)
  | fuel + 1, s, ip, ellipsis =>
    if ip.length ≥ 16 then some (s, ip, ellipsis)
    else
      match hexGroup s 0 0 with
      | none => none
      | some (off, acc, rest) =>
        if off = 0 then none
        else if rest.head? = some '.' then
          if ellipsis.isNone ∧ ip.length ≠ 12 then none
          else if ip.length + 4 > 16 then none
          else
            match parseIPv4Fields s with
            | none => none
            | some fields => some ([], ip ++ fields, ellipsis)
        else
          let ip := ip ++ [(acc >>> 8) % 256, acc % 256]
          match rest with
          | [] => some ([], ip, ellipsis)
          | c :: rest1 =>
            if c ≠ ':' then none
            else
              match rest1 with
              | [] => none
              | d :: rest2 =>
                if d = ':' then
                  if ellipsis.isSome then none
                  else if rest2.isEmpty then some ([], ip, some ip.length)
                  else parseIPv6Loop fuel rest2 ip (some ip.length)
                else parseIPv6Loop fuel (d :: rest2) ip ellipsis

/-- The function `netip.parseIPv6`. -/
def parseIPv6 (input : GoString) : Option Addr :=
  let cut : Option (GoString × GoString) :=
    if input.contains '%' then
      let zone := (input.dropWhile (· != '%')).drop 1
      if zone.isEmpty then none else some (input.takeWhile (· != '%'), zone)
    else some (input, [])
  match cut with
  | none => none
  | some (s, zone) =>
    let lead := strings.HasPrefix s [':', ':']
    let s := if lead then s.drop 2 else s
    let ellipsis : Option Nat := if lead then some 0 else none
    if lead ∧ s.isEmpty then some (.v6 (List.replicate 16 0) zone)
    else
      match parseIPv6Loop 9 s [] ellipsis with
      | none => none
      | some (rest, ip, ellipsis) =>
        if ¬ rest.isEmpty then none
        else if ip.length < 16 then
          match ellipsis with
          | none => none
          | some e => some (.v6 (ip.take e ++ List.replicate (16 - ip.length) 0 ++ ip.drop e) zone)
        else if ellipsis.isSome then none
        else some (.v6 ip zone)

/-- The function `netip.parseIPv4`. -/
def parseIPv4 (s : GoString) : Option Addr :=
  (parseIPv4Fields s).map Addr.v4

/-- The scan of `netip.ParseAddr` for the first of `.`, `:` and `%`, which selects the
parser; `whole` is the complete text. -/
def parseAddrScan (whole : GoString) : GoString → Option Addr
  | [] => none
  | c :: s =>
    if c = '.' then parseIPv4 whole
    else if c = ':' then parseIPv6 whole
    else if c = '%' then none
    else parseAddrScan whole s

/-- The function `netip.ParseAddr`; `none` stands for a returned error. -/
def ParseAddr (s : GoString) : Option Addr :=
  parseAddrScan s s

/-- The function `net.ParseIP`: the 16-byte address written in `s`, `none` (Go `nil`) when
`s` is not a textual IPv4 or IPv6 address (a zone is not accepted). -/
def ParseIP (s : GoString) : Option IP :=
  match ParseAddr s with
  | none => none
  | some addr => if addr.Zone ≠ [] then none else some addr.As16

/-- The loop of `dtoi`: returns the number read, the count of bytes consumed and success. -/
def dtoiLoop : GoString → Nat → Nat → Nat × Nat × Bool
  | [], n, i => if i = 0 then (0, 0, false) else (n, i, true)
  | c :: s, n, i =>
    if 48 ≤ c.toNat ∧ c.toNat ≤ 57 then
      let n := n * 10 + (c.toNat - 48)
      if n ≥ 0xFFFFFF then (0xFFFFFF, i, false) else dtoiLoop s n (i + 1)
    else if i = 0 then (0, 0, false) else (n, i, true)

/-- The function `dtoi`: decimal to integer. -/
def dtoi (s : GoString) : Nat × Nat × Bool :=
  dtoiLoop s 0 0

/-- The function `net.ParseCIDR`: for the text `address/length` the address and the network
it names (the address masked to the prefix length, with the mask); `none` stands for a
returned error. -/
def ParseCIDR (s : GoString) : Option (IP × IPNet) :=
  if ¬ s.contains '/' then none
  else
    let addr := s.takeWhile (· != '/')
    let mask := (s.dropWhile (· != '/')).drop 1
    match ParseAddr addr with
    | none => none
    | some ipAddr =>
      if ipAddr.Zone ≠ [] then none
      else
        let r := dtoi mask
        if ¬ r.2.2 ∨ r.2.1 ≠ mask.length ∨ r.1 > ipAddr.BitLen then none
        else
          let m := CIDRMask r.1 ipAddr.BitLen
          let addr16 : IP := ipAddr.As16
          some (addr16, ⟨IP.Mask addr16 m, m⟩)

end net

/-! ## Package `cidranger/net`: network numbers -/

namespace rnet

open net

/-- The conversion `uint(x)` of a Go `int` on a 64-bit platform. -/
def toUint (x : Int) : Nat := (x % 2 ^ 64).toNat

/-- The conversion `int(x)` of a Go `uint` on a 64-bit platform. -/
def toInt (x : Nat) : Int := if x % 2 ^ 64 < 2 ^ 63 then (x % 2 ^ 64 : Nat) else (x % 2 ^ 64 : Nat) - 2 ^ 64

/-- Subtraction of two Go `uint` values, which wraps around. -/
def usub (a b : Nat) : Nat := (a + 2 ^ 64 - b % 2 ^ 64) % 2 ^ 64

/-- The type `NetworkNumber`: an address as a slice of 32-bit words, one word for IPv4 and
four for IPv6.  The empty list is `nil`. -/
abbrev NetworkNumber := List Nat

/-- The constant `BitsPerUint32`. -/
def BitsPerUint32 : Nat := 32

/-- The constant `IPv6Uint32Count`. -/
def IPv6Uint32Count : Nat := 4

/-- The call `binary.BigEndian.Uint32(b[idx : idx+4])`. -/
def bigEndianUint32 (b : List Nat) (idx : Nat) : Nat :=
  b.getD (idx + 3) 0 ||| b.getD (idx + 2) 0 <<< 8 ||| b.getD (idx + 1) 0 <<< 16 ||| b.getD idx 0 <<< 24

/-- The function `NewNetworkNumber`: the words of an address, one word when the address
has a 4-byte form, four words otherwise; `nil` for `nil` or for a slice of a wrong length. -/
def NewNetworkNumber (ip : IP) : NetworkNumber :=
  if ip.isEmpty then []
  else
    match ip.To4 with
    | some coercedIP => (List.range 1).map (fun i => bigEndianUint32 coercedIP (i * IPv4len))
    | none =>
      match ip.To16 with
      | some coercedIP => (List.range 4).map (fun i => bigEndianUint32 coercedIP (i * IPv4len))
      | none => []

/-- The result of `NetworkNumber.Bit`: a bit, the returned error `ErrInvalidBitPosition`, or
the run-time fault of indexing the number outside its bounds. -/
inductive BitResult where
  | ok (bit : Nat)
  | invalidPosition
  | indexOutOfRange
  deriving DecidableEq, Repr

/-- The method `NetworkNumber.Bit`: the bit at `position`, counted from the least
significant end; `position` is a Go `uint`. -/
def NetworkNumber.Bit (n : NetworkNumber) (position : Nat) : BitResult :=
  if toInt position > (n.length * BitsPerUint32 : Int) - 1 then .invalidPosition
  else
    let idx : Int := (n.length : Int) - 1 - toInt (position / BitsPerUint32)
    if idx < 0 ∨ idx ≥ n.length then .indexOutOfRange
    else .ok ((n.getD idx.toNat 0 >>> (position &&& (BitsPerUint32 - 1))) &&& 1)

/-- The inner loop of `NetworkNumber.LeastCommonBitPosition` over one pair of words: the
position of the most significant bit, below `k`, in which `a` and `b` differ. -/
def firstDifferingBit (a b : Nat) : Nat → Option Nat
  | 0 => none
  | k + 1 =>
    if a &&& (1 <<< k) ≠ b &&& (1 <<< k) then some k else firstDifferingBit a b k

/-- The outer loop of `NetworkNumber.LeastCommonBitPosition` from word `i` on, for numbers
of `len` words; `none` is the error `ErrNoGreatestCommonBit`. -/
def leastCommonBitLoop : List Nat → List Nat → Nat → Nat → Option Nat
  | a :: n, b :: n1, i, len =>
    match firstDifferingBit a b 32 with
    | some pos =>
      if i = 0 ∧ pos = 31 then none
      else some ((pos + 1) + BitsPerUint32 * (len - i - 1))
    | none => leastCommonBitLoop n n1 (i + 1) len
  | _, _, _, _ => some 0

/-- The method `NetworkNumber.LeastCommonBitPosition`: the smallest position down to which
both numbers have the same bits; `none` stands for a returned error (numbers of different
lengths, or numbers that differ in their first bit). -/
def NetworkNumber.LeastCommonBitPosition (n n1 : NetworkNumber) : Option Nat :=
  if n.length ≠ n1.length then none
  else leastCommonBitLoop n n1 0 n.length

/-- The type `Network`: a network with its number and mask as words. -/
structure Network where
  IPNet : net.IPNet
  Number : NetworkNumber
  Mask : NetworkNumber
  deriving DecidableEq, Repr

/-- The function `NewNetwork`. -/
def NewNetwork (ipNet : net.IPNet) : Network :=
  ⟨ipNet, NewNetworkNumber ipNet.IP, NewNetworkNumber ipNet.Mask⟩

/-- The method `Network.Masked`: the network cut to `ones` leading bits. -/
def Network.Masked (n : Network) (ones : Int) : Network :=
  let mask := CIDRMask ones (n.Number.length * BitsPerUint32 : Nat)
  NewNetwork ⟨n.IPNet.IP.Mask mask, mask⟩

/-- The method `Network.Contains`: whether the number lies in the network.  The words are
read at the indices the code reads them at; they exist whenever `Number` is as long as
`Mask`, which holds for every network made by `NewNetwork` from a network of `ParseCIDR` or
by `Masked`. -/
def Network.Contains (n : Network) (nn : NetworkNumber) : Bool :=
  if n.Mask.length ≠ nn.length then false
  else if nn.getD 0 0 &&& n.Mask.getD 0 0 ≠ n.Number.getD 0 0 then false
  else if nn.length = IPv6Uint32Count then
    nn.getD 1 0 &&& n.Mask.getD 1 0 == n.Number.getD 1 0
      && nn.getD 2 0 &&& n.Mask.getD 2 0 == n.Number.getD 2 0
      && nn.getD 3 0 &&& n.Mask.getD 3 0 == n.Number.getD 3 0
  else true

/-- The method `Network.LeastCommonBitPosition`: the smallest position down to which both
networks agree, bounded by the shorter of the two masks; `none` stands for a returned
error. -/
def Network.LeastCommonBitPosition (n n1 : Network) : Option Nat :=
  let maskSize := n.IPNet.Mask.Size.1
  let maskSize1 := n1.IPNet.Mask.Size.1
  let maskSize := if maskSize1 < maskSize then maskSize1 else maskSize
  let maskPosition : Int := (n1.Number.length * BitsPerUint32 : Nat) - maskSize
  match n.Number.LeastCommonBitPosition n1.Number with
  | none => none
  | some lcb => some (toUint (max maskPosition lcb))

/-- The method `Network.Equal`.  The code compares the texts `n.String()` and
`n1.String()`; the text of a network is `<nil>` when `networkNumberAndMask` gives nothing
and otherwise writes out the address and the mask that `networkNumberAndMask` gives, each
in a form that determines it, so the two texts are equal exactly when the two results
are. -/
def Network.Equal (n n1 : Network) : Bool :=
  networkNumberAndMask n.IPNet == networkNumberAndMask n1.IPNet

end rnet

/-! ## Package `cidranger`: the path-compressed prefix trie -/

namespace cidranger

open net rnet

/-- The type `prefixTrie`: `null` is the `nil` pointer; a node carries the number of bits
its network skips, its network, the entry stored at it (if any) and its two children.  The
fields `parent`, `numBitsHandled` (always 1) and `size` do not take part in `Contains` and
are left out. -/
inductive prefixTrie where
  | null
  | node (numBitsSkipped : Nat) (network : Network) (entry : Option IPNet)
      (child0 child1 : prefixTrie)
  deriving Repr

/-- The root network of a trie: `0.0.0.0/0`, or `0::0/0` for IPv6 (the results of
`net.ParseCIDR` on these texts). -/
def rootNet (v6 : Bool) : IPNet :=
  if v6 then ⟨List.replicate 16 0, List.replicate 16 0⟩ else ⟨List.replicate 4 0, List.replicate 4 0⟩

/-- The function `newPrefixTree`: an empty trie for one IP version. -/
def newPrefixTree (v6 : Bool) : prefixTrie :=
  .node 0 (NewNetwork (rootNet v6)) none .null .null

/-- The function `newPathprefixTrie`: a node without entry for `network` cut to
`numBitsSkipped` bits. -/
def newPathprefixTrie (network : Network) (numBitsSkipped : Nat) : prefixTrie :=
  .node numBitsSkipped (network.Masked (toInt numBitsSkipped)) none .null .null

/-- The function `newEntryTrie`: a leaf holding `entry`. -/
def newEntryTrie (network : Network) (entry : IPNet) : prefixTrie :=
  let ones := network.IPNet.Mask.Size.1
  .node (toUint ones) (network.Masked (toInt (toUint ones))) (some entry) .null .null

/-- The network of a node. -/
def prefixTrie.network : prefixTrie → Network
  | .null => ⟨⟨[], []⟩, [], []⟩
  | .node _ network _ _ _ => network

/-- The method `totalNumberOfBits`. -/
def prefixTrie.totalNumberOfBits (p : prefixTrie) : Nat :=
  BitsPerUint32 * p.network.Number.length

/-- The method `targetBitPosition`: the position of the bit that selects the child. -/
def prefixTrie.targetBitPosition : prefixTrie → Int
  | .null => -1
  | .node numBitsSkipped network e c0 c1 =>
    toInt (usub (prefixTrie.node numBitsSkipped network e c0 c1).totalNumberOfBits numBitsSkipped) - 1

/-- The method `targetBitFromIP`. -/
def prefixTrie.targetBitFromIP (p : prefixTrie) (n : NetworkNumber) : BitResult :=
  n.Bit (toUint p.targetBitPosition)

/-- The child `p.children[bit]`. -/
def prefixTrie.child : prefixTrie → Nat → prefixTrie
  | .null, _ => .null
  | .node _ _ _ c0 c1, bit => if bit = 0 then c0 else c1

/-- The assignment `p.children[bit] = c`. -/
def prefixTrie.setChild : prefixTrie → Nat → prefixTrie → prefixTrie
  | .null, _, _ => .null
  | .node k network e c0 c1, bit, c => if bit = 0 then .node k network e c c1 else .node k network e c0 c

/-- The method `prefixTrie.insert`, with the trie after the call as result.  `none` is a
run-time fault of the call (an index out of range, or a recursion deeper than `fuel`); a
call that returns an error gives the trie as the call left it, which is what the callers,
who drop the error, go on with. -/
def prefixTrie.insert : Nat → prefixTrie → Network → IPNet → Option prefixTrie
  | 0, _, _, _ => none
  | _, .null, _, _ => none
  | fuel + 1, .node k pnet e c0 c1, network, entry =>
    let p := prefixTrie.node k pnet e c0 c1
    if pnet.Equal network then some (.node k pnet (some entry) c0 c1)
    else
      match p.targetBitFromIP network.Number with
      | .indexOutOfRange => none
      | .invalidPosition => some p
      | .ok bit =>
        match p.child bit with
        | .null => some (p.setChild bit (newEntryTrie network entry))
        | .node ck cnet ce cc0 cc1 =>
          let existingChild := prefixTrie.node ck cnet ce cc0 cc1
          let lcb := (network.LeastCommonBitPosition cnet).getD 0
          let divergingBitPos : Int := toInt lcb - 1
          if divergingBitPos > existingChild.targetBitPosition then
            let pathPrefix := newPathprefixTrie network (usub p.totalNumberOfBits lcb)
            match pathPrefix.targetBitFromIP cnet.Number with
            | .indexOutOfRange => none
            | .invalidPosition => some (p.setChild bit pathPrefix)
            | .ok pathPrefixBit =>
              match prefixTrie.insert fuel (pathPrefix.setChild pathPrefixBit existingChild) network entry with
              | none => none
              | some t => some (p.setChild bit t)
          else
            match prefixTrie.insert fuel existingChild network entry with
            | none => none
            | some t => some (p.setChild bit t)

/-- The bound on the depth of the recursion of `insert` granted to one call of `Insert`.
A trie of IPv6 networks has at most 129 levels and `insert` makes at most two calls per
level. -/
def insertFuel : Nat := 2 * 128 + 4

/-- The method `prefixTrie.Insert`; `none` is a run-time fault. -/
def prefixTrie.Insert (p : prefixTrie) (entry : IPNet) : Option prefixTrie :=
  p.insert insertFuel (NewNetwork entry) entry

/-- The method `prefixTrie.contains`: the walk from a node towards the number. -/
def prefixTrie.contains : prefixTrie → NetworkNumber → Bool
  | .null, _ => false
  | .node k pnet e c0 c1, number =>
    if ¬ pnet.Contains number then false
    else if e.isSome then true
    else if (prefixTrie.node k pnet e c0 c1).targetBitPosition < 0 then false
    else
      match (prefixTrie.node k pnet e c0 c1).targetBitFromIP number with
      | .ok bit => if bit = 0 then c0.contains number else c1.contains number
      | _ => false

/-- The method `prefixTrie.Contains`, its error result dropped (the caller drops it). -/
def prefixTrie.Contains (p : prefixTrie) (ip : IP) : Bool :=
  let nn := NewNetworkNumber ip
  if nn.isEmpty then false else p.contains nn

/-- The type `versionedRanger`: one trie per IP version. -/
structure versionedRanger where
  ipV4Ranger : prefixTrie
  ipV6Ranger : prefixTrie
  deriving Repr

/-- The function `NewPCTrieRanger`. -/
def NewPCTrieRanger : versionedRanger :=
  ⟨newPrefixTree false, newPrefixTree true⟩

/-- The method `versionedRanger.Insert`: the entry goes to the trie of the version of its
address (an address with a 4-byte form is IPv4); `none` is a run-time fault. -/
def versionedRanger.Insert (v : versionedRanger) (entry : IPNet) : Option versionedRanger :=
  if entry.IP.To4.isSome then (v.ipV4Ranger.Insert entry).map (fun t => ⟨t, v.ipV6Ranger⟩)
  else if entry.IP.To16.isSome then (v.ipV6Ranger.Insert entry).map (fun t => ⟨v.ipV4Ranger, t⟩)
  else some v

/-- The method `versionedRanger.Contains`, its error result dropped. -/
def versionedRanger.Contains (v : versionedRanger) (ip : IP) : Bool :=
  if ip.To4.isSome then v.ipV4Ranger.Contains ip
  else if ip.To16.isSome then v.ipV6Ranger.Contains ip
  else false

end cidranger

/-! ## Package `ip`: the range index (`ip/ip.go`) -/

namespace ip

open net cidranger

/-- The type `Looker`: the wrapper around the ranger.  The lock `mu` orders the calls; the
embedding runs them one after the other. -/
structure Looker where
  ranger : versionedRanger
  deriving Repr

/-- The loop `for _, IPnet := range IPnets { ranger.Insert(...) }` of `NewTrie` and
`Reload`; `none` is a run-time fault of one of the insertions. -/
def insertAll : versionedRanger → List IPNet → Option versionedRanger
  | ranger, [] => some ranger
  | ranger, IPnet :: rest =>
    match ranger.Insert IPnet with
    | none => none
    | some ranger1 => insertAll ranger1 rest

/-- The function `NewTrie`: a new index holding the given networks. -/
def NewTrie (IPnets : List IPNet) : Option Looker :=
  (insertAll NewPCTrieRanger IPnets).map Looker.mk

/-- The method `Looker.Insert`: adds one network to the index. -/
def Looker.Insert (r : Looker) (IPnet : IPNet) : Option Looker :=
  (r.ranger.Insert IPnet).map (fun ranger => { r with ranger := ranger })

/-- The method `Looker.Contains`: whether the address is in the index. -/
def Looker.Contains (r : Looker) (ip : IP) : Bool :=
  r.ranger.Contains ip

/-- The method `Looker.Reload`: replaces the ranger of the index by a new one built from
the given networks. -/
def Looker.Reload (r : Looker) (IPnets : List IPNet) : Option Looker :=
  (insertAll NewPCTrieRanger IPnets).map (fun newRanger => { r with ranger := newRanger })

end ip

/-! ## Package `ip`: the protocol front-ends (`ip/network.go`, `ip/http.go`, `ip/fibre.go`) -/

namespace ip

open net

/-- The type `NetworkServer`; `l` is the index the server points to, in its current
state. -/
structure NetworkServer where
  l : Looker
  addr : GoString

/-- The method `NetworkServer.OnTraffic` on the inbound bytes `buf` that `c.Next(-1)`
hands over: the bytes the handler writes to the connection; `none` is the run-time fault
of the slice expression `buf[:len(buf)-1]` on an empty buffer. -/
def NetworkServer.OnTraffic (ipsrv : NetworkServer) (buf : GoString) : Option GoString :=
  if buf.length = 0 then none
  else
    match ParseIP (buf.take (buf.length - 1)) with
    | none => some "error: invalid IP format\n".toList
    | some ip =>
      if ipsrv.l.Contains ip then some "1\n".toList
      else some "0\n".toList

/-- The type `HTTPServer`; `l` is the index the server points to, in its current state. -/
structure HTTPServer where
  l : Looker
  addr : GoString
  basepath : GoString

/-- The type `httpCodec`, the per-connection state (its field `parser` is not used by the
handler). -/
structure httpCodec where
  contentLength : Int
  buf : GoString
  deriving DecidableEq, Repr

/-- The method `httpCodec.parse`: `(nextOffset, url, err)`, with `err` the message of the
error or `none` for `nil`. -/
def httpCodec.parse (_hc : httpCodec) (data : GoString) : Nat × GoString × Option GoString :=
  let splits := strings.SplitSpace data
  if splits.length < 2 then (0, [], some "invalid http request".toList)
  else (0, splits.getD 1 [], none)

/-- The method `httpCodec.resetParser`. -/
def httpCodec.resetParser (hc : httpCodec) : httpCodec :=
  { hc with contentLength := -1 }

/-- The method `httpCodec.reset`. -/
def httpCodec.reset (hc : httpCodec) : httpCodec :=
  { hc.resetParser with buf := [] }

/-- The function `writeResponse`; `now` is the text of `time.Now()` in the layout
`Mon, 02 Jan 2006 15:04:05 GMT`. -/
def writeResponse (now : GoString) (hc : httpCodec) (body : GoString) : httpCodec :=
  let buf := hc.buf ++ "HTTP/1.1 200 OK\r\nServer: gnet\r\nContent-Type: text/plain\r\nDate: ".toList
  let buf := buf ++ now
  let buf := buf ++ "\r\nContent-Length: ".toList
  let buf := buf ++ strconv.Itoa body.length
  let buf := buf ++ "\r\n\r\n".toList
  let buf := buf ++ body
  { hc with buf := buf }

/-- The method `HTTPServer.OnOpen`: the codec of a new connection. -/
def HTTPServer.OnOpen : httpCodec :=
  { contentLength := 0, buf := [] }

/-- What one call of `HTTPServer.OnTraffic` does: the codec after the call, the byte
strings passed to `c.Write` in order, and the argument of `c.Discard` when it is called. -/
structure TrafficResult where
  hc : httpCodec
  written : List GoString
  discarded : Option Int
  deriving DecidableEq, Repr

/-- The method `HTTPServer.OnTraffic` on the inbound bytes `buf` that `c.Peek(-1)` shows,
for the codec `hc` of the connection. -/
def HTTPServer.OnTraffic (hs : HTTPServer) (now : GoString) (hc : httpCodec) (buf : GoString) :
    TrafficResult :=
  let n : Int := buf.length
  let (nextOffset, url, err) := hc.parse buf
  let ipStr := strings.TrimPrefix url hs.basepath
  match ParseIP ipStr with
  | none => ⟨hc, ["error: invalid IP format\n".toList], none⟩
  | some ip =>
    let body := if hs.l.Contains ip then "1\n".toList else "0\n".toList
    let hc := hc.resetParser
    let hc :=
      if err.isSome then hc
      else if buf.length < nextOffset then hc
      else writeResponse now hc body
    let written := if hc.buf.length > 0 then [hc.buf] else []
    ⟨hc.reset, written, some (n - buf.length)⟩

/-- The type `FiberServer`; `l` is the index the server points to, in its current state. -/
structure FiberServer where
  l : Looker
  addr : GoString
  basepath : GoString

/-- The route handler that `FiberServer.ListenAndServe` registers for `basepath + ":ip"`:
the body it sends for the value `ipStr` of the path parameter `ip`. -/
def FiberServer.handler (s : FiberServer) (ipStr : GoString) : GoString :=
  match ParseIP ipStr with
  | none => "0".toList
  | some ip =>
    if s.l.Contains ip then "1".toList
    else "0".toList

end ip

/-! ## Package `main`: loading the source (`fetch.go`) and reloading (`main.go`) -/

namespace main

open net ip

/-- The function `parseLineToCIDR`. -/
def parseLineToCIDR (line : GoString) : GoString :=
  if strings.Contains line ['/'] then line
  else if strings.Contains line [':'] then line ++ ['/', '1', '2', '8']
  else if strings.Contains line ['.'] then line ++ ['/', '3', '2']
  else line

/-- One result of `csv.Reader.Read` before the end of the input: a record, which has at
least one field, or a read error with its text. -/
inductive ReadResult where
  | record (first : GoString) (rest : List GoString)
  | error (msg : GoString)
  deriving DecidableEq, Repr

/-- An `io.Reader` as `getIPNets` sees it through `csv.NewReader`: the results of the
successive calls of `Read`, followed by `io.EOF`. -/
abbrev Reader := List ReadResult

/-- The reader that yields the given entries, one record of one field each. -/
def readerOf (entries : List GoString) : Reader :=
  entries.map (fun e => ReadResult.record e [])

/-- The loop of `getIPNets`; `ipnets` is the slice built so far. -/
def getIPNetsLoop : Reader → List IPNet → Except GoString (List IPNet)
  | [], ipnets => .ok ipnets
  | .error err :: _, _ => .error ("failed to read CSV record: ".toList ++ err)
  | .record first _ :: rest, ipnets =>
    match ParseCIDR (parseLineToCIDR first) with
    | none =>
      .error ("failed to parse CIDR ".toList ++ parseLineToCIDR first ++ ": invalid CIDR address: ".toList
        ++ parseLineToCIDR first)
    | some (_, ipnet) => getIPNetsLoop rest (ipnets ++ [ipnet])

/-- The function `getIPNets`. -/
def getIPNets (f : Reader) : Except GoString (List IPNet) :=
  getIPNetsLoop f []

/-- The function `populateLooker`; the outer `none` is a run-time fault while the index is
built. -/
def populateLooker (f : Reader) : Option (Except GoString Looker) :=
  match NewTrie [] with
  | none => none
  | some looker =>
    match getIPNets f with
    | .error err => some (.error err)
    | .ok ipnets => (looker.Reload ipnets).map .ok

/-- What the reload step of `serveEndpoint` leaves behind: the index, whether `Reload` was
called, and the error the step returns (`none` for `nil`). -/
structure ReloadResult where
  looker : Looker
  reloadCalled : Bool
  err : Option GoString

/-- The body of the goroutine that `serveEndpoint` starts when `AutoReload > 0`, after its
sleep: `fetched` is the result of `fetchFile(ep.File)`.  The outer `none` is a run-time
fault while the new index is built. -/
def reloadStep (file : GoString) (fetched : Except GoString Reader) (looker : Looker) :
    Option ReloadResult :=
  match fetched with
  | .error err => some ⟨looker, false, some ("failed to fetch file ".toList ++ file ++ ": ".toList ++ err)⟩
  | .ok r =>
    match getIPNets r with
    | .error err => some ⟨looker, false, some ("failed to get IPNets: ".toList ++ err)⟩
    | .ok ipnet => (looker.Reload ipnet).map (fun l => ⟨l, true, none⟩)

end main

end Grizz

/-! ## Package `main`: configuration (`conf.go`) and `serveEndpoint` (`main.go`) -/

namespace Grizz

namespace ip

/-- The function `NewFibreServer`. -/
def NewFibreServer (l : Looker) (addr basepath : GoString) : FiberServer :=
  { l := l, addr := addr, basepath := basepath }

/-- The function `NewNetworkServer`. -/
def NewNetworkServer (l : Looker) (addr : GoString) : NetworkServer :=
  { l := l, addr := addr }

end ip

namespace main

open net ip rnet

/-- The type `EndpointCfg`; the field `Type` is written `Type_`, and `AutoReload` is a Go
`uint`. -/
structure EndpointCfg where
  Type_ : GoString
  Name : GoString
  Modes : List GoString
  HTTPListener : GoString
  SocketListener : GoString
  HTTPBasePath : GoString
  File : GoString
  FileFormat : GoString
  Inverted : Bool
  AutoReload : Nat

/-- The type `Config`. -/
structure Config where
  LogLevel : GoString
  Endpoints : List EndpointCfg

/-- The loop over `e.Modes` in `Config.Validate`: the error for the first mode that is
neither `http` nor `socket`, `none` when there is no such mode. -/
def validateModes (name : GoString) : List GoString → Option GoString
  | [] => none
  | m :: rest =>
    if m ≠ "http".toList ∧ m ≠ "socket".toList then
      some ("invalid mode ".toList ++ m ++ " for endpoint ".toList ++ name)
    else validateModes name rest

/-- The loop over `c.Endpoints` in `Config.Validate`. -/
def validateEndpoints : List EndpointCfg → Option GoString
  | [] => none
  | e :: rest =>
    if e.File = [] then some ("file is required for endpoint ".toList ++ e.Name)
    else if e.FileFormat = [] then some ("file_format is required for endpoint ".toList ++ e.Name)
    else if e.AutoReload < 0 then some ("auto_reload must be >= 0 for endpoint ".toList ++ e.Name)
    else
      match validateModes e.Name e.Modes with
      | some err => some err
      | none => validateEndpoints rest

/-- The method `Config.Validate`: the error it returns, `none` for `nil`. -/
def Config.Validate (c : Config) : Option GoString :=
  validateEndpoints c.Endpoints

/-- A protocol server that `serveEndpoint` has started in a goroutine of its own. -/
inductive Listener where
  | http (ipsrv : FiberServer)
  | socket (ipsrv : NetworkServer)

/-- The index a started server answers from. -/
def Listener.looker : Listener → Looker
  | .http ipsrv => ipsrv.l
  | .socket ipsrv => ipsrv.l

/-- The loop `for _, m := range ep.Modes` of `serveEndpoint`: the servers it starts, in
order; a mode that is neither `http` nor `socket` starts nothing. -/
def startListeners (looker : Looker) (ep : EndpointCfg) : List GoString → List Listener
  | [] => []
  | m :: rest =>
    if m = "http".toList then
      .http (NewFibreServer looker ep.HTTPListener ep.HTTPBasePath) :: startListeners looker ep rest
    else if m = "socket".toList then
      .socket (NewNetworkServer looker ep.SocketListener) :: startListeners looker ep rest
    else startListeners looker ep rest

/-- One thing the reload goroutine of `serveEndpoint` does: a call of `time.Sleep` with a
duration in nanoseconds, or the reload step on the file (`reloadStep`). -/
inductive ReloadEvent where
  | sleep (d : Int)
  | reload (file : GoString)
  deriving DecidableEq, Repr

/-- The goroutine that `serveEndpoint` starts for reloading: what it does from its start to
its return, in order.  The duration is `time.Duration(ep.AutoReload) * time.Minute`, a
64-bit integer. -/
def reloadGoroutine (ep : EndpointCfg) : List ReloadEvent :=
  if ep.AutoReload > 0 then [.sleep (toInt (ep.AutoReload * 60000000000)), .reload ep.File]
  else []

/-- The loop `for i := 0; i < len(ep.Modes); i++` of `serveEndpoint` that receives from
`errc`, run on the values that the servers send to the channel, in the order of their
arrival (`none` is `nil`): the number of values received, and what the loop leads to:
`some err` when `serveEndpoint` returns `err`, `none` when it blocks on the channel for
ever. -/
def waitListeners : Nat → List (Option GoString) → Nat × Option (Option GoString)
  | 0, _ => (0, some none)
  | _ + 1, [] => (0, none)
  | _ + 1, some err :: _ => (1, some (some err))
  | n + 1, none :: rest => ((waitListeners n rest).1 + 1, (waitListeners n rest).2)

/-- What a call of `serveEndpoint` does: the servers started, the reload goroutine started,
the number of values received from `errc`, and the error returned (`some none` for `nil`;
`none` when the call never returns). -/
structure ServeResult where
  started : List Listener
  reloader : List ReloadEvent
  received : Nat
  returned : Option (Option GoString)

/-- The function `serveEndpoint`; `fetched` is the result of `fetchFile(ep.File)` and
`completions` are the values that the started servers send to `errc`, in the order of their
arrival.  The outer `none` is a run-time fault while the index is built. -/
def serveEndpoint (ep : EndpointCfg) (fetched : Except GoString Reader)
    (completions : List (Option GoString)) : Option ServeResult :=
  match fetched with
  | .error err =>
    some ⟨[], [], 0, some (some ("failed to fetch file ".toList ++ ep.File ++ ": ".toList ++ err))⟩
  | .ok r =>
    match populateLooker r with
    | none => none
    | some (.error err) => some ⟨[], [], 0, some (some ("failed to populate looker: ".toList ++ err))⟩
    | some (.ok looker) =>
      let started := startListeners looker ep ep.Modes
      let reloader := reloadGoroutine ep
      let w := waitListeners ep.Modes.length completions
      some ⟨started, reloader, w.1, w.2⟩

end main

end Grizz

/-! ## The test helper `listToLooker` of package `ip` (`ip/ip_test.go`) -/

namespace Grizz

namespace ip

open net

/-- The loop of `listToLooker` over the texts left, from the index `t`; `none` is a run-time
fault: of an insertion, or of `*IPnet` for the `nil` that `ParseCIDR` returns with an
error. -/
def listToLookerLoop : Looker → List GoString → Option Looker
  | t, [] => some t
  | t, v :: rest =>
    match ParseCIDR v with
    | none => none
    | some (_, ipnet) =>
      match t.Insert ipnet with
      | none => none
      | some t1 => listToLookerLoop t1 rest

/-- The function `listToLooker`. -/
def listToLooker (l : List GoString) : Option Looker :=
  match NewTrie [] with
  | none => none
  | some t => listToLookerLoop t l

end ip

end Grizz

/-! # fakedns: loading the rules (`src/fakedns/main.go`) -/

namespace Fakedns

open Grizz Grizz.net

/-- The constant `matchPrefix`. -/
def matchPrefix : Nat := 1

/-- The constant `matchSuffix`. -/
def matchSuffix : Nat := 2

/-- The constant `matchFQDN`. -/
def matchFQDN : Nat := 3

/-- The type `TreeValue`; `IP` is `none` for `nil`. -/
structure TreeValue where
  Entry : GoString
  Mode : Nat
  IP : Option IP
  deriving DecidableEq, Repr

/-- The zero value of `TreeValue`, which a map gives for a key it does not hold. -/
def TreeValue.zero : TreeValue := ⟨[], 0, none⟩

/-- A `map[string]TreeValue`: the keys with their values. -/
abbrev RouteMap := List (GoString × TreeValue)

/-- The value `m[key]`. -/
def RouteMap.get (m : RouteMap) (key : GoString) : TreeValue :=
  match m.find? (fun kv => kv.1 == key) with
  | some kv => kv.2
  | none => TreeValue.zero

/-- The assignment `m[key] = value`. -/
def RouteMap.set (m : RouteMap) (key : GoString) (value : TreeValue) : RouteMap :=
  (key, value) :: m.filter (fun kv => kv.1 != key)

/-- A `tst.TernarySearchTree` as far as loading uses it: the insertions made into it, in
order, each a key with its value. -/
abbrev Tree := List (GoString × TreeValue)

/-- The method `TernarySearchTree.Insert`. -/
def Tree.Insert (t : Tree) (key : GoString) (value : TreeValue) : Tree :=
  t ++ [(key, value)]

/-- The routing tables of the type `FakeDNS`. -/
structure FakeDNS where
  routePrefixes : Tree
  routeSuffixes : Tree
  routeFQDNs : RouteMap
  deriving DecidableEq, Repr

/-- The body of the loop `for scanner.Scan()` of `LoadDomainsCsv` for one line, given
lower-cased; `reverse` is the function `reverse` of the program.  `none` is a run-time
fault: an index outside the slice `fqdn`. -/
def loadLine (reverse : GoString → GoString) (c : FakeDNS) (lowerCaseLine : GoString) :
    Option FakeDNS :=
  let fqdn := strings.splitByte ',' lowerCaseLine []
  let fqdn := if fqdn.length ≠ 3 then [lowerCaseLine, "fqdn".toList] else fqdn
  match fqdn[1]? with
  | none => none
  | some entryType =>
    if entryType = "prefix".toList then
      match fqdn[0]?, fqdn[2]? with
      | some f0, some f2 =>
        let m := c.routeFQDNs.set f0 ⟨f0, matchPrefix, ParseIP f2⟩
        some { c with routeFQDNs := m, routePrefixes := c.routePrefixes.Insert f0 (m.get f0) }
      | _, _ => none
    else if entryType = "suffix".toList then
      match fqdn[0]?, fqdn[2]? with
      | some f0, some f2 =>
        let m := c.routeFQDNs.set f0 ⟨f0, matchSuffix, ParseIP f2⟩
        some { c with routeFQDNs := m,
                      routeSuffixes := c.routeSuffixes.Insert (reverse f0) (m.get f0) }
      | _, _ => none
    else if entryType = "fqdn".toList then
      match fqdn[0]?, fqdn[2]? with
      | some f0, some f2 => some { c with routeFQDNs := c.routeFQDNs.set f0 ⟨f0, matchFQDN, ParseIP f2⟩ }
      | _, _ => none
    else
      match fqdn[0]?, fqdn[2]? with
      | some f0, some f2 => some { c with routeFQDNs := c.routeFQDNs.set f0 ⟨f0, matchFQDN, ParseIP f2⟩ }
      | _, _ => none

/-- The loop `for scanner.Scan()` of `LoadDomainsCsv` over the lines that the scanner
yields; `toLower` is `strings.ToLower`. -/
def loadLines (toLower reverse : GoString → GoString) : FakeDNS → List GoString → Option FakeDNS
  | c, [] => some c
  | c, line :: rest =>
    match loadLine reverse c (toLower line) with
    | none => none
    | some c1 => loadLines toLower reverse c1 rest

/-- The method `FakeDNS.LoadDomainsCsv`: the tables after the call and the error returned
(`none` for `nil`); `opened` is the result of opening or fetching `Filename`, the lines that
the scanner yields or the error.  The outer `none` is a run-time fault. -/
def FakeDNS.LoadDomainsCsv (toLower reverse : GoString → GoString) (_c : FakeDNS)
    (opened : Except GoString (List GoString)) : Option (FakeDNS × Option GoString) :=
  let c : FakeDNS := ⟨[], [], []⟩
  match opened with
  | .error err => some (c, some err)
  | .ok lines => (loadLines toLower reverse c lines).map (fun c1 => (c1, none))

end Fakedns

/-! # elasticdump: the command line (`src/elasticdump/elasticdump.go`) -/

namespace Elasticdump

open Grizz

/-- The type `Config`; `R` is the type `*regexp.Regexp`. -/
structure Config (R : Type) where
  TargetIP : GoString
  TargetPort : Nat
  MinDocCount : Nat
  MinIndexSizeKB : Nat
  IndexRegex : R

/-- The function `parseFlags` after `flag.Parse()`: the arguments are the values of the
flags, the numbers being Go `uint`s, and `compile` is `regexp.Compile` with the text of its
error. -/
def parseFlags {R : Type} (compile : GoString → Except GoString R) (targetIP : GoString)
    (targetPort minDocCount minIndexSizeKB : Nat) (indexRegex : GoString) :
    Except GoString (Config R) :=
  if targetPort > 65535 then
    .error ("targetPort must be between 1 and 65535, got ".toList ++ strconv.Itoa targetPort)
  else if targetIP = [] then .error "targetIP is required".toList
  else
    match compile indexRegex with
    | .error err => .error ("invalid regex pattern: ".toList ++ err)
    | .ok re => .ok ⟨targetIP, targetPort, minDocCount, minIndexSizeKB, re⟩

end Elasticdump

/-! # Notions used in the statements and proofs -/

namespace Grizz

open net rnet cidranger ip main

/-- The codec of a connection of the minimal-HTTP server after the handler has served the
given inbound buffers, in order, since `OnOpen`. -/
def codecAfter : List (HTTPServer × GoString × GoString) → httpCodec
  | [] => HTTPServer.OnOpen
  | (hs, now, buf) :: earlier => (hs.OnTraffic now (codecAfter earlier) buf).hc

/-- The response of the minimal-HTTP server with the given `Date` text and 2-byte body. -/
def httpResponse (now body : GoString) : GoString :=
  "HTTP/1.1 200 OK\r\nServer: gnet\r\nContent-Type: text/plain\r\nDate: ".toList ++ now
    ++ "\r\nContent-Length: 2\r\n\r\n".toList ++ body

/-- The reader that yields the given records; each record is its first field with the
fields after it. -/
def readerOfRecords (entries : List (GoString × List GoString)) : Reader :=
  entries.map (fun e => ReadResult.record e.1 e.2)

/-- The network that `getIPNets` makes of one source entry, `none` when CIDR parsing
rejects the entry as `parseLineToCIDR` hands it on. -/
def entryNet (entry : GoString) : Option IPNet :=
  (ParseCIDR (parseLineToCIDR entry)).map (·.2)

/-- Every element of the list is a byte. -/
def IsBytes (b : List Nat) : Prop := ∀ x ∈ b, x < 256

/-- Bit `i` of a byte string, counted from the most significant bit of the first byte. -/
def bbit (b : List Nat) (i : Nat) : Bool := (b.getD (i / 8) 0).testBit (7 - i % 8)

/-- Bit `i` of a string of 32-bit words, counted from the most significant bit of the first
word. -/
def wbit (ws : List Nat) (i : Nat) : Bool := (ws.getD (i / 32) 0).testBit (31 - i % 32)

/-- The words of a byte string of 4 bytes. -/
def words1 (b : List Nat) : List Nat := [bigEndianUint32 b 0]

/-- The words of a byte string of 16 bytes. -/
def words4 (b : List Nat) : List Nat :=
  [bigEndianUint32 b 0, bigEndianUint32 b 4, bigEndianUint32 b 8, bigEndianUint32 b 12]

/-- The words of a byte string of `W` bits, for `W` 32 or 128. -/
def wordsOf (W : Nat) (b : List Nat) : List Nat := if W = 32 then words1 b else words4 b

/-- An address that has a 4-byte form although it is 16 bytes long: an IPv4-mapped IPv6
address, `::ffff:a.b.c.d`. -/
def IsMapped (ip : List Nat) : Prop :=
  ip.length = 16 ∧ (∀ i < 10, ip.getD i 0 = 0) ∧ ip.getD 10 0 = 0xff ∧ ip.getD 11 0 = 0xff

/-- The address `ip` of `W` bits cut to its first `j` bits. -/
def maskIP (W j : Nat) (ip : List Nat) : List Nat :=
  List.zipWith (· &&& ·) ip (cidrMaskBytes (W / 8) j)

/-- A canonical network address of `W` bits with prefix length `k`: the right number of
bytes, nothing set after the first `k` bits, and for IPv6 not an IPv4-mapped address. -/
structure Canon (W k : Nat) (ip : List Nat) : Prop where
  len : ip.length * 8 = W
  bytes : IsBytes ip
  le : k ≤ W
  zero : ∀ i, k ≤ i → bbit ip i = false
  v6 : W = 128 → ¬ IsMapped ip

/-- The network of `W` bits with address `ip` and prefix length `k`, as the trie holds
it. -/
def mkNet (W k : Nat) (ip : List Nat) : Network :=
  NewNetwork ⟨ip, CIDRMask (k : Int) (W : Int)⟩

/-- The pair `(k, ip)` is the prefix length and address of some node of the trie. -/
def Nodes : prefixTrie → Nat → List Nat → Prop
  | .null, _, _ => False
  | .node k network _ c0 c1, k', ip' =>
    (k = k' ∧ network.IPNet.IP = ip') ∨ Nodes c0 k' ip' ∨ Nodes c1 k' ip'

/-- The pair `(k, ip)` is the prefix length and address of some node of the trie that holds
an entry. -/
def HasEntry : prefixTrie → Nat → List Nat → Prop
  | .null, _, _ => False
  | .node k network e c0 c1, k', ip' =>
    (e.isSome = true ∧ k = k' ∧ network.IPNet.IP = ip') ∨ HasEntry c0 k' ip' ∨ HasEntry c1 k' ip'

/-- Every node of the trie `t` has a prefix longer than `k` that starts with the first `k`
bits of `ip` followed by the bit `b`. -/
def Below (k : Nat) (ip : List Nat) (b : Bool) (t : prefixTrie) : Prop :=
  ∀ k' ip', Nodes t k' ip' → k < k' ∧ (∀ i < k, bbit ip' i = bbit ip i) ∧ bbit ip' k = b

/-- The invariant of a trie of networks of `W` bits: every node holds a canonical network
whose prefix length is the number of bits it skips, and the nodes under its child `b` extend
its prefix by the bit `b`. -/
def WF (W : Nat) : prefixTrie → Prop
  | .null => True
  | .node k network _ c0 c1 =>
    Canon W k network.IPNet.IP ∧ network = mkNet W k network.IPNet.IP
      ∧ Below k network.IPNet.IP false c0 ∧ Below k network.IPNet.IP true c1
      ∧ WF W c0 ∧ WF W c1

/-- The index of the child for the bit `b`. -/
def bitOf (b : Bool) : Nat := if b then 1 else 0

/-- The trie has the root with prefix length `k` and network `pnet`. -/
def RootIs (t : prefixTrie) (k : Nat) (pnet : Network) : Prop :=
  ∃ e c0 c1, t = .node k pnet e c0 c1

/-- A node that an insertion of the network `(kN, ipN)` below a node of prefix length `k`
may create: its prefix is a prefix of the inserted network, at least `k` long. -/
def NewNode (k kN : Nat) (ipN : List Nat) (k' : Nat) (ip' : List Nat) : Prop :=
  k ≤ k' ∧ k' ≤ kN ∧ ∀ i < k', bbit ip' i = bbit ipN i

/-- The address a query is compared with: its 4-byte form when it has one. -/
def queryBytes (a : List Nat) : List Nat := (IP.To4 a).getD a

/-- A network as `net.ParseCIDR` returns it: an address of 4 or 16 bytes masked to a prefix
length, with the mask of that length. -/
def IsCIDR (n : IPNet) : Prop :=
  ∃ (W k : Nat) (ip : List Nat), (W = 32 ∨ W = 128) ∧ k ≤ W ∧ ip.length * 8 = W ∧ IsBytes ip
    ∧ n = ⟨IP.Mask ip (CIDRMask (k : Int) (W : Int)), CIDRMask (k : Int) (W : Int)⟩

/-- An IPv4-mapped IPv6 network with a prefix length above 96, `::ffff:a.b.c.d/n` with
`n > 96`. -/
def IsMappedBlock (n : IPNet) : Prop :=
  IsMapped n.IP ∧ 96 < n.Mask.Size.1

/-- The network `::ffff:0.0.0.0/96` of all IPv4-mapped addresses. -/
def mapped96 : IPNet := ⟨v4InV6Prefix ++ [0, 0, 0, 0], cidrMaskBytes 16 96⟩

/-- The three forms of a network that is not an IPv4-mapped network of prefix length above
96: a canonical IPv4 network, a canonical IPv6 network, or `::ffff:0.0.0.0/96`. -/
def GoodForm (n : IPNet) : Prop :=
  (∃ W k ip, (W = 32 ∨ W = 128) ∧ Canon W k ip ∧ n = ⟨ip, CIDRMask (k : Int) (W : Int)⟩)
    ∨ n = mapped96

/-- The all-zero address of `W` bits. -/
def zeroIP (W : Nat) : List Nat := List.replicate (W / 8) 0

/-- The state of a ranger that holds exactly the networks of the set `S`: both tries are
well formed, and the nodes with an entry are the nodes of the networks of `S`, the network
`::ffff:0.0.0.0/96` being held at the root of the IPv4 trie. -/
structure RangerOK (S : IPNet → Prop) (v : versionedRanger) : Prop where
  root4 : RootIs v.ipV4Ranger 0 (mkNet 32 0 (zeroIP 32))
  wf4 : WF 32 v.ipV4Ranger
  ent4 : ∀ k ip, HasEntry v.ipV4Ranger k ip ↔
    ∃ n, S n ∧ ((Canon 32 k ip ∧ n = ⟨ip, CIDRMask (k : Int) ((32 : Nat) : Int)⟩)
      ∨ (n = mapped96 ∧ k = 0 ∧ ip = zeroIP 32))
  root6 : RootIs v.ipV6Ranger 0 (mkNet 128 0 (zeroIP 128))
  wf6 : WF 128 v.ipV6Ranger
  ent6 : ∀ k ip, HasEntry v.ipV6Ranger k ip ↔
    ∃ n, S n ∧ Canon 128 k ip ∧ n = ⟨ip, CIDRMask (k : Int) ((128 : Nat) : Int)⟩

/-- The result of `ParseCIDR` on an address text followed by `/` and a length text. -/
def parseCIDRParts (a m : GoString) : Option (IP × IPNet) :=
  match ParseAddr a with
  | none => none
  | some ipAddr =>
    if ipAddr.Zone ≠ [] then none
    else if ¬ (dtoi m).2.2 ∨ (dtoi m).2.1 ≠ m.length ∨ (dtoi m).1 > ipAddr.BitLen then none
    else
      some (ipAddr.As16,
        ⟨IP.Mask ipAddr.As16 (CIDRMask (dtoi m).1 ipAddr.BitLen), CIDRMask (dtoi m).1 ipAddr.BitLen⟩)

instance (x : List Nat) : Decidable (IsMapped x) := by
  unfold IsMapped
  infer_instance

instance (n : IPNet) : Decidable (IsMappedBlock n) := by
  unfold IsMappedBlock
  infer_instance

instance (b : List Nat) : Decidable (IsBytes b) := by
  unfold IsBytes
  infer_instance

/-- The network `10.0.0.0/24`. -/
def net10 : IPNet := ⟨[10, 0, 0, 0], [255, 255, 255, 0]⟩

/-- The network `::ffff:1.2.3.4/128` as `ParseCIDR` returns it. -/
def netMapped : IPNet :=
  ⟨[0, 0, 0, 0, 0, 0, 0, 0, 0, 0, 255, 255, 1, 2, 3, 4],
    [255, 255, 255, 255, 255, 255, 255, 255, 255, 255, 255, 255, 255, 255, 255, 255]⟩

/-- The network `192.168.0.0/16`. -/
def net192 : IPNet := ⟨[192, 168, 0, 0], [255, 255, 0, 0]⟩

/-- The network `::ffff:10.0.0.1/128` as `ParseCIDR` returns it. -/
def netMapped10 : IPNet :=
  ⟨[0, 0, 0, 0, 0, 0, 0, 0, 0, 0, 255, 255, 10, 0, 0, 1],
    [255, 255, 255, 255, 255, 255, 255, 255, 255, 255, 255, 255, 255, 255, 255, 255]⟩

/-- The answer of the index loaded from the given source entries to the address written in
`q`; `none` when loading fails or `q` is no address. -/
def loadAndAsk (entries : List GoString) (q : GoString) : Option Bool :=
  match populateLooker (readerOfRecords (entries.map (fun e => (e, [])))), ParseIP q with
  | some (.ok l), some x => some (l.Contains x)
  | _, _ => none

/-- An address that the trie of networks of `W` bits is asked about: its bytes in the form
the comparison uses are `W` bits long and its number is made of their words. -/
def IsQuery (W : Nat) (a : List Nat) : Prop :=
  IsBytes a ∧ (queryBytes a).length * 8 = W ∧ NewNetworkNumber a = wordsOf W (queryBytes a)

/-- What holds of every node of a trie of networks of `W` bits, whatever was inserted: the
network of the node is either one without a mask, which contains no number, or a canonical
network; and the entry of the node, if any, is one of `S` that contains every address whose
number the network of the node contains. -/
def NodeOK (W : Nat) (S : IPNet → Prop) (network : Network) (entry : Option IPNet) : Prop :=
  (network.Mask = [] ∨ ∃ k ip, Canon W k ip ∧ network = mkNet W k ip)
    ∧ ∀ e, entry = some e →
        S e ∧ ∀ a, IsQuery W a → network.Contains (NewNetworkNumber a) = true → e.Contains a = true

/-- Every node of the trie is as `NodeOK` says. -/
def AllOK (W : Nat) (S : IPNet → Prop) : prefixTrie → Prop
  | .null => True
  | .node _ network e c0 c1 => NodeOK W S network e ∧ AllOK W S c0 ∧ AllOK W S c1

/-- The state of a ranger whose entries all come from `S`. -/
def RangerSound (S : IPNet → Prop) (v : versionedRanger) : Prop :=
  AllOK 32 S v.ipV4Ranger ∧ AllOK 128 S v.ipV6Ranger

/-- The number of reload steps that a goroutine doing `events` has started when `t`
nanoseconds have passed since its start.  Only sleeping takes time, and `time.Sleep` returns
at once when the duration is not positive. -/
def reloadsBy : Int → List ReloadEvent → Nat
  | _, [] => 0
  | t, .sleep d :: rest => if max d 0 ≤ t then reloadsBy (t - max d 0) rest else 0
  | t, .reload _ :: rest => reloadsBy t rest + 1

/-- An endpoint with the modes `http` and `socket` that reloads every minute. -/
def endpointBoth : EndpointCfg :=
  { Type_ := "ip".toList, Name := "nz".toList, Modes := ["http".toList, "socket".toList],
    HTTPListener := ":8080".toList, SocketListener := "tcp://:9090".toList,
    HTTPBasePath := "/".toList, File := "ranges.csv".toList, FileFormat := "csv".toList,
    Inverted := false, AutoReload := 1 }

/-- The server that `serveEndpoint` starts for a mode that `Config.Validate` accepts. -/
def listenerFor (looker : Looker) (ep : EndpointCfg) (m : GoString) : Listener :=
  if m = "http".toList then .http (NewFibreServer looker ep.HTTPListener ep.HTTPBasePath)
  else .socket (NewNetworkServer looker ep.SocketListener)

/-- A configuration with the one endpoint `endpointBoth`. -/
def configBoth : Config := { LogLevel := "info".toList, Endpoints := [endpointBoth] }

/-- The states of an index that `NewTrie`, `Insert` and `Reload` lead to when every network
given to them is one that `ParseCIDR` returns and none is an IPv4-mapped IPv6 network of
prefix length above 96. -/
inductive Built : Looker → Prop where
  | newTrie (P : List IPNet) (l : Looker) (hP : ∀ n ∈ P, IsCIDR n ∧ ¬ IsMappedBlock n)
      (h : NewTrie P = some l) : Built l
  | insert (l : Looker) (p : IPNet) (l' : Looker) (hl : Built l)
      (hp : IsCIDR p ∧ ¬ IsMappedBlock p) (h : l.Insert p = some l') : Built l'
  | reload (l : Looker) (P : List IPNet) (l' : Looker) (hl : Built l)
      (hP : ∀ n ∈ P, IsCIDR n ∧ ¬ IsMappedBlock n) (h : l.Reload P = some l') : Built l'

/-- A character that a textual IP address without zone can hold: a hexadecimal digit, a
colon or a dot. -/
def IsAddrChar (c : Char) : Prop := (hexDigit c).isSome = true ∨ c = ':' ∨ c = '.'

/-- The value of a text of decimal digits. -/
def decimalValue (s : GoString) : Nat :=
  s.foldl (fun acc c => acc * 10 + (c.toNat - 48)) 0

/-- The body that the handlers of the two servers on `gnet` send for an address. -/
def answerLine (l : Looker) (x : IP) : GoString :=
  if l.Contains x then "1\n".toList else "0\n".toList

/-- The request that asks the minimal-HTTP server for the path `basepath ++ s`. -/
def getRequest (basepath s r : GoString) : GoString :=
  "GET ".toList ++ (basepath ++ s) ++ " HTTP/1.1\r\n".toList ++ r

/-- The index `t` after `Insert` of each network of the list, in order; `none` is a run-time
fault of one of the insertions. -/
def insertEach : Looker → List IPNet → Option Looker
  | t, [] => some t
  | t, n :: rest =>
    match t.Insert n with
    | none => none
    | some t1 => insertEach t1 rest

/-- The network `1.2.3.4/32`. -/
def net1234 : IPNet := ⟨[1, 2, 3, 4], [255, 255, 255, 255]⟩

/-- The network `10.0.0.1/32`. -/
def net10001 : IPNet := ⟨[10, 0, 0, 1], [255, 255, 255, 255]⟩

/-- The network that `getIPNets` makes of one result of the reader: of a record, the network
of its first field; nothing of a read error. -/
def resultNet : ReadResult → Option IPNet
  | .error _ => none
  | .record first _ => entryNet first

end Grizz

/-! # Properties -/

namespace Grizz

open net rnet cidranger ip main

/-! ## Text helpers -/

theorem strings_HasPrefix_single (c : Char) (s : GoString) :
    strings.HasPrefix s [c] = true ↔ s.head? = some c := by
  cases s with
  | nil => simp [strings.HasPrefix]
  | cons d s => simp [strings.HasPrefix]

theorem strings_Contains_single (c : Char) (s : GoString) :
    strings.Contains s [c] = true ↔ c ∈ s := by
  induction s with
  | nil => simp [strings.Contains]
  | cons d s ih =>
    simp only [strings.Contains, Bool.or_eq_true, ih, strings_HasPrefix_single, List.head?_cons,
      Option.some.injEq, List.mem_cons]
    constructor
    · rintro (h | h)
      · exact Or.inl h.symm
      · exact Or.inr h
    · rintro (h | h)
      · exact Or.inl h.symm
      · exact Or.inr h

theorem take_length_pred_append (s : GoString) (c : Char) :
    (s ++ [c]).take ((s ++ [c]).length - 1) = s := by
  simp

/-! ## The line protocol and the two HTTP front-ends -/

/-- Claim C4.  For every text `s`, the line-protocol handler given the payload `s` followed
by a newline writes exactly `error: invalid IP format` (with a newline) when `s` is not a
textual IP address, and otherwise exactly `1` or `0` followed by a newline according to
whether the index contains the parsed address; that answer is 2 bytes long. -/
theorem NetworkServer_OnTraffic_line (ipsrv : NetworkServer) (s : GoString) :
    ipsrv.OnTraffic (s ++ ['\n'])
        = some (match ParseIP s with
          | none => "error: invalid IP format\n".toList
          | some ip => if ipsrv.l.Contains ip then ['1', '\n'] else ['0', '\n'])
      ∧ (∀ ip, ParseIP s = some ip →
          ∃ out, ipsrv.OnTraffic (s ++ ['\n']) = some out ∧ out.length = 2) := by
  have hlen : (s ++ ['\n']).length ≠ 0 := by simp
  have key : ipsrv.OnTraffic (s ++ ['\n'])
        = some (match ParseIP s with
          | none => "error: invalid IP format\n".toList
          | some ip => if ipsrv.l.Contains ip then ['1', '\n'] else ['0', '\n']) := by
    unfold NetworkServer.OnTraffic
    rw [if_neg hlen, take_length_pred_append]
    cases ParseIP s with
    | none => rfl
    | some ip =>
      by_cases hc : ipsrv.l.Contains ip = true
      · simp [hc]
      · simp [hc]
  refine ⟨key, ?_⟩
  intro ip hip
  rw [key, hip]
  by_cases hc : ipsrv.l.Contains ip = true
  · exact ⟨_, rfl, by simp [hc]⟩
  · exact ⟨_, rfl, by simp [hc]⟩

theorem OnTraffic_keeps_buf_empty (hs : HTTPServer) (now : GoString) (hc : httpCodec)
    (buf : GoString) (h : hc.buf = []) : (hs.OnTraffic now hc buf).hc.buf = [] := by
  unfold HTTPServer.OnTraffic
  simp only
  split
  · exact h
  · rfl

theorem codecAfter_buf (history : List (HTTPServer × GoString × GoString)) :
    (codecAfter history).buf = [] := by
  induction history with
  | nil => rfl
  | cons x earlier ih =>
    obtain ⟨hs, now, buf⟩ := x
    exact OnTraffic_keeps_buf_empty hs now _ buf ih

/-- Claim C5.  On a connection in any state the handler can have brought it to, for every
inbound buffer, with `t` the second space-separated token of the buffer (empty when there
is none) without the leading base path: when `t` is not a textual IP address the handler
writes exactly the line `error: invalid IP format` and nothing else; when `t` parses to
`ip` it writes exactly one response, which starts with `HTTP/1.1 200 OK`, announces a
content length of 2 and has the body `1` or `0` followed by a newline according to whether
the index contains `ip`. -/
theorem HTTPServer_OnTraffic_response (history : List (HTTPServer × GoString × GoString))
    (hs : HTTPServer) (now buf : GoString) :
    (hs.OnTraffic now (codecAfter history) buf).written
      = [match ParseIP (strings.TrimPrefix ((strings.SplitSpace buf).getD 1 []) hs.basepath) with
          | none => "error: invalid IP format\n".toList
          | some ip => httpResponse now (if hs.l.Contains ip then ['1', '\n'] else ['0', '\n'])] := by
  have hb := codecAfter_buf history
  unfold HTTPServer.OnTraffic httpCodec.parse
  by_cases hlen : (strings.SplitSpace buf).length < 2
  · have h1 : (strings.SplitSpace buf).getD 1 [] = [] := by
      rw [List.getD_eq_default]
      omega
    have h2 : ParseIP (strings.TrimPrefix [] hs.basepath) = none := by
      have : strings.TrimPrefix [] hs.basepath = [] := by
        unfold strings.TrimPrefix
        split <;> simp
      rw [this]
      rfl
    simp only [hlen, if_true, h1, h2]
  · simp only [hlen, if_false]
    cases hp : ParseIP (strings.TrimPrefix ((strings.SplitSpace buf).getD 1 []) hs.basepath) with
    | none => rfl
    | some ip =>
      have hnot : ¬ buf.length < 0 := Nat.not_lt_zero _
      by_cases hc : hs.l.Contains ip = true
      · simp [hc, writeResponse, httpCodec.resetParser, hb, httpResponse, strconv.Itoa,
          strconv.digitsRev]
      · simp [hc, writeResponse, httpCodec.resetParser, hb, httpResponse, strconv.Itoa,
          strconv.digitsRev]

/-- Claim C6.  For every value of the path parameter the route handler of the
framework-HTTP server sends the body `1` when the value parses as an IP address that the
index contains and the body `0` in every other case; it sends no other body. -/
theorem FiberServer_handler_body (s : FiberServer) (ipStr : GoString) :
    s.handler ipStr
        = (match ParseIP ipStr with
          | some ip => if s.l.Contains ip then ['1'] else ['0']
          | none => ['0'])
      ∧ (s.handler ipStr = ['1'] ∨ s.handler ipStr = ['0'])
      ∧ (s.handler ipStr = ['1'] ↔ ∃ ip, ParseIP ipStr = some ip ∧ s.l.Contains ip = true) := by
  unfold FiberServer.handler
  cases ParseIP ipStr with
  | none => simp
  | some ip =>
    by_cases hc : s.l.Contains ip = true
    · simp [hc]
    · simp [hc]

/-! ## Loading the source -/

theorem parseLineToCIDR_cases (line : GoString) :
    parseLineToCIDR line
      = if '/' ∈ line then line
        else if ':' ∈ line then line ++ "/128".toList
        else if '.' ∈ line then line ++ "/32".toList
        else line := by
  unfold parseLineToCIDR
  simp only [strings_Contains_single]
  rfl

/-- Claim C9.  In the reload step, when fetching the source fails, or the fetched source
makes `getIPNets` return an error, the step ends without a fault, `Reload` is not called,
an error is returned and the index is the one from before: `Contains` answers every address
as before. -/
theorem reloadStep_failure_keeps_index (file : GoString) (fetched : Except GoString Reader)
    (looker : Looker)
    (hfail : ∀ r, fetched = .ok r → ∃ err, getIPNets r = .error err) :
    ∃ res, reloadStep file fetched looker = some res
      ∧ res.reloadCalled = false ∧ res.err ≠ none ∧ res.looker = looker
      ∧ ∀ a, res.looker.Contains a = looker.Contains a := by
  cases fetched with
  | error err => exact ⟨_, rfl, rfl, by simp, rfl, fun _ => rfl⟩
  | ok r =>
    obtain ⟨err, herr⟩ := hfail r rfl
    refine ⟨⟨looker, false, some ("failed to get IPNets: ".toList ++ err)⟩, ?_, rfl, by simp, rfl,
      fun _ => rfl⟩
    simp [reloadStep, herr]

theorem getIPNetsLoop_ok (entries : List (GoString × List GoString)) (acc nets : List IPNet) :
    getIPNetsLoop (readerOfRecords entries) acc = .ok nets
      ↔ ∃ more, entries.map (fun e => entryNet e.1) = more.map some ∧ nets = acc ++ more := by
  induction entries generalizing acc with
  | nil =>
    simp only [readerOfRecords, List.map_nil, getIPNetsLoop, Except.ok.injEq]
    constructor
    · intro h
      exact ⟨[], rfl, by simp [h]⟩
    · rintro ⟨more, h1, h2⟩
      have : more = [] := by
        cases more with
        | nil => rfl
        | cons x xs => simp at h1
      simp [h2, this]
  | cons e rest ih =>
    have hstep : getIPNetsLoop (readerOfRecords (e :: rest)) acc
        = match ParseCIDR (parseLineToCIDR e.1) with
          | none => .error ("failed to parse CIDR ".toList ++ parseLineToCIDR e.1
              ++ ": invalid CIDR address: ".toList ++ parseLineToCIDR e.1)
          | some (_, ipnet) => getIPNetsLoop (readerOfRecords rest) (acc ++ [ipnet]) := rfl
    rw [hstep]
    cases hp : ParseCIDR (parseLineToCIDR e.1) with
    | none =>
      simp only [List.map_cons, entryNet, hp, Option.map_none']
      constructor
      · intro h
        cases h
      · rintro ⟨more, h1, _⟩
        cases more with
        | nil => simp at h1
        | cons x xs => simp at h1
    | some pr =>
      obtain ⟨ipaddr, ipnet⟩ := pr
      simp only [ih, List.map_cons, entryNet, hp, Option.map_some']
      constructor
      · rintro ⟨more, h1, h2⟩
        exact ⟨ipnet :: more, by simp [h1, entryNet], by simp [h2]⟩
      · rintro ⟨more, h1, h2⟩
        cases more with
        | nil => simp at h1
        | cons x xs =>
          simp only [List.map_cons, List.cons.injEq, Option.some.injEq] at h1
          exact ⟨xs, h1.2, by simp [h2, h1.1]⟩

theorem getIPNetsLoop_error (entries : List (GoString × List GoString)) (acc : List IPNet) :
    (∃ err, getIPNetsLoop (readerOfRecords entries) acc = .error err)
      ↔ ∃ e ∈ entries, entryNet e.1 = none := by
  induction entries generalizing acc with
  | nil => simp [readerOfRecords, getIPNetsLoop]
  | cons e rest ih =>
    have hstep : getIPNetsLoop (readerOfRecords (e :: rest)) acc
        = match ParseCIDR (parseLineToCIDR e.1) with
          | none => .error ("failed to parse CIDR ".toList ++ parseLineToCIDR e.1
              ++ ": invalid CIDR address: ".toList ++ parseLineToCIDR e.1)
          | some (_, ipnet) => getIPNetsLoop (readerOfRecords rest) (acc ++ [ipnet]) := rfl
    rw [hstep]
    cases hp : ParseCIDR (parseLineToCIDR e.1) with
    | none =>
      constructor
      · intro _
        exact ⟨e, List.mem_cons_self _ _, by simp [entryNet, hp]⟩
      · intro _
        exact ⟨_, rfl⟩
    | some pr =>
      obtain ⟨ipaddr, ipnet⟩ := pr
      simp only [ih, List.mem_cons, exists_eq_or_imp, entryNet, hp, Option.map_some']
      simp [entryNet]

/-! ## Addresses as bit strings -/

theorem IsBytes.getD_lt {b : List Nat} (h : IsBytes b) (i : Nat) : b.getD i 0 < 256 := by
  rw [List.getD_eq_getElem?_getD]
  cases hi : b[i]? with
  | none => simp
  | some x =>
    simp only [Option.getD_some]
    exact h x (List.getElem?_mem hi)

theorem testBit_byte_high {x j : Nat} (hx : x < 256) (hj : 8 ≤ j) : x.testBit j = false := by
  apply Nat.testBit_lt_two_pow
  calc x < 2 ^ 8 := hx
    _ ≤ 2 ^ j := Nat.pow_le_pow_right (by decide) hj

theorem testBit_bigEndianUint32 (b : List Nat) (hb : IsBytes b) (idx j : Nat) (hj : j < 32) :
    (bigEndianUint32 b idx).testBit j = (b.getD (idx + 3 - j / 8) 0).testBit (j % 8) := by
  have h0 := hb.getD_lt idx
  have h1 := hb.getD_lt (idx + 1)
  have h2 := hb.getD_lt (idx + 2)
  have h3 := hb.getD_lt (idx + 3)
  unfold bigEndianUint32
  have c : j / 8 = 0 ∨ j / 8 = 1 ∨ j / 8 = 2 ∨ j / 8 = 3 := by omega
  rcases c with c | c | c | c
  · have e1 : j % 8 = j := by omega
    have e2 : idx + 3 - j / 8 = idx + 3 := by omega
    rw [e1, e2]
    generalize b.getD idx 0 = x0 at *
    generalize b.getD (idx + 1) 0 = x1 at *
    generalize b.getD (idx + 2) 0 = x2 at *
    generalize b.getD (idx + 3) 0 = x3 at *
    have l8 : ¬ 8 ≤ j := by omega
    have l16 : ¬ 16 ≤ j := by omega
    have l24 : ¬ 24 ≤ j := by omega
    simp [l8, l16, l24]
  · have e1 : j % 8 = j - 8 := by omega
    have e2 : idx + 3 - j / 8 = idx + 2 := by omega
    rw [e1, e2]
    generalize b.getD idx 0 = x0 at *
    generalize b.getD (idx + 1) 0 = x1 at *
    generalize b.getD (idx + 2) 0 = x2 at *
    generalize b.getD (idx + 3) 0 = x3 at *
    have l8 : 8 ≤ j := by omega
    have l16 : ¬ 16 ≤ j := by omega
    have l24 : ¬ 24 ≤ j := by omega
    simp [l8, l16, l24, testBit_byte_high h3 l8]
  · have e1 : j % 8 = j - 16 := by omega
    have e2 : idx + 3 - j / 8 = idx + 1 := by omega
    rw [e1, e2]
    generalize b.getD idx 0 = x0 at *
    generalize b.getD (idx + 1) 0 = x1 at *
    generalize b.getD (idx + 2) 0 = x2 at *
    generalize b.getD (idx + 3) 0 = x3 at *
    have l8 : 8 ≤ j := by omega
    have l16 : 16 ≤ j := by omega
    have l24 : ¬ 24 ≤ j := by omega
    have g8 : 8 ≤ j - 8 := by omega
    simp [l8, l16, l24, testBit_byte_high h3 l8, testBit_byte_high h2 g8]
  · have e1 : j % 8 = j - 24 := by omega
    have e2 : idx + 3 - j / 8 = idx := by omega
    rw [e1, e2]
    generalize b.getD idx 0 = x0 at *
    generalize b.getD (idx + 1) 0 = x1 at *
    generalize b.getD (idx + 2) 0 = x2 at *
    generalize b.getD (idx + 3) 0 = x3 at *
    have l8 : 8 ≤ j := by omega
    have l16 : 16 ≤ j := by omega
    have l24 : 24 ≤ j := by omega
    have g8 : 8 ≤ j - 8 := by omega
    have g16 : 8 ≤ j - 16 := by omega
    simp [l8, l16, l24, testBit_byte_high h3 l8, testBit_byte_high h2 g8,
      testBit_byte_high h1 g16]

theorem bigEndianUint32_lt (b : List Nat) (hb : IsBytes b) (idx : Nat) :
    bigEndianUint32 b idx < 2 ^ 32 := by
  apply Nat.lt_pow_two_of_testBit
  intro i hi
  have h0 := hb.getD_lt idx
  have h1 := hb.getD_lt (idx + 1)
  have h2 := hb.getD_lt (idx + 2)
  have h3 := hb.getD_lt (idx + 3)
  unfold bigEndianUint32
  simp only [Nat.testBit_or, Nat.testBit_shiftLeft]
  rw [testBit_byte_high h3 (by omega), testBit_byte_high h2 (by omega),
    testBit_byte_high h1 (by omega), testBit_byte_high h0 (by omega)]
  simp

theorem wordsOf_length (W : Nat) (hW : W = 32 ∨ W = 128) (b : List Nat) :
    (wordsOf W b).length * 32 = W := by
  rcases hW with h | h <;> subst h <;> simp [wordsOf, words1, words4]

theorem wordsOf_getD (W : Nat) (hW : W = 32 ∨ W = 128) (b : List Nat) (w : Nat) (hw : w * 32 < W) :
    (wordsOf W b).getD w 0 = bigEndianUint32 b (4 * w) := by
  rcases hW with h | h <;> subst h
  · have : w = 0 := by omega
    subst this
    simp [wordsOf, words1]
  · have c : w = 0 ∨ w = 1 ∨ w = 2 ∨ w = 3 := by omega
    rcases c with c | c | c | c <;> subst c <;> simp [wordsOf, words4]

theorem wbit_wordsOf (W : Nat) (hW : W = 32 ∨ W = 128) (b : List Nat) (hb : IsBytes b) (i : Nat)
    (hi : i < W) : wbit (wordsOf W b) i = bbit b i := by
  unfold wbit bbit
  rw [wordsOf_getD W hW b (i / 32) (by omega), testBit_bigEndianUint32 b hb _ _ (by omega)]
  congr 2 <;> omega

theorem wordsOf_lt (W : Nat) (hW : W = 32 ∨ W = 128) (b : List Nat) (hb : IsBytes b) (w : Nat) :
    (wordsOf W b).getD w 0 < 2 ^ 32 := by
  by_cases hw : w * 32 < W
  · rw [wordsOf_getD W hW b w hw]
    exact bigEndianUint32_lt b hb _
  · rw [List.getD_eq_default]
    · decide
    · have := wordsOf_length W hW b
      omega

theorem bbit_cons_lt (x : Nat) (b : List Nat) (i : Nat) (hi : i < 8) :
    bbit (x :: b) i = x.testBit (7 - i) := by
  unfold bbit
  have h1 : i / 8 = 0 := by omega
  have h2 : i % 8 = i := by omega
  rw [h1, h2]
  rfl

theorem bbit_cons_ge (x : Nat) (b : List Nat) (i : Nat) (hi : 8 ≤ i) :
    bbit (x :: b) i = bbit b (i - 8) := by
  unfold bbit
  have h1 : i / 8 = (i - 8) / 8 + 1 := by omega
  have h2 : i % 8 = (i - 8) % 8 := by omega
  rw [h1, h2]
  rfl

theorem bbit_nil (i : Nat) : bbit [] i = false := by
  simp [bbit]

theorem bbit_of_length_le (b : List Nat) (i : Nat) (hi : b.length * 8 ≤ i) : bbit b i = false := by
  unfold bbit
  rw [List.getD_eq_default]
  · simp
  · omega

/-! ## Masks -/

theorem cidrMaskBytes_length (l n : Nat) : (cidrMaskBytes l n).length = l := by
  induction l generalizing n with
  | zero => rfl
  | succ l ih =>
    unfold cidrMaskBytes
    split <;> simp [ih]

theorem maskByte_lt : ∀ n < 8, 0xff - 0xff >>> n < 256 := by decide

theorem maskByte_testBit : ∀ n < 8, ∀ i < 8, (0xff - 0xff >>> n).testBit (7 - i) = decide (i < n) := by
  decide

theorem cidrMaskBytes_isBytes (l n : Nat) : IsBytes (cidrMaskBytes l n) := by
  induction l generalizing n with
  | zero =>
    intro x hx
    simp [cidrMaskBytes] at hx
  | succ l ih =>
    intro x hx
    unfold cidrMaskBytes at hx
    split at hx
    · rcases List.mem_cons.1 hx with h | h
      · omega
      · exact ih _ x h
    · rcases List.mem_cons.1 hx with h | h
      · have := maskByte_lt n (by omega)
        omega
      · exact ih _ x h

theorem bbit_cidrMaskBytes (l n i : Nat) : bbit (cidrMaskBytes l n) i = decide (i < n ∧ i < 8 * l) := by
  induction l generalizing n i with
  | zero => simp [cidrMaskBytes, bbit_nil]
  | succ l ih =>
    unfold cidrMaskBytes
    by_cases hn : n ≥ 8
    · rw [if_pos hn]
      by_cases hi : i < 8
      · rw [bbit_cons_lt _ _ _ hi]
        have : i < n ∧ i < 8 * (l + 1) := by omega
        simp only [this, and_self, decide_True]
        have h7 : 7 - i < 8 := by omega
        revert h7
        generalize 7 - i = t
        intro h7
        interval_cases t <;> decide
      · rw [bbit_cons_ge _ _ _ (by omega), ih]
        congr 1
        apply propext
        constructor
        · rintro ⟨h1, h2⟩
          omega
        · rintro ⟨h1, h2⟩
          omega
    · rw [if_neg hn]
      by_cases hi : i < 8
      · rw [bbit_cons_lt _ _ _ hi, maskByte_testBit n (by omega) i hi]
        congr 1
        apply propext
        constructor
        · intro h
          omega
        · rintro ⟨h1, _⟩
          exact h1
      · rw [bbit_cons_ge _ _ _ (by omega), ih]
        have e1 : ¬ (i - 8 < 0 ∧ i - 8 < 8 * l) := by omega
        have e2 : ¬ (i < n ∧ i < 8 * (l + 1)) := by omega
        simp [e1, e2]

theorem cidrMaskBytes_zero_all (l : Nat) : (cidrMaskBytes l 0).all (· == 0) = true := by
  induction l with
  | zero => rfl
  | succ l ih =>
    unfold cidrMaskBytes
    rw [if_neg (by omega)]
    simp only [List.all_cons, ih, Bool.and_true]
    decide

theorem countLeadingOnes_maskByte :
    ∀ n < 8, countLeadingOnes 8 (0xff - 0xff >>> n) = (n, 0) := by
  decide

theorem maskByte_ne_ff : ∀ n < 8, 0xff - 0xff >>> n ≠ 0xff := by decide

theorem simpleMaskLength_cidrMaskBytes (l n : Nat) (h : n ≤ 8 * l) :
    simpleMaskLength (cidrMaskBytes l n) = (n : Int) := by
  induction l generalizing n with
  | zero =>
    have : n = 0 := by omega
    subst this
    rfl
  | succ l ih =>
    unfold cidrMaskBytes
    by_cases hn : n ≥ 8
    · rw [if_pos hn]
      unfold simpleMaskLength
      rw [if_pos rfl, ih (n - 8) (by omega)]
      show Int.ofNat (n - 8 + 8) = (n : Int)
      have : n - 8 + 8 = n := by omega
      rw [this]
      rfl
    · rw [if_neg hn]
      unfold simpleMaskLength
      rw [if_neg (maskByte_ne_ff n (by omega))]
      simp only [countLeadingOnes_maskByte n (by omega), ne_eq, not_true_eq_false, ↓reduceIte,
        cidrMaskBytes_zero_all]
      rfl

theorem CIDRMask_eq (W k : Nat) (hW : W = 32 ∨ W = 128) (hk : k ≤ W) :
    CIDRMask (k : Int) (W : Int) = cidrMaskBytes (W / 8) k := by
  unfold CIDRMask IPv4len IPv6len
  rcases hW with h | h <;> subst h
  · rw [if_neg (by omega), if_neg (by omega)]
    simp
  · rw [if_neg (by omega), if_neg (by omega)]
    simp

theorem CIDRMask_size (W k : Nat) (hW : W = 32 ∨ W = 128) (hk : k ≤ W) :
    (IPMask.Size (CIDRMask (k : Int) (W : Int))).1 = (k : Int) := by
  rw [CIDRMask_eq W k hW hk]
  unfold IPMask.Size
  have : simpleMaskLength (cidrMaskBytes (W / 8) k) = (k : Int) :=
    simpleMaskLength_cidrMaskBytes _ _ (by rcases hW with h | h <;> omega)
  simp only [this]
  rw [if_neg (by omega)]

/-! ## Masking an address -/

theorem getD_zipWith_and (a b : List Nat) (i : Nat) :
    (List.zipWith (· &&& ·) a b).getD i 0 = a.getD i 0 &&& b.getD i 0 := by
  induction a generalizing b i with
  | nil => simp
  | cons x a ih =>
    cases b with
    | nil => simp
    | cons y b =>
      cases i with
      | zero => simp
      | succ i =>
        have := ih b i
        simpa using this

theorem bbit_zipWith_and (a b : List Nat) (i : Nat) :
    bbit (List.zipWith (· &&& ·) a b) i = (bbit a i && bbit b i) := by
  unfold bbit
  rw [getD_zipWith_and, Nat.testBit_and]

theorem isBytes_zipWith_and (a b : List Nat) (ha : IsBytes a) :
    IsBytes (List.zipWith (· &&& ·) a b) := by
  induction a generalizing b with
  | nil =>
    intro x hx
    simp at hx
  | cons y a ih =>
    cases b with
    | nil =>
      intro x hx
      simp at hx
    | cons z b =>
      intro x hx
      simp only [List.zipWith_cons_cons, List.mem_cons] at hx
      rcases hx with h | h
      · have h1 : y < 256 := ha y (List.mem_cons_self _ _)
        have h2 : y &&& z ≤ y := Nat.and_le_left
        omega
      · exact ih b (fun w hw => ha w (List.mem_cons_of_mem _ hw)) x h

theorem IP_Mask_same_length (ip mask : List Nat) (h : ip.length = mask.length) :
    IP.Mask ip mask = List.zipWith (· &&& ·) ip mask := by
  unfold IP.Mask IPv4len IPv6len
  have h1 : ¬ (mask.length = 16 ∧ ip.length = 4 ∧ allFF (mask.take 12) = true) := by omega
  rw [if_neg h1]
  have h2 : ¬ (mask.length = 4 ∧ ip.length = 16 ∧ ip.take 12 = v4InV6Prefix) := by omega
  simp only [h2, if_false]
  rw [if_neg (by omega)]

theorem bbit_eq_testBit (b : List Nat) (idx t : Nat) (ht : t < 8) :
    bbit b (8 * idx + t) = (b.getD idx 0).testBit (7 - t) := by
  unfold bbit
  have h1 : (8 * idx + t) / 8 = idx := by omega
  have h2 : (8 * idx + t) % 8 = t := by omega
  rw [h1, h2]

theorem byte_ext (x y : Nat) (hx : x < 256) (hy : y < 256)
    (h : ∀ t < 8, x.testBit (7 - t) = y.testBit (7 - t)) : x = y := by
  apply Nat.eq_of_testBit_eq
  intro i
  by_cases hi : i < 8
  · have := h (7 - i) (by omega)
    have e : 7 - (7 - i) = i := by omega
    rwa [e] at this
  · rw [testBit_byte_high hx (by omega), testBit_byte_high hy (by omega)]

theorem bytes_ext (a b : List Nat) (hlen : a.length = b.length) (ha : IsBytes a) (hb : IsBytes b)
    (h : ∀ i, i < a.length * 8 → bbit a i = bbit b i) : a = b := by
  apply List.ext_getElem hlen
  intro idx h1 h2
  have e1 : a[idx] = a.getD idx 0 := (List.getD_eq_getElem a 0 h1).symm
  have e2 : b[idx] = b.getD idx 0 := (List.getD_eq_getElem b 0 h2).symm
  rw [e1, e2]
  apply byte_ext _ _ (ha.getD_lt idx) (hb.getD_lt idx)
  intro t ht
  rw [← bbit_eq_testBit a idx t ht, ← bbit_eq_testBit b idx t ht]
  exact h _ (by omega)

theorem isZeros_take_iff (l : List Nat) (n : Nat) (h : n ≤ l.length) :
    isZeros (l.take n) = true ↔ ∀ i < n, l.getD i 0 = 0 := by
  induction n generalizing l with
  | zero => simp [isZeros]
  | succ n ih =>
    cases l with
    | nil => simp at h
    | cons x l =>
      have h' : n ≤ l.length := by simpa using h
      have ih' := ih l h'
      simp only [isZeros] at ih' ⊢
      simp only [List.take_succ_cons, List.all_cons, Bool.and_eq_true, beq_iff_eq, ih']
      constructor
      · rintro ⟨h0, hr⟩ i hi
        cases i with
        | zero => simpa using h0
        | succ i =>
          have := hr i (by omega)
          simpa using this
      · intro hall
        refine ⟨by simpa using hall 0 (by omega), ?_⟩
        intro i hi
        have := hall (i + 1) (by omega)
        simpa using this

theorem To4_of_length_four (ip : List Nat) (h : ip.length = 4) : IP.To4 ip = some ip := by
  unfold IP.To4 IPv4len
  rw [if_pos h]

theorem To4_eq_none_iff (ip : List Nat) (h : ip.length = 16) : IP.To4 ip = none ↔ ¬ IsMapped ip := by
  unfold IP.To4 IPv4len IPv6len IsMapped
  rw [if_neg (by omega)]
  have e := isZeros_take_iff ip 10 (by omega)
  by_cases hc : ip.length = 16 ∧ isZeros (List.take 10 ip) = true ∧ ip.getD 10 0 = 255
      ∧ ip.getD 11 0 = 255
  · rw [if_pos hc]
    simp only [reduceCtorEq, false_iff, not_not]
    exact ⟨hc.1, e.1 hc.2.1, hc.2.2⟩
  · rw [if_neg hc]
    simp only [true_iff]
    intro hm
    exact hc ⟨hm.1, e.2 hm.2.1, hm.2.2⟩

theorem To4_isSome_of_mapped (ip : List Nat) (h : IsMapped ip) : IP.To4 ip = some (ip.drop 12) := by
  unfold IP.To4 IPv4len IPv6len
  obtain ⟨h1, h2, h3, h4⟩ := h
  rw [if_neg (by omega)]
  rw [if_pos]
  rw [isZeros_take_iff ip 10 (by omega)]
  exact ⟨h1, h2, h3, h4⟩

theorem byte_ff_of_bits (v : Nat) (hv : v < 256) (h : ∀ t < 8, v.testBit (7 - t) = true) :
    v = 255 := by
  apply byte_ext v 255 hv (by omega)
  intro t ht
  rw [h t ht]
  interval_cases t <;> decide

theorem and_eq_ff {a b : Nat} (ha : a < 256) (hb : b < 256) (h : a &&& b = 0xff) :
    a = 0xff ∧ b = 0xff := by
  have h1 : a &&& b ≤ a := Nat.and_le_left
  have h2 : a &&& b ≤ b := Nat.and_le_right
  omega

theorem and_ff {a : Nat} (ha : a < 256) : a &&& 0xff = a := by
  have := Nat.and_pow_two_sub_one_eq_mod a 8
  simp only [Nat.reducePow, Nat.add_one_sub_one] at this
  rw [this]
  omega

theorem maskIP_length (W j : Nat) (ip : List Nat) (h : ip.length * 8 = W) :
    (maskIP W j ip).length = ip.length := by
  unfold maskIP
  rw [List.length_zipWith, cidrMaskBytes_length]
  omega

theorem bbit_maskIP (W j : Nat) (ip : List Nat) (h : ip.length * 8 = W) (i : Nat) :
    bbit (maskIP W j ip) i = (bbit ip i && decide (i < j)) := by
  unfold maskIP
  rw [bbit_zipWith_and, bbit_cidrMaskBytes]
  by_cases hi : i < W
  · have e : (i < j ∧ i < 8 * (W / 8)) ↔ i < j := by
      constructor
      · exact fun h => h.1
      · intro h1
        exact ⟨h1, by omega⟩
    simp only [e]
  · rw [bbit_of_length_le ip i (by omega)]
    simp

theorem maskIP_not_mapped (j : Nat) (ip : List Nat) (hlen : ip.length = 16) (hb : IsBytes ip)
    (h : ¬ IsMapped ip) : ¬ IsMapped (maskIP 128 j ip) := by
  intro hm
  apply h
  obtain ⟨_, hz, h10, h11⟩ := hm
  have hmb := cidrMaskBytes_isBytes 16 j
  unfold maskIP at hz h10 h11
  simp only [Nat.reduceDiv] at hz h10 h11
  rw [getD_zipWith_and] at h10 h11
  obtain ⟨i10, m10⟩ := and_eq_ff (hb.getD_lt 10) (hmb.getD_lt 10) h10
  obtain ⟨i11, m11⟩ := and_eq_ff (hb.getD_lt 11) (hmb.getD_lt 11) h11
  have hj : 95 < j := by
    have hbit : bbit (cidrMaskBytes 16 j) (8 * 11 + 7) = true := by
      rw [bbit_eq_testBit _ 11 7 (by omega), m11]
      decide
    rw [bbit_cidrMaskBytes] at hbit
    simp only [decide_eq_true_eq] at hbit
    omega
  refine ⟨hlen, ?_, i10, i11⟩
  intro i hi
  have hmi : (cidrMaskBytes 16 j).getD i 0 = 255 := by
    apply byte_ff_of_bits _ (hmb.getD_lt i)
    intro t ht
    rw [← bbit_eq_testBit _ i t ht, bbit_cidrMaskBytes]
    simp only [decide_eq_true_eq]
    omega
  have := hz i hi
  rw [getD_zipWith_and, hmi, and_ff (hb.getD_lt i)] at this
  exact this

theorem NewNetworkNumber_of_length_four (ip : List Nat) (h : ip.length = 4) :
    NewNetworkNumber ip = wordsOf 32 ip := by
  unfold NewNetworkNumber
  have hne : ip.isEmpty = false := by
    cases ip with
    | nil => simp at h
    | cons x xs => rfl
  rw [hne, To4_of_length_four ip h]
  simp [wordsOf, words1, List.range, List.range.loop]

theorem NewNetworkNumber_of_not_mapped (ip : List Nat) (h : ip.length = 16) (hm : ¬ IsMapped ip) :
    NewNetworkNumber ip = wordsOf 128 ip := by
  unfold NewNetworkNumber
  have hne : ip.isEmpty = false := by
    cases ip with
    | nil => simp at h
    | cons x xs => rfl
  rw [hne, (To4_eq_none_iff ip h).2 hm]
  have h16 : IP.To16 ip = some ip := by
    unfold IP.To16 IPv4len IPv6len
    rw [if_neg (by omega), if_pos h]
  simp [h16, wordsOf, words4, List.range, List.range.loop, IPv4len]

theorem NewNetworkNumber_wordsOf (W : Nat) (hW : W = 32 ∨ W = 128) (ip : List Nat)
    (hlen : ip.length * 8 = W) (hm : W = 128 → ¬ IsMapped ip) :
    NewNetworkNumber ip = wordsOf W ip := by
  rcases hW with h | h <;> subst h
  · exact NewNetworkNumber_of_length_four ip (by omega)
  · exact NewNetworkNumber_of_not_mapped ip (by omega) (hm rfl)

theorem cidrMaskBytes_not_mapped (k : Nat) : ¬ IsMapped (cidrMaskBytes 16 k) := by
  rintro ⟨_, hz, h10, _⟩
  have hbit : bbit (cidrMaskBytes 16 k) (8 * 10 + 0) = true := by
    rw [bbit_eq_testBit _ 10 0 (by omega), h10]
    decide
  rw [bbit_cidrMaskBytes] at hbit
  simp only [decide_eq_true_eq] at hbit
  have hbit0 : bbit (cidrMaskBytes 16 k) (8 * 0 + 0) = false := by
    rw [bbit_eq_testBit _ 0 0 (by omega), hz 0 (by omega)]
    decide
  rw [bbit_cidrMaskBytes] at hbit0
  simp only [decide_eq_false_iff_not] at hbit0
  omega

theorem NewNetworkNumber_mask (W k : Nat) (hW : W = 32 ∨ W = 128) :
    NewNetworkNumber (cidrMaskBytes (W / 8) k) = wordsOf W (cidrMaskBytes (W / 8) k) := by
  apply NewNetworkNumber_wordsOf W hW
  · rw [cidrMaskBytes_length]
    rcases hW with h | h <;> omega
  · intro h
    subst h
    exact cidrMaskBytes_not_mapped k

theorem mkNet_eq (W k : Nat) (hW : W = 32 ∨ W = 128) (ip : List Nat) (hc : Canon W k ip) :
    mkNet W k ip
      = ⟨⟨ip, cidrMaskBytes (W / 8) k⟩, wordsOf W ip, wordsOf W (cidrMaskBytes (W / 8) k)⟩ := by
  unfold mkNet NewNetwork
  rw [CIDRMask_eq W k hW hc.le]
  simp only [NewNetworkNumber_wordsOf W hW ip hc.len hc.v6, NewNetworkNumber_mask W k hW]

theorem canon_maskIP (W j : Nat) (hW : W = 32 ∨ W = 128) (ip : List Nat) (hlen : ip.length * 8 = W)
    (hb : IsBytes ip) (hm : W = 128 → ¬ IsMapped ip) (hj : j ≤ W) : Canon W j (maskIP W j ip) where
  len := by rw [maskIP_length W j ip hlen]; exact hlen
  bytes := isBytes_zipWith_and _ _ hb
  le := hj
  zero := by
    intro i hi
    rw [bbit_maskIP W j ip hlen]
    have : ¬ i < j := by omega
    simp [this]
  v6 := by
    intro h
    subst h
    exact maskIP_not_mapped j ip (by omega) hb (hm rfl)

theorem maskIP_self (W k : Nat) (ip : List Nat) (hc : Canon W k ip) : maskIP W k ip = ip := by
  apply bytes_ext _ _ (maskIP_length W k ip hc.len) (isBytes_zipWith_and _ _ hc.bytes) hc.bytes
  intro i _
  rw [bbit_maskIP W k ip hc.len]
  by_cases hi : i < k
  · simp [hi]
  · rw [hc.zero i (by omega)]
    simp

theorem toInt_small (j : Nat) (h : j < 2 ^ 63) : toInt j = (j : Int) := by
  unfold toInt
  have e : j % 2 ^ 64 = j := Nat.mod_eq_of_lt (by omega)
  rw [e, if_pos h]

theorem toUint_small (p : Int) (h0 : 0 ≤ p) (h : p < 2 ^ 64) : toUint p = p.toNat := by
  unfold toUint
  rw [Int.emod_eq_of_lt h0 h]

/-- Cutting a network whose address is well formed gives the canonical network of the cut
address. -/
theorem Masked_eq (W j : Nat) (hW : W = 32 ∨ W = 128) (N : Network)
    (hN : N.Number.length * 32 = W) (hlen : N.IPNet.IP.length * 8 = W) (hj : j ≤ W) :
    N.Masked (toInt j) = mkNet W j (maskIP W j N.IPNet.IP) := by
  have hj' : j < 2 ^ 63 := by rcases hW with h | h <;> omega
  unfold Network.Masked mkNet BitsPerUint32
  rw [toInt_small j hj', hN]
  rw [CIDRMask_eq W j hW hj]
  dsimp only
  rw [IP_Mask_same_length]
  · rfl
  · rw [cidrMaskBytes_length]
    omega

/-! ## Equality of networks -/

theorem networkNumberAndMask_canon (W k : Nat) (hW : W = 32 ∨ W = 128) (ip : List Nat)
    (hc : Canon W k ip) :
    networkNumberAndMask ⟨ip, cidrMaskBytes (W / 8) k⟩ = some (ip, cidrMaskBytes (W / 8) k) := by
  have hl := hc.len
  unfold networkNumberAndMask IPv4len IPv6len
  simp only [cidrMaskBytes_length]
  rcases hW with h | h <;> subst h
  · rw [To4_of_length_four ip (by omega)]
    simp only [Nat.reduceDiv, if_true]
    rw [if_neg (by omega)]
  · rw [(To4_eq_none_iff ip (by omega)).2 (hc.v6 rfl)]
    simp only [Nat.reduceDiv, Nat.reduceEqDiff, if_false, if_true]
    rw [if_neg (by omega)]
    simp only
    rw [if_neg (by omega)]

theorem cidrMaskBytes_inj (l k k' : Nat) (hk : k ≤ 8 * l) (hk' : k' ≤ 8 * l)
    (h : cidrMaskBytes l k = cidrMaskBytes l k') : k = k' := by
  have h1 := simpleMaskLength_cidrMaskBytes l k hk
  have h2 := simpleMaskLength_cidrMaskBytes l k' hk'
  rw [h] at h1
  omega

theorem mkNet_Equal (W k k' : Nat) (hW : W = 32 ∨ W = 128) (ip ip' : List Nat)
    (hc : Canon W k ip) (hc' : Canon W k' ip') :
    (mkNet W k ip).Equal (mkNet W k' ip') = true ↔ k = k' ∧ ip = ip' := by
  rw [mkNet_eq W k hW ip hc, mkNet_eq W k' hW ip' hc']
  unfold Network.Equal
  simp only [networkNumberAndMask_canon W k hW ip hc, networkNumberAndMask_canon W k' hW ip' hc',
    beq_iff_eq, Option.some.injEq, Prod.mk.injEq]
  constructor
  · rintro ⟨h1, h2⟩
    refine ⟨cidrMaskBytes_inj (W / 8) k k' ?_ ?_ h2, h1⟩
    · have := hc.le
      rcases hW with h | h <;> omega
    · have := hc'.le
      rcases hW with h | h <;> omega
  · rintro ⟨h1, h2⟩
    subst h1 h2
    exact ⟨rfl, rfl⟩

/-! ## Containment in a network -/

theorem and_eq_iff_testBit (y m n : Nat) (hm : m < 2 ^ 32) (hn : n < 2 ^ 32) :
    y &&& m = n ↔ ∀ t < 32, (y.testBit t && m.testBit t) = n.testBit t := by
  constructor
  · intro h t _
    rw [← h, Nat.testBit_and]
  · intro h
    apply Nat.eq_of_testBit_eq
    intro t
    rw [Nat.testBit_and]
    by_cases ht : t < 32
    · exact h t ht
    · have p : 2 ^ 32 ≤ 2 ^ t := Nat.pow_le_pow_right (by decide) (by omega)
      rw [Nat.testBit_lt_two_pow (Nat.lt_of_lt_of_le hm p),
        Nat.testBit_lt_two_pow (Nat.lt_of_lt_of_le hn p)]
      simp

theorem word_eq_iff_wbit (y M N : List Nat) (w : Nat) (hM : M.getD w 0 < 2 ^ 32)
    (hN : N.getD w 0 < 2 ^ 32) :
    y.getD w 0 &&& M.getD w 0 = N.getD w 0
      ↔ ∀ i, i / 32 = w → (wbit y i && wbit M i) = wbit N i := by
  rw [and_eq_iff_testBit _ _ _ hM hN]
  unfold wbit
  constructor
  · intro h i hi
    subst hi
    exact h (31 - i % 32) (by omega)
  · intro h t ht
    have := h (32 * w + (31 - t)) (by omega)
    have e1 : (32 * w + (31 - t)) / 32 = w := by omega
    have e2 : 31 - (32 * w + (31 - t)) % 32 = t := by omega
    rw [e1, e2] at this
    exact this

theorem wbit_mask (W k : Nat) (hW : W = 32 ∨ W = 128) (i : Nat) (hi : i < W) :
    wbit (wordsOf W (cidrMaskBytes (W / 8) k)) i = decide (i < k) := by
  rw [wbit_wordsOf W hW _ (cidrMaskBytes_isBytes _ _) i hi, bbit_cidrMaskBytes]
  congr 1
  apply propext
  constructor
  · exact fun h => h.1
  · intro h
    exact ⟨h, by rcases hW with h | h <;> omega⟩

theorem canon_word_match (W k : Nat) (hW : W = 32 ∨ W = 128) (ip : List Nat) (hc : Canon W k ip)
    (y : List Nat) (w : Nat) (hw : w * 32 < W) :
    y.getD w 0 &&& (wordsOf W (cidrMaskBytes (W / 8) k)).getD w 0 = (wordsOf W ip).getD w 0
      ↔ ∀ i, i / 32 = w → i < k → wbit y i = bbit ip i := by
  rw [word_eq_iff_wbit y _ _ w (wordsOf_lt W hW _ (cidrMaskBytes_isBytes _ _) w)
    (wordsOf_lt W hW _ hc.bytes w)]
  constructor
  · intro h i hi hik
    have := h i hi
    rw [wbit_mask W k hW i (by omega), wbit_wordsOf W hW ip hc.bytes i (by omega)] at this
    simpa [hik] using this
  · intro h i hi
    rw [wbit_mask W k hW i (by omega), wbit_wordsOf W hW ip hc.bytes i (by omega)]
    by_cases hik : i < k
    · simpa [hik] using h i hi hik
    · rw [hc.zero i (by omega)]
      simp [hik]

theorem mkNet_Contains (W k : Nat) (hW : W = 32 ∨ W = 128) (ip : List Nat) (hc : Canon W k ip)
    (y : List Nat) :
    (mkNet W k ip).Contains y = true ↔ y.length * 32 = W ∧ ∀ i < k, wbit y i = bbit ip i := by
  rw [mkNet_eq W k hW ip hc]
  unfold Network.Contains IPv6Uint32Count
  simp only
  have hml := wordsOf_length W hW (cidrMaskBytes (W / 8) k)
  by_cases hy : (wordsOf W (cidrMaskBytes (W / 8) k)).length ≠ y.length
  · rw [if_pos hy]
    simp only [Bool.false_eq_true, false_iff, not_and]
    intro h
    omega
  · rw [if_neg hy]
    have hy' : y.length * 32 = W := by omega
    simp only [hy', true_and]
    rcases hW with h | h
    · subst h
      have m0 := canon_word_match 32 k (Or.inl rfl) ip hc y 0 (by omega)
      have y4 : ¬ y.length = 4 := by omega
      simp only [ne_eq, y4, if_false, ite_not, Bool.if_false_right, Bool.and_true,
        decide_eq_true_eq, m0]
      constructor
      · intro h i hi
        exact h i (by have := hc.le; omega) hi
      · intro h i _ hi
        exact h i hi
    · subst h
      have m0 := canon_word_match 128 k (Or.inr rfl) ip hc y 0 (by omega)
      have m1 := canon_word_match 128 k (Or.inr rfl) ip hc y 1 (by omega)
      have m2 := canon_word_match 128 k (Or.inr rfl) ip hc y 2 (by omega)
      have m3 := canon_word_match 128 k (Or.inr rfl) ip hc y 3 (by omega)
      have y4 : y.length = 4 := by omega
      simp only [ne_eq, y4, if_true, ite_not, Bool.if_false_right, Bool.and_eq_true,
        decide_eq_true_eq, beq_iff_eq, m0, m1, m2, m3]
      constructor
      · rintro ⟨h0, ⟨h1, h2⟩, h3⟩ i hi
        have hk := hc.le
        have c : i / 32 = 0 ∨ i / 32 = 1 ∨ i / 32 = 2 ∨ i / 32 = 3 := by omega
        rcases c with c | c | c | c
        · exact h0 i c hi
        · exact h1 i c hi
        · exact h2 i c hi
        · exact h3 i c hi
      · intro h
        exact ⟨fun i _ hi => h i hi, ⟨fun i _ hi => h i hi, fun i _ hi => h i hi⟩,
          fun i _ hi => h i hi⟩

/-! ## Reading one bit -/

theorem shiftRight_and_one (x r : Nat) : (x >>> r) &&& 1 = if x.testBit r then 1 else 0 := by
  rw [Nat.and_one_is_mod, Nat.testBit_to_div_mod, Nat.shiftRight_eq_div_pow]
  have : x / 2 ^ r % 2 = 0 ∨ x / 2 ^ r % 2 = 1 := by omega
  rcases this with h | h <;> simp [h]

theorem Bit_eq (ws : List Nat) (p : Nat) (hp : p < ws.length * 32) (hlen : ws.length ≤ 4) :
    NetworkNumber.Bit ws p = .ok (if wbit ws (ws.length * 32 - 1 - p) then 1 else 0) := by
  unfold NetworkNumber.Bit BitsPerUint32
  rw [toInt_small p (by omega), toInt_small (p / 32) (by omega)]
  rw [if_neg (by omega), if_neg (by omega)]
  have e1 : ((ws.length : Int) - 1 - ((p / 32 : Nat) : Int)).toNat = ws.length - 1 - p / 32 := by
    omega
  have e2 : p &&& (32 - 1) = p % 32 := by
    have := Nat.and_pow_two_sub_one_eq_mod p 5
    simpa using this
  simp only [e1, e2, shiftRight_and_one]
  unfold wbit
  have e3 : (ws.length * 32 - 1 - p) / 32 = ws.length - 1 - p / 32 := by omega
  have e4 : 31 - (ws.length * 32 - 1 - p) % 32 = p % 32 := by omega
  rw [e3, e4]

/-! ## The least common bit position -/

theorem and_two_pow_eq_iff (a b t : Nat) :
    a &&& (1 <<< t) = b &&& (1 <<< t) ↔ a.testBit t = b.testBit t := by
  rw [Nat.one_shiftLeft]
  constructor
  · intro h
    have := congrArg (fun x => x.testBit t) h
    simpa [Nat.testBit_and, Nat.testBit_two_pow] using this
  · intro h
    apply Nat.eq_of_testBit_eq
    intro i
    rw [Nat.testBit_and, Nat.testBit_and, Nat.testBit_two_pow]
    by_cases hi : t = i
    · subst hi
      simp [h]
    · simp [hi]

theorem firstDifferingBit_none (a b k : Nat) (h : firstDifferingBit a b k = none) :
    ∀ t < k, a.testBit t = b.testBit t := by
  induction k with
  | zero =>
    intro t ht
    omega
  | succ k ih =>
    unfold firstDifferingBit at h
    split at h
    · cases h
    · rename_i hne
      have hk : a.testBit k = b.testBit k := by
        rw [← and_two_pow_eq_iff]
        exact not_not.1 hne
      intro t ht
      by_cases htk : t = k
      · subst htk
        exact hk
      · exact ih h t (by omega)

theorem firstDifferingBit_some (a b k pos : Nat) (h : firstDifferingBit a b k = some pos) :
    pos < k ∧ a.testBit pos ≠ b.testBit pos ∧ ∀ t, pos < t → t < k → a.testBit t = b.testBit t := by
  induction k with
  | zero => simp [firstDifferingBit] at h
  | succ k ih =>
    unfold firstDifferingBit at h
    split at h
    · rename_i hne
      simp only [Option.some.injEq] at h
      subst h
      refine ⟨by omega, ?_, ?_⟩
      · intro heq
        exact hne ((and_two_pow_eq_iff a b k).2 heq)
      · intro t h1 h2
        omega
    · rename_i hne
      have hk : a.testBit k = b.testBit k := by
        rw [← and_two_pow_eq_iff]
        exact not_not.1 hne
      obtain ⟨h1, h2, h3⟩ := ih h
      refine ⟨by omega, h2, ?_⟩
      intro t ht1 ht2
      by_cases htk : t = k
      · subst htk
        exact hk
      · exact h3 t ht1 (by omega)

theorem wbit_cons_lt (a : Nat) (n : List Nat) (j : Nat) (hj : j < 32) :
    wbit (a :: n) j = a.testBit (31 - j) := by
  unfold wbit
  have h1 : j / 32 = 0 := by omega
  have h2 : j % 32 = j := by omega
  rw [h1, h2]
  rfl

theorem wbit_cons_ge (a : Nat) (n : List Nat) (j : Nat) (hj : 32 ≤ j) :
    wbit (a :: n) j = wbit n (j - 32) := by
  unfold wbit
  have h1 : j / 32 = (j - 32) / 32 + 1 := by omega
  have h2 : j % 32 = (j - 32) % 32 := by omega
  rw [h1, h2]
  rfl

/-- What `leastCommonBitLoop` computes, in terms of the first bit in which the two numbers
differ. -/
theorem leastCommonBitLoop_spec (n n1 : List Nat) (i len : Nat) (hlen : n.length = n1.length)
    (hi : i + n.length = len) :
    ((∀ j, j < 32 * n.length → wbit n j = wbit n1 j) ∧ leastCommonBitLoop n n1 i len = some 0)
      ∨ ∃ d, d < 32 * n.length ∧ (∀ j < d, wbit n j = wbit n1 j) ∧ wbit n d ≠ wbit n1 d
          ∧ leastCommonBitLoop n n1 i len
            = if i = 0 ∧ d = 0 then none else some (32 * n.length - d) := by
  induction n generalizing n1 i with
  | nil =>
    left
    cases n1 with
    | nil => exact ⟨fun j hj => by simp at hj, rfl⟩
    | cons b n1 => simp at hlen
  | cons a n ih =>
    cases n1 with
    | nil => simp at hlen
    | cons b n1 =>
      have hlen' : n.length = n1.length := by simpa using hlen
      simp only [List.length_cons] at hi
      unfold leastCommonBitLoop
      cases hf : firstDifferingBit a b 32 with
      | some pos =>
        right
        obtain ⟨h1, h2, h3⟩ := firstDifferingBit_some a b 32 pos hf
        refine ⟨31 - pos, by simp only [List.length_cons]; omega, ?_, ?_, ?_⟩
        · intro j hj
          rw [wbit_cons_lt a n j (by omega), wbit_cons_lt b n1 j (by omega)]
          exact h3 (31 - j) (by omega) (by omega)
        · rw [wbit_cons_lt a n _ (by omega), wbit_cons_lt b n1 _ (by omega)]
          have e : 31 - (31 - pos) = pos := by omega
          rw [e]
          exact h2
        · simp only [BitsPerUint32, List.length_cons]
          by_cases hc : i = 0 ∧ pos = 31
          · have hc' : i = 0 ∧ 31 - pos = 0 := ⟨hc.1, by omega⟩
            rw [if_pos hc, if_pos hc']
          · have hc' : ¬ (i = 0 ∧ 31 - pos = 0) := by omega
            rw [if_neg hc, if_neg hc']
            congr 1
            have : len - i - 1 = n.length := by omega
            rw [this]
            omega
      | none =>
        have hw := firstDifferingBit_none a b 32 hf
        simp only
        rcases ih n1 (i + 1) hlen' (by omega) with ⟨hall, hres⟩ | ⟨d, hd, hbelow, hdiff, hres⟩
        · left
          refine ⟨?_, hres⟩
          intro j hj
          by_cases hj32 : j < 32
          · rw [wbit_cons_lt a n j hj32, wbit_cons_lt b n1 j hj32]
            exact hw _ (by omega)
          · rw [wbit_cons_ge a n j (by omega), wbit_cons_ge b n1 j (by omega)]
            exact hall _ (by simp only [List.length_cons] at hj; omega)
        · right
          refine ⟨d + 32, by simp only [List.length_cons]; omega, ?_, ?_, ?_⟩
          · intro j hj
            by_cases hj32 : j < 32
            · rw [wbit_cons_lt a n j hj32, wbit_cons_lt b n1 j hj32]
              exact hw _ (by omega)
            · rw [wbit_cons_ge a n j (by omega), wbit_cons_ge b n1 j (by omega)]
              exact hbelow _ (by omega)
          · rw [wbit_cons_ge a n _ (by omega), wbit_cons_ge b n1 _ (by omega)]
            simpa using hdiff
          · rw [hres]
            have c1 : ¬ (i + 1 = 0 ∧ d = 0) := by omega
            have c2 : ¬ (i = 0 ∧ d + 32 = 0) := by omega
            rw [if_neg c1, if_neg c2]
            congr 1
            simp only [List.length_cons]
            omega

/-- The common prefix of two canonical networks, as `Network.LeastCommonBitPosition`
finds it: when the two addresses start with the same bit, the position returned is `W - j`
for a length `j`, at most both prefix lengths, up to which the addresses agree and at which,
when it is below both prefix lengths, they differ. -/
theorem mkNet_lcb (W kN kc : Nat) (hW : W = 32 ∨ W = 128) (ipN cip : List Nat)
    (hN : Canon W kN ipN) (hc : Canon W kc cip) (h0 : bbit ipN 0 = bbit cip 0) :
    ∃ j, ((mkNet W kN ipN).LeastCommonBitPosition (mkNet W kc cip)).getD 0 = W - j
      ∧ j ≤ kN ∧ j ≤ kc ∧ (∀ i < j, bbit ipN i = bbit cip i)
      ∧ (j < kN → j < kc → bbit ipN j ≠ bbit cip j) := by
  have hWpos : 0 < W := by rcases hW with h | h <;> omega
  rw [mkNet_eq W kN hW ipN hN, mkNet_eq W kc hW cip hc]
  unfold Network.LeastCommonBitPosition NetworkNumber.LeastCommonBitPosition BitsPerUint32
  simp only
  have s1 : (IPMask.Size (cidrMaskBytes (W / 8) kN)).1 = (kN : Int) := by
    rw [← CIDRMask_eq W kN hW hN.le]
    exact CIDRMask_size W kN hW hN.le
  have s2 : (IPMask.Size (cidrMaskBytes (W / 8) kc)).1 = (kc : Int) := by
    rw [← CIDRMask_eq W kc hW hc.le]
    exact CIDRMask_size W kc hW hc.le
  have l1 := wordsOf_length W hW ipN
  have l2 := wordsOf_length W hW cip
  rw [s1, s2, if_neg (by omega)]
  have hkN := hN.le
  have hkc := hc.le
  rcases leastCommonBitLoop_spec (wordsOf W ipN) (wordsOf W cip) 0 (wordsOf W ipN).length
      (by omega) (by omega) with ⟨hall, hres⟩ | ⟨d, hd, hbelow, hdiff, hres⟩
  · rw [hres]
    refine ⟨min kN kc, ?_, Nat.min_le_left _ _, Nat.min_le_right _ _, ?_, ?_⟩
    · simp only [Option.getD_some]
      rw [toUint_small _ (by omega) (by omega)]
      have : (wordsOf W cip).length * 32 = W := l2
      omega
    · intro i hi
      have := hall i (by omega)
      rwa [wbit_wordsOf W hW ipN hN.bytes i (by omega),
        wbit_wordsOf W hW cip hc.bytes i (by omega)] at this
    · intro h1 h2
      omega
  · have hd0 : d ≠ 0 := by
      intro h
      subst h
      apply hdiff
      rw [wbit_wordsOf W hW ipN hN.bytes 0 hWpos, wbit_wordsOf W hW cip hc.bytes 0 hWpos]
      exact h0
    rw [hres, if_neg (by omega)]
    refine ⟨min (min kN kc) d, ?_, by omega, by omega, ?_, ?_⟩
    · simp only [Option.getD_some]
      rw [toUint_small _ (by omega) (by omega)]
      omega
    · intro i hi
      have := hbelow i (by omega)
      rwa [wbit_wordsOf W hW ipN hN.bytes i (by omega),
        wbit_wordsOf W hW cip hc.bytes i (by omega)] at this
    · intro h1 h2
      have e : min (min kN kc) d = d := by omega
      rw [e]
      rwa [wbit_wordsOf W hW ipN hN.bytes d (by omega),
        wbit_wordsOf W hW cip hc.bytes d (by omega)] at hdiff

/-! ## The shape of a trie -/

theorem HasEntry.nodes {t : prefixTrie} {k : Nat} {ip : List Nat} (h : HasEntry t k ip) :
    Nodes t k ip := by
  induction t with
  | null => exact h
  | node k0 network e c0 c1 ih0 ih1 =>
    rcases h with h | h | h
    · exact Or.inl h.2
    · exact Or.inr (Or.inl (ih0 h))
    · exact Or.inr (Or.inr (ih1 h))

theorem WF.canon_of_nodes {W : Nat} {t : prefixTrie} (hwf : WF W t) {k : Nat} {ip : List Nat}
    (h : Nodes t k ip) : Canon W k ip := by
  induction t with
  | null => exact h.elim
  | node k0 network e c0 c1 ih0 ih1 =>
    obtain ⟨hc, _, _, _, w0, w1⟩ := hwf
    rcases h with h | h | h
    · obtain ⟨h1, h2⟩ := h
      subst h1 h2
      exact hc
    · exact ih0 w0 h
    · exact ih1 w1 h

theorem mkNet_IP (W k : Nat) (ip : List Nat) : (mkNet W k ip).IPNet.IP = ip := rfl

theorem mkNet_Number_length (W k : Nat) (hW : W = 32 ∨ W = 128) (ip : List Nat)
    (hc : Canon W k ip) : (mkNet W k ip).Number.length * 32 = W := by
  rw [mkNet_eq W k hW ip hc]
  exact wordsOf_length W hW ip

theorem mkNet_Number (W k : Nat) (hW : W = 32 ∨ W = 128) (ip : List Nat)
    (hc : Canon W k ip) : (mkNet W k ip).Number = wordsOf W ip := by
  rw [mkNet_eq W k hW ip hc]

theorem usub_small (a b : Nat) (hb : b ≤ a) (ha : a < 2 ^ 63) : usub a b = a - b := by
  unfold usub
  have e : b % 2 ^ 64 = b := Nat.mod_eq_of_lt (by omega)
  rw [e]
  omega

theorem targetBitPosition_eq (W k : Nat) (hW : W = 32 ∨ W = 128) (ip : List Nat)
    (hc : Canon W k ip) (e : Option IPNet) (c0 c1 : prefixTrie) :
    (prefixTrie.node k (mkNet W k ip) e c0 c1).targetBitPosition = (W : Int) - k - 1 := by
  have hl := mkNet_Number_length W k hW ip hc
  have hk := hc.le
  have hW' : W ≤ 128 := by rcases hW with h | h <;> omega
  unfold prefixTrie.targetBitPosition prefixTrie.totalNumberOfBits prefixTrie.network
    BitsPerUint32
  simp only
  rw [usub_small _ _ (by omega) (by omega), toInt_small _ (by omega)]
  omega

theorem targetBitFromIP_eq (W k : Nat) (hW : W = 32 ∨ W = 128) (ip : List Nat)
    (hc : Canon W k ip) (e : Option IPNet) (c0 c1 : prefixTrie) (ws : List Nat)
    (hws : ws.length * 32 = W) (hk : k < W) :
    (prefixTrie.node k (mkNet W k ip) e c0 c1).targetBitFromIP ws
      = .ok (if wbit ws k then 1 else 0) := by
  have hW' : W ≤ 128 := by rcases hW with h | h <;> omega
  unfold prefixTrie.targetBitFromIP
  rw [targetBitPosition_eq W k hW ip hc, toUint_small _ (by omega) (by omega)]
  have e1 : ((W : Int) - k - 1).toNat = W - k - 1 := by omega
  rw [e1, Bit_eq ws _ (by omega) (by omega)]
  have e2 : ws.length * 32 - 1 - (W - k - 1) = k := by omega
  rw [e2]

/-! ## What `contains` answers on a well-formed trie -/

theorem contains_sound (W : Nat) (hW : W = 32 ∨ W = 128) (t : prefixTrie) (hwf : WF W t)
    (y : List Nat) (h : t.contains y = true) :
    ∃ k ip, HasEntry t k ip ∧ y.length * 32 = W ∧ ∀ i < k, wbit y i = bbit ip i := by
  induction t with
  | null => simp [prefixTrie.contains] at h
  | node k network e c0 c1 ih0 ih1 =>
    obtain ⟨hc, hnet, _, _, w0, w1⟩ := hwf
    unfold prefixTrie.contains at h
    by_cases hcont : network.Contains y = true
    · have hcont' := hcont
      rw [hnet, mkNet_Contains W k hW _ hc] at hcont'
      simp only [hcont, not_true_eq_false, if_false] at h
      by_cases he : e.isSome = true
      · exact ⟨k, network.IPNet.IP, Or.inl ⟨he, rfl, rfl⟩, hcont'.1, hcont'.2⟩
      · simp only [he, Bool.false_eq_true, if_false] at h
        split at h
        · cases h
        · split at h
          · rename_i bit _
            split at h
            · obtain ⟨k', ip', h1, h2⟩ := ih0 w0 h
              exact ⟨k', ip', Or.inr (Or.inl h1), h2⟩
            · obtain ⟨k', ip', h1, h2⟩ := ih1 w1 h
              exact ⟨k', ip', Or.inr (Or.inr h1), h2⟩
          · cases h
    · simp [hcont] at h

theorem contains_complete (W : Nat) (hW : W = 32 ∨ W = 128) (t : prefixTrie) (hwf : WF W t)
    (y : List Nat) (hy : y.length * 32 = W) (k' : Nat) (ip' : List Nat) (he : HasEntry t k' ip')
    (hm : ∀ i < k', wbit y i = bbit ip' i) : t.contains y = true := by
  induction t with
  | null => exact he.elim
  | node k network e c0 c1 ih0 ih1 =>
    obtain ⟨hc, hnet, b0, b1, w0, w1⟩ := hwf
    have hcan' : Canon W k' ip' :=
      WF.canon_of_nodes (W := W) (t := .node k network e c0 c1) ⟨hc, hnet, b0, b1, w0, w1⟩ he.nodes
    have hcont : network.Contains y = true := by
      rw [hnet, mkNet_Contains W k hW _ hc]
      refine ⟨hy, ?_⟩
      rcases he with h | h | h
      · obtain ⟨_, h1, h2⟩ := h
        subst h1 h2
        exact hm
      · obtain ⟨hlt, hbits, _⟩ := b0 k' ip' h.nodes
        intro i hi
        rw [hm i (by omega), hbits i hi]
      · obtain ⟨hlt, hbits, _⟩ := b1 k' ip' h.nodes
        intro i hi
        rw [hm i (by omega), hbits i hi]
    unfold prefixTrie.contains
    simp only [hcont, not_true_eq_false, if_false]
    by_cases hes : e.isSome = true
    · simp [hes]
    · simp only [hes, Bool.false_eq_true, if_false]
      have hchild : HasEntry c0 k' ip' ∨ HasEntry c1 k' ip' := by
        rcases he with h | h | h
        · exact absurd h.1 hes
        · exact Or.inl h
        · exact Or.inr h
      have hkk : k < k' := by
        rcases hchild with h | h
        · exact (b0 k' ip' h.nodes).1
        · exact (b1 k' ip' h.nodes).1
      have hkW : k < W := by
        have := hcan'.le
        omega
      have htb : (prefixTrie.node k network e c0 c1).targetBitPosition = (W : Int) - k - 1 := by
        rw [hnet]
        exact targetBitPosition_eq W k hW _ hc e c0 c1
      have hbit : (prefixTrie.node k network e c0 c1).targetBitFromIP y
          = .ok (if wbit y k then 1 else 0) := by
        rw [hnet]
        exact targetBitFromIP_eq W k hW _ hc e c0 c1 y hy hkW
      rw [htb, if_neg (by omega), hbit]
      simp only
      rcases hchild with h | h
      · have hb : bbit ip' k = false := (b0 k' ip' h.nodes).2.2
        rw [hm k hkk, hb]
        simp only [Bool.false_eq_true, if_false, if_true]
        exact ih0 w0 h
      · have hb : bbit ip' k = true := (b1 k' ip' h.nodes).2.2
        rw [hm k hkk, hb]
        simp only [if_true, one_ne_zero, if_false]
        exact ih1 w1 h

/-! ## Children -/

theorem WF.child {W k : Nat} {pnet : Network} {e : Option IPNet} {c0 c1 : prefixTrie}
    (h : WF W (.node k pnet e c0 c1)) (b : Bool) :
    WF W ((prefixTrie.node k pnet e c0 c1).child (bitOf b))
      ∧ Below k pnet.IPNet.IP b ((prefixTrie.node k pnet e c0 c1).child (bitOf b)) := by
  obtain ⟨_, _, b0, b1, w0, w1⟩ := h
  cases b
  · exact ⟨w0, b0⟩
  · exact ⟨w1, b1⟩

theorem WF.setChild {W k : Nat} {pnet : Network} {e : Option IPNet} {c0 c1 : prefixTrie}
    (h : WF W (.node k pnet e c0 c1)) (b : Bool) (c : prefixTrie) (hc : WF W c)
    (hb : Below k pnet.IPNet.IP b c) :
    WF W ((prefixTrie.node k pnet e c0 c1).setChild (bitOf b) c) := by
  obtain ⟨h1, h2, b0, b1, w0, w1⟩ := h
  cases b
  · exact ⟨h1, h2, hb, b1, hc, w1⟩
  · exact ⟨h1, h2, b0, hb, w0, hc⟩

theorem rootIs_setChild (k : Nat) (pnet : Network) (e : Option IPNet) (c0 c1 : prefixTrie)
    (bit : Nat) (c : prefixTrie) :
    RootIs ((prefixTrie.node k pnet e c0 c1).setChild bit c) k pnet := by
  by_cases hb : bit = 0
  · exact ⟨e, c, c1, by simp [prefixTrie.setChild, hb]⟩
  · exact ⟨e, c0, c, by simp [prefixTrie.setChild, hb]⟩

theorem nodes_setChild_sub (k : Nat) (pnet : Network) (e : Option IPNet) (c0 c1 : prefixTrie)
    (bit : Nat) (c : prefixTrie) (k' : Nat) (ip' : List Nat) (New : Prop)
    (h : Nodes c k' ip' → Nodes ((prefixTrie.node k pnet e c0 c1).child bit) k' ip' ∨ New)
    (hn : Nodes ((prefixTrie.node k pnet e c0 c1).setChild bit c) k' ip') :
    Nodes (.node k pnet e c0 c1) k' ip' ∨ New := by
  unfold prefixTrie.setChild at hn
  unfold prefixTrie.child at h
  by_cases hb : bit = 0
  · simp only [hb, if_true] at hn h
    rcases hn with hn | hn | hn
    · exact Or.inl (Or.inl hn)
    · rcases h hn with h' | h'
      · exact Or.inl (Or.inr (Or.inl h'))
      · exact Or.inr h'
    · exact Or.inl (Or.inr (Or.inr hn))
  · simp only [hb, if_false] at hn h
    rcases hn with hn | hn | hn
    · exact Or.inl (Or.inl hn)
    · exact Or.inl (Or.inr (Or.inl hn))
    · rcases h hn with h' | h'
      · exact Or.inl (Or.inr (Or.inr h'))
      · exact Or.inr h'

theorem hasEntry_setChild_iff (k : Nat) (pnet : Network) (e : Option IPNet) (c0 c1 : prefixTrie)
    (bit : Nat) (c : prefixTrie) (k' : Nat) (ip' : List Nat) (New : Prop)
    (h : HasEntry c k' ip' ↔ HasEntry ((prefixTrie.node k pnet e c0 c1).child bit) k' ip' ∨ New) :
    HasEntry ((prefixTrie.node k pnet e c0 c1).setChild bit c) k' ip'
      ↔ HasEntry (.node k pnet e c0 c1) k' ip' ∨ New := by
  unfold prefixTrie.setChild
  unfold prefixTrie.child at h
  by_cases hb : bit = 0
  · simp only [hb, if_true] at h ⊢
    simp only [HasEntry, h]
    tauto
  · simp only [hb, if_false] at h ⊢
    simp only [HasEntry, h]
    tauto

/-- In a well-formed trie every node extends the prefix of the root. -/
theorem WF.nodes_extend_root {W k : Nat} {pnet : Network} {e : Option IPNet}
    {c0 c1 : prefixTrie} (h : WF W (.node k pnet e c0 c1)) {k' : Nat} {ip' : List Nat}
    (hn : Nodes (.node k pnet e c0 c1) k' ip') :
    k ≤ k' ∧ ∀ i < k, bbit ip' i = bbit pnet.IPNet.IP i := by
  obtain ⟨_, _, b0, b1, _, _⟩ := h
  rcases hn with hn | hn | hn
  · obtain ⟨h1, h2⟩ := hn
    subst h1 h2
    exact ⟨Nat.le_refl _, fun _ _ => rfl⟩
  · obtain ⟨h1, h2, _⟩ := b0 k' ip' hn
    exact ⟨by omega, h2⟩
  · obtain ⟨h1, h2, _⟩ := b1 k' ip' hn
    exact ⟨by omega, h2⟩

/-! ## New nodes -/

theorem mkNet_mask_size (W k : Nat) (hW : W = 32 ∨ W = 128) (ip : List Nat) (hk : k ≤ W) :
    (mkNet W k ip).IPNet.Mask.Size.1 = (k : Int) :=
  CIDRMask_size W k hW hk

theorem newEntryTrie_eq (W kN : Nat) (hW : W = 32 ∨ W = 128) (ipN : List Nat)
    (hN : Canon W kN ipN) (entry : IPNet) :
    newEntryTrie (mkNet W kN ipN) entry = .node kN (mkNet W kN ipN) (some entry) .null .null := by
  have hk := hN.le
  have hW' : W ≤ 128 := by rcases hW with h | h <;> omega
  unfold newEntryTrie
  simp only [mkNet_mask_size W kN hW ipN hN.le]
  have e1 : toUint (kN : Int) = kN := by
    rw [toUint_small _ (by omega) (by omega)]
    simp
  rw [e1, Masked_eq W kN hW _ (mkNet_Number_length W kN hW ipN hN) hN.len hN.le, mkNet_IP,
    maskIP_self W kN ipN hN]

theorem newPathprefixTrie_eq (W kN j : Nat) (hW : W = 32 ∨ W = 128) (ipN : List Nat)
    (hN : Canon W kN ipN) (hj : j ≤ W) :
    newPathprefixTrie (mkNet W kN ipN) j
      = .node j (mkNet W j (maskIP W j ipN)) none .null .null := by
  unfold newPathprefixTrie
  rw [Masked_eq W j hW _ (mkNet_Number_length W kN hW ipN hN) hN.len hj, mkNet_IP]

theorem bbit_maskIP_lt (W j : Nat) (ip : List Nat) (h : ip.length * 8 = W) (i : Nat)
    (hi : i < j) : bbit (maskIP W j ip) i = bbit ip i := by
  rw [bbit_maskIP W j ip h]
  simp [hi]

/-- One step of `insert` on a node, written out. -/
theorem insert_succ (fuel k : Nat) (pnet : Network) (e : Option IPNet) (c0 c1 : prefixTrie)
    (network : Network) (entry : IPNet) :
    prefixTrie.insert (fuel + 1) (.node k pnet e c0 c1) network entry
      = if pnet.Equal network then some (.node k pnet (some entry) c0 c1)
        else
          match (prefixTrie.node k pnet e c0 c1).targetBitFromIP network.Number with
          | .indexOutOfRange => none
          | .invalidPosition => some (.node k pnet e c0 c1)
          | .ok bit =>
            match (prefixTrie.node k pnet e c0 c1).child bit with
            | .null => some ((prefixTrie.node k pnet e c0 c1).setChild bit (newEntryTrie network entry))
            | .node ck cnet ce cc0 cc1 =>
              if toInt ((network.LeastCommonBitPosition cnet).getD 0) - 1
                  > (prefixTrie.node ck cnet ce cc0 cc1).targetBitPosition then
                match (newPathprefixTrie network
                    (usub (prefixTrie.node k pnet e c0 c1).totalNumberOfBits
                      ((network.LeastCommonBitPosition cnet).getD 0))).targetBitFromIP cnet.Number with
                | .indexOutOfRange => none
                | .invalidPosition =>
                  some ((prefixTrie.node k pnet e c0 c1).setChild bit
                    (newPathprefixTrie network
                      (usub (prefixTrie.node k pnet e c0 c1).totalNumberOfBits
                        ((network.LeastCommonBitPosition cnet).getD 0))))
                | .ok pathPrefixBit =>
                  match prefixTrie.insert fuel
                      ((newPathprefixTrie network
                        (usub (prefixTrie.node k pnet e c0 c1).totalNumberOfBits
                          ((network.LeastCommonBitPosition cnet).getD 0))).setChild pathPrefixBit
                        (prefixTrie.node ck cnet ce cc0 cc1)) network entry with
                  | none => none
                  | some t => some ((prefixTrie.node k pnet e c0 c1).setChild bit t)
              else
                match prefixTrie.insert fuel (prefixTrie.node ck cnet ce cc0 cc1) network entry with
                | none => none
                | some t => some ((prefixTrie.node k pnet e c0 c1).setChild bit t) := by
  rfl

theorem totalNumberOfBits_eq (W k : Nat) (hW : W = 32 ∨ W = 128) (ip : List Nat)
    (hc : Canon W k ip) (e : Option IPNet) (c0 c1 : prefixTrie) :
    (prefixTrie.node k (mkNet W k ip) e c0 c1).totalNumberOfBits = W := by
  have := mkNet_Number_length W k hW ip hc
  unfold prefixTrie.totalNumberOfBits prefixTrie.network BitsPerUint32
  simp only
  omega

theorem child_of_leaf (j : Nat) (n : Network) (e : Option IPNet) (bit : Nat) :
    (prefixTrie.node j n e .null .null).child bit = .null := by
  simp [prefixTrie.child]

theorem WF_leaf (W k : Nat) (ip : List Nat) (hc : Canon W k ip) (e : Option IPNet) :
    WF W (.node k (mkNet W k ip) e .null .null) :=
  ⟨hc, rfl, fun _ _ h => h.elim, fun _ _ h => h.elim, trivial, trivial⟩

/-- The effect of `insert` on a well-formed trie, for a canonical network that extends the
prefix of the root: the call ends without a fault within the fuel, the trie stays well
formed with the same root, the nodes it gains are prefixes of the new network, and the
nodes with an entry are those from before and the node of the new network. -/
theorem insert_spec (W : Nat) (hW : W = 32 ∨ W = 128) (kN : Nat) (ipN : List Nat)
    (hN : Canon W kN ipN) (entry : IPNet) :
    ∀ (fuel k : Nat) (pip : List Nat) (e : Option IPNet) (c0 c1 : prefixTrie),
      WF W (.node k (mkNet W k pip) e c0 c1) → k ≤ kN → (∀ i < k, bbit ipN i = bbit pip i) →
      2 * (W - k) + 2 ≤ fuel →
      ∃ t', prefixTrie.insert fuel (.node k (mkNet W k pip) e c0 c1) (mkNet W kN ipN) entry = some t'
        ∧ RootIs t' k (mkNet W k pip) ∧ WF W t'
        ∧ (∀ k' ip', Nodes t' k' ip' →
            Nodes (.node k (mkNet W k pip) e c0 c1) k' ip' ∨ NewNode k kN ipN k' ip')
        ∧ (∀ k' ip', HasEntry t' k' ip' ↔
            HasEntry (.node k (mkNet W k pip) e c0 c1) k' ip' ∨ (k' = kN ∧ ip' = ipN)) := by
  intro fuel
  induction fuel with
  | zero =>
    intro k pip e c0 c1 _ _ _ hfuel
    omega
  | succ fuel ih =>
    intro k pip e c0 c1 hwf hk hagree hfuel
    obtain ⟨hc, _, b0, b1, w0, w1⟩ := id hwf
    simp only [mkNet_IP] at hc b0 b1
    have hkNW := hN.le
    have hW' : W ≤ 128 := by rcases hW with h | h <;> omega
    rw [insert_succ]
    by_cases hEq : (mkNet W k pip).Equal (mkNet W kN ipN) = true
    · rw [if_pos hEq]
      rw [mkNet_Equal W k kN hW _ _ hc hN] at hEq
      obtain ⟨hk1, hip1⟩ := hEq
      refine ⟨_, rfl, ⟨_, _, _, rfl⟩, hwf, ?_, ?_⟩
      · intro k' ip' hn
        exact Or.inl hn
      · intro k' ip'
        simp only [HasEntry, Option.isSome_some, true_and, mkNet_IP]
        constructor
        · rintro (h | h | h)
          · right
            exact ⟨by omega, by rw [← h.2, hip1]⟩
          · exact Or.inl (Or.inr (Or.inl h))
          · exact Or.inl (Or.inr (Or.inr h))
        · rintro ((h | h | h) | h)
          · exact Or.inl h.2
          · exact Or.inr (Or.inl h)
          · exact Or.inr (Or.inr h)
          · exact Or.inl ⟨by omega, by rw [hip1, h.2]⟩
    · rw [if_neg hEq]
      have hklt : k < kN := by
        rcases Nat.lt_or_ge k kN with h | h
        · exact h
        · exfalso
          apply hEq
          rw [mkNet_Equal W k kN hW _ _ hc hN]
          have hkk : k = kN := by omega
          refine ⟨hkk, ?_⟩
          apply bytes_ext _ _ (by have := hc.len; have := hN.len; omega) hc.bytes hN.bytes
          intro i _
          by_cases hi : i < k
          · exact (hagree i hi).symm
          · rw [hc.zero i (by omega), hN.zero i (by omega)]
      have hbit : (prefixTrie.node k (mkNet W k pip) e c0 c1).targetBitFromIP (mkNet W kN ipN).Number
          = .ok (bitOf (bbit ipN k)) := by
        rw [mkNet_Number W kN hW ipN hN,
          targetBitFromIP_eq W k hW _ hc e c0 c1 _ (wordsOf_length W hW ipN) (by omega),
          wbit_wordsOf W hW ipN hN.bytes k (by omega)]
        rfl
      rw [hbit]
      simp only
      obtain ⟨wc, bc⟩ := hwf.child (bbit ipN k)
      simp only [mkNet_IP] at bc
      generalize hch : (prefixTrie.node k (mkNet W k pip) e c0 c1).child (bitOf (bbit ipN k)) = c
        at wc bc
      cases c with
      | null =>
        simp only
        rw [newEntryTrie_eq W kN hW ipN hN]
        have hbelow : Below k pip (bbit ipN k) (.node kN (mkNet W kN ipN) (some entry) .null .null) := by
          intro k' ip' hn
          rcases hn with hn | hn | hn
          · obtain ⟨h1, h2⟩ := hn
            rw [mkNet_IP] at h2
            subst h1 h2
            exact ⟨hklt, hagree, rfl⟩
          · exact hn.elim
          · exact hn.elim
        refine ⟨_, rfl, rootIs_setChild _ _ _ _ _ _ _,
          hwf.setChild (bbit ipN k) _ (WF_leaf W kN ipN hN _) hbelow, ?_, ?_⟩
        · intro k' ip' hn
          refine nodes_setChild_sub _ _ _ _ _ _ _ k' ip' _ ?_ hn
          intro h
          right
          rcases h with h | h | h
          · obtain ⟨h1, h2⟩ := h
            rw [mkNet_IP] at h2
            subst h1 h2
            exact ⟨by omega, Nat.le_refl _, fun _ _ => rfl⟩
          · exact h.elim
          · exact h.elim
        · intro k' ip'
          apply hasEntry_setChild_iff
          rw [hch]
          simp only [HasEntry, Option.isSome_some, true_and, mkNet_IP, or_false, false_or]
          constructor
          · rintro ⟨h1, h2⟩
            exact ⟨h1.symm, h2.symm⟩
          · rintro ⟨h1, h2⟩
            exact ⟨h1.symm, h2.symm⟩
      | node ck cnet ce cc0 cc1 =>
        simp only
        obtain ⟨cip, rfl⟩ : ∃ cip, cnet = mkNet W ck cip := ⟨_, wc.2.1⟩
        have hcc : Canon W ck cip := wc.1
        obtain ⟨hkck, hcagree, hcbit⟩ := bc ck cip (Or.inl ⟨rfl, rfl⟩)
        have hckW := hcc.le
        have h0 : bbit ipN 0 = bbit cip 0 := by
          rcases Nat.eq_zero_or_pos k with hz | hz
          · subst hz
            exact hcbit.symm
          · rw [hagree 0 hz, hcagree 0 hz]
        obtain ⟨j, hlcb, hjN, hjc, hjagree, hjdiff⟩ := mkNet_lcb W kN ck hW ipN cip hN hcc h0
        have hkj : k < j := by
          rcases Nat.lt_or_ge k j with h | h
          · exact h
          · exfalso
            apply hjdiff (by omega) (by omega)
            rcases Nat.lt_or_ge j k with h' | h'
            · rw [hagree j h', hcagree j h']
            · have : j = k := by omega
              subst this
              exact hcbit.symm
        rw [hlcb, toInt_small _ (by omega), targetBitPosition_eq W ck hW cip hcc]
        by_cases hdiv : j < ck
        · rw [if_pos (by omega)]
          have hmip : Canon W j (maskIP W j ipN) :=
            canon_maskIP W j hW ipN hN.len hN.bytes hN.v6 (by omega)
          have hpp : newPathprefixTrie (mkNet W kN ipN)
              (usub (prefixTrie.node k (mkNet W k pip) e c0 c1).totalNumberOfBits (W - j))
              = .node j (mkNet W j (maskIP W j ipN)) none .null .null := by
            rw [totalNumberOfBits_eq W k hW pip hc, usub_small _ _ (by omega) (by omega)]
            have : W - (W - j) = j := by omega
            rw [this]
            exact newPathprefixTrie_eq W kN j hW ipN hN (by omega)
          rw [hpp]
          have hpbit : (prefixTrie.node j (mkNet W j (maskIP W j ipN)) none .null .null).targetBitFromIP
              (mkNet W ck cip).Number = .ok (bitOf (bbit cip j)) := by
            rw [mkNet_Number W ck hW cip hcc,
              targetBitFromIP_eq W j hW _ hmip none .null .null _ (wordsOf_length W hW cip)
                (by omega),
              wbit_wordsOf W hW cip hcc.bytes j (by omega)]
            rfl
          rw [hpbit]
          simp only
          have hmagree : ∀ i < j, bbit ipN i = bbit (maskIP W j ipN) i := by
            intro i hi
            rw [bbit_maskIP_lt W j ipN hN.len i hi]
          have hcbelow : Below j (maskIP W j ipN) (bbit cip j)
              (.node ck (mkNet W ck cip) ce cc0 cc1) := by
            intro k' ip' hn
            obtain ⟨h1, h2⟩ := wc.nodes_extend_root hn
            rw [mkNet_IP] at h2
            refine ⟨by omega, ?_, ?_⟩
            · intro i hi
              rw [h2 i (by omega), ← hjagree i hi, hmagree i hi]
            · exact h2 j hdiv
          have hppwf : WF W ((prefixTrie.node j (mkNet W j (maskIP W j ipN)) none .null .null).setChild
              (bitOf (bbit cip j)) (.node ck (mkNet W ck cip) ce cc0 cc1)) :=
            (WF_leaf W j _ hmip none).setChild (bbit cip j) _ wc hcbelow
          have hppnodes : ∀ k' ip',
              Nodes ((prefixTrie.node j (mkNet W j (maskIP W j ipN)) none .null .null).setChild
                (bitOf (bbit cip j)) (.node ck (mkNet W ck cip) ce cc0 cc1)) k' ip' →
              (j = k' ∧ maskIP W j ipN = ip') ∨ Nodes (.node ck (mkNet W ck cip) ce cc0 cc1) k' ip' := by
            intro k' ip' hn
            rcases nodes_setChild_sub _ _ _ _ _ _ _ k' ip'
              (Nodes (.node ck (mkNet W ck cip) ce cc0 cc1) k' ip') (fun h => Or.inr h) hn
              with h | h
            · rcases h with h | h | h
              · exact Or.inl h
              · exact h.elim
              · exact h.elim
            · exact Or.inr h
          have hppent : ∀ k' ip',
              HasEntry ((prefixTrie.node j (mkNet W j (maskIP W j ipN)) none .null .null).setChild
                (bitOf (bbit cip j)) (.node ck (mkNet W ck cip) ce cc0 cc1)) k' ip' ↔
              HasEntry (.node ck (mkNet W ck cip) ce cc0 cc1) k' ip' := by
            intro k' ip'
            rw [hasEntry_setChild_iff _ _ _ _ _ _ _ k' ip'
              (HasEntry (.node ck (mkNet W ck cip) ce cc0 cc1) k' ip')]
            · simp [HasEntry]
            · rw [child_of_leaf]
              simp [HasEntry]
          obtain ⟨e2, x0, x1, hform⟩ := rootIs_setChild j (mkNet W j (maskIP W j ipN)) none .null .null
            (bitOf (bbit cip j)) (.node ck (mkNet W ck cip) ce cc0 cc1)
          rw [hform] at hppwf hppnodes hppent ⊢
          obtain ⟨t2, ht2, hroot2, hwf2, hnodes2, hent2⟩ :=
            ih j (maskIP W j ipN) e2 x0 x1 hppwf hjN hmagree (by omega)
          rw [ht2]
          simp only
          have hbelow : Below k pip (bbit ipN k) t2 := by
            intro k' ip' hn
            rcases hnodes2 k' ip' hn with h | h
            · rcases hppnodes k' ip' h with h | h
              · obtain ⟨h1, h2⟩ := h
                subst h1 h2
                refine ⟨hkj, ?_, ?_⟩
                · intro i hi
                  rw [← hmagree i (by omega), hagree i hi]
                · rw [← hmagree k hkj]
              · exact bc k' ip' h
            · obtain ⟨h1, h2, h3⟩ := h
              refine ⟨by omega, ?_, ?_⟩
              · intro i hi
                rw [h3 i (by omega), hagree i hi]
              · exact h3 k (by omega)
          refine ⟨_, rfl, rootIs_setChild _ _ _ _ _ _ _, hwf.setChild (bbit ipN k) _ hwf2 hbelow,
            ?_, ?_⟩
          · intro k' ip' hn
            refine nodes_setChild_sub _ _ _ _ _ _ _ k' ip' _ ?_ hn
            intro h
            rw [hch]
            rcases hnodes2 k' ip' h with h | h
            · rcases hppnodes k' ip' h with h | h
              · obtain ⟨h1, h2⟩ := h
                subst h1 h2
                right
                exact ⟨by omega, hjN, fun i hi => (hmagree i hi).symm⟩
              · exact Or.inl h
            · obtain ⟨h1, h2, h3⟩ := h
              right
              exact ⟨by omega, h2, h3⟩
          · intro k' ip'
            apply hasEntry_setChild_iff
            rw [hch, hent2 k' ip', hppent k' ip']
        · rw [if_neg (by omega)]
          have hjck : j = ck := by omega
          subst hjck
          obtain ⟨t2, ht2, hroot2, hwf2, hnodes2, hent2⟩ :=
            ih j cip ce cc0 cc1 wc hjN hjagree (by omega)
          rw [ht2]
          simp only
          have hbelow : Below k pip (bbit ipN k) t2 := by
            intro k' ip' hn
            rcases hnodes2 k' ip' hn with h | h
            · exact bc k' ip' h
            · obtain ⟨h1, h2, h3⟩ := h
              refine ⟨by omega, ?_, ?_⟩
              · intro i hi
                rw [h3 i (by omega), hagree i hi]
              · exact h3 k (by omega)
          refine ⟨_, rfl, rootIs_setChild _ _ _ _ _ _ _, hwf.setChild (bbit ipN k) _ hwf2 hbelow,
            ?_, ?_⟩
          · intro k' ip' hn
            refine nodes_setChild_sub _ _ _ _ _ _ _ k' ip' _ ?_ hn
            intro h
            rw [hch]
            rcases hnodes2 k' ip' h with h | h
            · exact Or.inl h
            · obtain ⟨h1, h2, h3⟩ := h
              right
              exact ⟨by omega, h2, h3⟩
          · intro k' ip'
            apply hasEntry_setChild_iff
            rw [hch, hent2 k' ip']

/-! ## Containment in a network of package `net` -/

theorem maskedEqual_iff (nn m x : List Nat) (h1 : nn.length = m.length) (h2 : x.length = m.length) :
    maskedEqual nn m x = true ↔ List.zipWith (· &&& ·) nn m = List.zipWith (· &&& ·) x m := by
  induction nn generalizing m x with
  | nil =>
    cases m with
    | nil => simp [maskedEqual]
    | cons b m => simp at h1
  | cons a nn ih =>
    cases m with
    | nil => simp at h1
    | cons b m =>
      cases x with
      | nil => simp at h2
      | cons c x =>
        simp only [List.length_cons, Nat.add_right_cancel_iff] at h1 h2
        simp only [maskedEqual, Bool.and_eq_true, beq_iff_eq, ih m x h1 h2, List.zipWith_cons_cons,
          List.cons.injEq]

theorem isBytes_zipWith_and_right (a b : List Nat) (hb : IsBytes b) :
    IsBytes (List.zipWith (· &&& ·) a b) := by
  induction a generalizing b with
  | nil =>
    intro x hx
    simp at hx
  | cons y a ih =>
    cases b with
    | nil =>
      intro x hx
      simp at hx
    | cons z b =>
      intro x hx
      simp only [List.zipWith_cons_cons, List.mem_cons] at hx
      rcases hx with h | h
      · have h1 : z < 256 := hb z (List.mem_cons_self _ _)
        have h2 : y &&& z ≤ z := Nat.and_le_right
        omega
      · exact ih b (fun w hw => hb w (List.mem_cons_of_mem _ hw)) x h

theorem maskedEqual_canon (W k : Nat) (hW : W = 32 ∨ W = 128) (ip : List Nat)
    (hc : Canon W k ip) (q : List Nat) :
    (if q.length ≠ ip.length then false else maskedEqual ip (cidrMaskBytes (W / 8) k) q) = true
      ↔ q.length * 8 = W ∧ ∀ i < k, bbit q i = bbit ip i := by
  have hl := hc.len
  have hml : (cidrMaskBytes (W / 8) k).length = W / 8 := cidrMaskBytes_length _ _
  have hk := hc.le
  by_cases hlen : q.length ≠ ip.length
  · rw [if_pos hlen]
    simp only [Bool.false_eq_true, false_iff, not_and]
    intro h
    omega
  · rw [if_neg hlen]
    have hlen' : q.length * 8 = W := by omega
    have hW8 : W / 8 * 8 = W := by rcases hW with h | h <;> omega
    rw [maskedEqual_iff _ _ _ (by omega) (by omega)]
    simp only [hlen', true_and]
    constructor
    · intro h i hi
      have := congrArg (fun l => bbit l i) h
      simp only [bbit_zipWith_and, bbit_cidrMaskBytes] at this
      have e : (i < k ∧ i < 8 * (W / 8)) := ⟨hi, by omega⟩
      simp only [e, and_self, decide_True, Bool.and_true] at this
      exact this.symm
    · intro h
      apply bytes_ext _ _ (by simp only [List.length_zipWith]; omega)
        (isBytes_zipWith_and_right _ _ (cidrMaskBytes_isBytes _ _))
        (isBytes_zipWith_and_right _ _ (cidrMaskBytes_isBytes _ _))
      intro i _
      simp only [bbit_zipWith_and, bbit_cidrMaskBytes]
      by_cases hi : i < k
      · rw [h i hi]
      · have e : ¬ (i < k ∧ i < 8 * (W / 8)) := by omega
        simp [e]

theorem IPNet_Contains_canon (W k : Nat) (hW : W = 32 ∨ W = 128) (ip : List Nat)
    (hc : Canon W k ip) (a : List Nat) :
    IPNet.Contains ⟨ip, CIDRMask (k : Int) (W : Int)⟩ a = true
      ↔ (queryBytes a).length * 8 = W ∧ ∀ i < k, bbit (queryBytes a) i = bbit ip i := by
  rw [CIDRMask_eq W k hW hc.le]
  unfold IPNet.Contains queryBytes
  rw [networkNumberAndMask_canon W k hW ip hc]
  cases IP.To4 a with
  | none => exact maskedEqual_canon W k hW ip hc a
  | some x => exact maskedEqual_canon W k hW ip hc x

theorem IPNet_Contains_congr (n1 n2 : IPNet)
    (h : networkNumberAndMask n1 = networkNumberAndMask n2) (a : List Nat) :
    n1.Contains a = n2.Contains a := by
  unfold IPNet.Contains
  rw [h]

/-! ## Queries -/

theorem queryBytes_length_four (a : List Nat) (h : (IP.To4 a).isSome = true) :
    (queryBytes a).length = 4 ∧ IP.To4 a = some (queryBytes a) := by
  unfold queryBytes
  unfold IP.To4 IPv4len IPv6len at h ⊢
  by_cases h4 : a.length = 4
  · simp [h4]
  · rw [if_neg h4] at h ⊢
    split at h
    · rename_i hc
      rw [if_pos hc]
      simp only [Option.getD_some, List.length_drop, and_true]
      omega
    · simp at h

theorem isBytes_queryBytes (a : List Nat) (ha : IsBytes a) : IsBytes (queryBytes a) := by
  unfold queryBytes IP.To4
  split
  · exact ha
  · split
    · intro x hx
      exact ha x (List.mem_of_mem_drop hx)
    · exact ha

theorem NewNetworkNumber_query4 (a : List Nat) (h : (IP.To4 a).isSome = true) :
    NewNetworkNumber a = wordsOf 32 (queryBytes a) := by
  obtain ⟨h1, h2⟩ := queryBytes_length_four a h
  have hne : a.isEmpty = false := by
    cases a with
    | nil => simp [IP.To4, IPv4len, IPv6len] at h
    | cons x xs => rfl
  unfold NewNetworkNumber
  rw [hne, h2]
  simp [wordsOf, words1, List.range, List.range.loop]

theorem NewNetworkNumber_query16 (a : List Nat) (h : (IP.To4 a).isSome = false)
    (h16 : (IP.To16 a).isSome = true) :
    NewNetworkNumber a = wordsOf 128 a ∧ queryBytes a = a ∧ a.length = 16 := by
  have hnone : IP.To4 a = none := by
    cases h' : IP.To4 a with
    | none => rfl
    | some x => simp [h'] at h
  have hlen : a.length = 16 := by
    unfold IP.To16 IPv4len IPv6len at h16
    unfold IP.To4 IPv4len at hnone
    by_cases h4 : a.length = 4
    · simp [h4] at hnone
    · rw [if_neg h4] at h16
      split at h16
      · assumption
      · simp at h16
  have hm : ¬ IsMapped a := (To4_eq_none_iff a hlen).1 hnone
  exact ⟨NewNetworkNumber_of_not_mapped a hlen hm, by simp [queryBytes, hnone], hlen⟩

/-! ## The networks the index is built from -/

theorem mapped_bits (x : List Nat) (h : IsMapped x) :
    (∀ i < 80, bbit x i = false) ∧ (∀ i, 80 ≤ i → i < 96 → bbit x i = true) := by
  obtain ⟨_, hz, h10, h11⟩ := h
  constructor
  · intro i hi
    unfold bbit
    rw [hz (i / 8) (by omega)]
    simp
  · intro i h1 h2
    unfold bbit
    have c : i / 8 = 10 ∨ i / 8 = 11 := by omega
    have e : (255 : Nat).testBit (7 - i % 8) = true := by
      have := Nat.testBit_two_pow_sub_one 8 (7 - i % 8)
      simp only [Nat.reducePow, Nat.add_one_sub_one] at this
      rw [this]
      simp only [decide_eq_true_eq]
      omega
    rcases c with c | c
    · rw [c, h10]
      exact e
    · rw [c, h11]
      exact e

theorem mapped96_IP_mapped : IsMapped mapped96.IP := by
  refine ⟨rfl, ?_, rfl, rfl⟩
  intro i hi
  interval_cases i <;> rfl

theorem mapped96_IP_zero (i : Nat) (hi : 96 ≤ i) : bbit mapped96.IP i = false := by
  unfold bbit
  have c : i / 8 = 12 ∨ i / 8 = 13 ∨ i / 8 = 14 ∨ i / 8 = 15 ∨ 16 ≤ i / 8 := by omega
  rcases c with c | c | c | c | c
  · rw [c]
    simp [mapped96, v4InV6Prefix]
  · rw [c]
    simp [mapped96, v4InV6Prefix]
  · rw [c]
    simp [mapped96, v4InV6Prefix]
  · rw [c]
    simp [mapped96, v4InV6Prefix]
  · rw [List.getD_eq_default]
    · simp
    · simpa [mapped96, v4InV6Prefix] using c

theorem IsCIDR.goodForm {n : IPNet} (h : IsCIDR n) (hm : ¬ IsMappedBlock n) : GoodForm n := by
  obtain ⟨W, k, ip, hW, hk, hlen, hb, rfl⟩ := h
  have hmask : IP.Mask ip (CIDRMask (k : Int) (W : Int)) = maskIP W k ip := by
    rw [CIDRMask_eq W k hW hk, IP_Mask_same_length]
    · rfl
    · rw [cidrMaskBytes_length]
      omega
  rw [hmask] at hm ⊢
  by_cases hmap : W = 128 → ¬ IsMapped (maskIP W k ip)
  · left
    refine ⟨W, k, maskIP W k ip, hW, ?_, rfl⟩
    exact {
      len := by rw [maskIP_length W k ip hlen]; exact hlen
      bytes := isBytes_zipWith_and _ _ hb
      le := hk
      zero := by
        intro i hi
        rw [bbit_maskIP W k ip hlen]
        have : ¬ i < k := by omega
        simp [this]
      v6 := hmap }
  · right
    simp only [Classical.not_imp, not_not] at hmap
    obtain ⟨hW128, hmapped⟩ := hmap
    subst hW128
    have hsize : (IPMask.Size (CIDRMask (k : Int) ((128 : Nat) : Int))).1 = (k : Int) :=
      CIDRMask_size 128 k hW hk
    have hk96 : k ≤ 96 := by
      by_contra hcon
      apply hm
      refine ⟨hmapped, ?_⟩
      simp only [hsize]
      omega
    obtain ⟨hz, ho⟩ := mapped_bits _ hmapped
    have hk96' : 96 ≤ k := by
      have := ho 95 (by omega) (by omega)
      rw [bbit_maskIP 128 k ip hlen] at this
      simp only [Bool.and_eq_true, decide_eq_true_eq] at this
      omega
    have hk' : k = 96 := by omega
    subst hk'
    have hlen1 : (maskIP 128 96 ip).length = mapped96.IP.length := by
      rw [maskIP_length 128 96 ip hlen]
      simp only [mapped96, v4InV6Prefix, List.cons_append, List.nil_append, List.length_cons,
        List.length_nil]
      omega
    have hb2 : IsBytes mapped96.IP := by
      intro x hx
      simp only [mapped96, v4InV6Prefix, List.cons_append, List.nil_append, List.mem_cons,
        List.mem_singleton, List.not_mem_nil, or_false] at hx
      omega
    have hbits : ∀ i, i < (maskIP 128 96 ip).length * 8 →
        bbit (maskIP 128 96 ip) i = bbit mapped96.IP i := by
      intro i _
      obtain ⟨hz', ho'⟩ := mapped_bits _ mapped96_IP_mapped
      by_cases h1 : i < 80
      · rw [hz i h1, hz' i h1]
      · by_cases h2 : i < 96
        · rw [ho i (by omega) h2, ho' i (by omega) h2]
        · rw [mapped96_IP_zero i (by omega), bbit_maskIP 128 96 ip hlen]
          have : ¬ i < 96 := h2
          simp [this]
    have hip : maskIP 128 96 ip = mapped96.IP :=
      bytes_ext (maskIP 128 96 ip) mapped96.IP hlen1 (isBytes_zipWith_and _ _ hb) hb2 hbits
    rw [hip, CIDRMask_eq 128 96 hW hk]
    rfl

/-! ## The two tries of a ranger -/

theorem bbit_zeroIP (W i : Nat) : bbit (zeroIP W) i = false := by
  unfold bbit zeroIP
  have : (List.replicate (W / 8) 0).getD (i / 8) 0 = 0 := by
    rw [List.getD_eq_getElem?_getD, List.getElem?_replicate]
    split <;> rfl
  rw [this]
  simp

theorem canon_zeroIP (W : Nat) (hW : W = 32 ∨ W = 128) : Canon W 0 (zeroIP W) where
  len := by
    unfold zeroIP
    rw [List.length_replicate]
    rcases hW with h | h <;> omega
  bytes := by
    intro x hx
    have := List.eq_of_mem_replicate hx
    omega
  le := Nat.zero_le _
  zero := fun i _ => bbit_zeroIP W i
  v6 := by
    intro h hm
    subst h
    have := hm.2.2.1
    simp [zeroIP] at this

theorem canon_zero_unique (W : Nat) (ip : List Nat) (hc : Canon W 0 ip) (hW : W = 32 ∨ W = 128) :
    ip = zeroIP W := by
  have hz := canon_zeroIP W hW
  apply bytes_ext _ _ (by have := hc.len; have := hz.len; omega) hc.bytes hz.bytes
  intro i _
  rw [hc.zero i (Nat.zero_le _), bbit_zeroIP]

theorem newPrefixTree_v4 : newPrefixTree false = .node 0 (mkNet 32 0 (zeroIP 32)) none .null .null := by
  rfl

theorem newPrefixTree_v6 : newPrefixTree true = .node 0 (mkNet 128 0 (zeroIP 128)) none .null .null := by
  rfl

theorem rangerOK_new : RangerOK (fun _ => False) NewPCTrieRanger where
  root4 := ⟨_, _, _, newPrefixTree_v4⟩
  wf4 := by
    show WF 32 (newPrefixTree false)
    rw [newPrefixTree_v4]
    exact WF_leaf 32 0 _ (canon_zeroIP 32 (Or.inl rfl)) none
  ent4 := by
    intro k ip
    show HasEntry (newPrefixTree false) k ip ↔ _
    rw [newPrefixTree_v4]
    simp [HasEntry]
  root6 := ⟨_, _, _, newPrefixTree_v6⟩
  wf6 := by
    show WF 128 (newPrefixTree true)
    rw [newPrefixTree_v6]
    exact WF_leaf 128 0 _ (canon_zeroIP 128 (Or.inr rfl)) none
  ent6 := by
    intro k ip
    show HasEntry (newPrefixTree true) k ip ↔ _
    rw [newPrefixTree_v6]
    simp [HasEntry]

theorem canon_net_inj (W k k' : Nat) (hW : W = 32 ∨ W = 128) (ip ip' : List Nat)
    (hc : Canon W k ip) (hc' : Canon W k' ip')
    (h : (⟨ip, CIDRMask (k : Int) (W : Int)⟩ : IPNet) = ⟨ip', CIDRMask (k' : Int) (W : Int)⟩) :
    k = k' ∧ ip = ip' := by
  simp only [IPNet.mk.injEq] at h
  obtain ⟨h1, h2⟩ := h
  rw [CIDRMask_eq W k hW hc.le, CIDRMask_eq W k' hW hc'.le] at h2
  refine ⟨cidrMaskBytes_inj (W / 8) k k' ?_ ?_ h2, h1⟩
  · have := hc.le
    rcases hW with h | h <;> omega
  · have := hc'.le
    rcases hW with h | h <;> omega

/-- Inserting into the root trie of one version: the trie-level statement of `insert_spec`
for the method `Insert`. -/
theorem Insert_root (W : Nat) (hW : W = 32 ∨ W = 128) (kN : Nat) (ipN : List Nat)
    (hN : Canon W kN ipN) (t : prefixTrie) (hroot : RootIs t 0 (mkNet W 0 (zeroIP W)))
    (hwf : WF W t) :
    ∃ t', t.Insert ⟨ipN, CIDRMask (kN : Int) (W : Int)⟩ = some t'
      ∧ RootIs t' 0 (mkNet W 0 (zeroIP W)) ∧ WF W t'
      ∧ ∀ k' ip', HasEntry t' k' ip' ↔ HasEntry t k' ip' ∨ (k' = kN ∧ ip' = ipN) := by
  obtain ⟨e, c0, c1, rfl⟩ := hroot
  have hfuel : 2 * (W - 0) + 2 ≤ insertFuel := by
    unfold insertFuel
    rcases hW with h | h <;> omega
  obtain ⟨t', h1, h2, h3, _, h5⟩ :=
    insert_spec W hW kN ipN hN ⟨ipN, CIDRMask (kN : Int) (W : Int)⟩ insertFuel 0 (zeroIP W) e c0 c1
      hwf (Nat.zero_le _) (fun i hi => absurd hi (Nat.not_lt_zero _)) hfuel
  exact ⟨t', h1, h2, h3, h5⟩

theorem canon_To4 (k : Nat) (ip : List Nat) (hc : Canon 32 k ip) : (IP.To4 ip).isSome = true := by
  rw [To4_of_length_four ip (by have := hc.len; omega)]
  rfl

theorem canon_To4_none (k : Nat) (ip : List Nat) (hc : Canon 128 k ip) :
    (IP.To4 ip).isSome = false ∧ (IP.To16 ip).isSome = true := by
  have hl : ip.length = 16 := by
    have := hc.len
    omega
  rw [(To4_eq_none_iff ip hl).2 (hc.v6 rfl)]
  refine ⟨rfl, ?_⟩
  unfold IP.To16 IPv4len IPv6len
  rw [if_neg (by omega), if_pos hl]
  rfl

theorem mapped96_ne_canon (W k : Nat) (hW : W = 32 ∨ W = 128) (ip : List Nat) (hc : Canon W k ip) :
    mapped96 ≠ ⟨ip, CIDRMask (k : Int) (W : Int)⟩ := by
  intro h
  have hip : mapped96.IP = ip := by rw [h]
  rcases hW with h32 | h128
  · subst h32
    have := hc.len
    rw [← hip] at this
    simp [mapped96, v4InV6Prefix] at this
  · subst h128
    apply hc.v6 rfl
    rw [← hip]
    exact mapped96_IP_mapped

theorem canon_width_unique (k k' : Nat) (ip : List Nat) (h32 : Canon 32 k ip)
    (h128 : Canon 128 k' ip) : False := by
  have := h32.len
  have := h128.len
  omega

/-- Inserting a network of one of the good forms into a ranger that holds the networks of
`S` ends without a fault and gives a ranger that holds the networks of `S` and the new
one. -/
theorem RangerOK.insert {S : IPNet → Prop} {v : versionedRanger} (h : RangerOK S v)
    (n : IPNet) (hn : GoodForm n) :
    ∃ v', v.Insert n = some v' ∧ RangerOK (fun m => S m ∨ m = n) v' := by
  rcases hn with ⟨W, kN, ipN, hW, hN, rfl⟩ | rfl
  · rcases hW with h32 | h128
    · subst h32
      obtain ⟨t', h1, h2, h3, h4⟩ := Insert_root 32 (Or.inl rfl) kN ipN hN _ h.root4 h.wf4
      refine ⟨⟨t', v.ipV6Ranger⟩, ?_, ?_⟩
      · unfold versionedRanger.Insert
        simp only [canon_To4 kN ipN hN, if_true, h1, Option.map_some']
      · refine ⟨h2, h3, ?_, h.root6, h.wf6, ?_⟩
        · intro k ip
          simp only [h4, h.ent4]
          constructor
          · rintro (⟨m, hm, hd⟩ | ⟨hk, hip⟩)
            · exact ⟨m, Or.inl hm, hd⟩
            · subst hk hip
              exact ⟨_, Or.inr rfl, Or.inl ⟨hN, rfl⟩⟩
          · rintro ⟨m, hm | hm, hd⟩
            · exact Or.inl ⟨m, hm, hd⟩
            · subst hm
              rcases hd with ⟨hc, heq⟩ | ⟨heq, _, _⟩
              · obtain ⟨e1, e2⟩ := canon_net_inj 32 kN k (Or.inl rfl) ipN ip hN hc heq
                exact Or.inr ⟨e1.symm, e2.symm⟩
              · exact absurd heq.symm (mapped96_ne_canon 32 kN (Or.inl rfl) ipN hN)
        · intro k ip
          simp only [h.ent6]
          constructor
          · rintro ⟨m, hm, hd⟩
            exact ⟨m, Or.inl hm, hd⟩
          · rintro ⟨m, hm | hm, hc, heq⟩
            · exact ⟨m, hm, hc, heq⟩
            · subst hm
              have hip : ipN = ip := by
                have := congrArg IPNet.IP heq
                exact this
              subst hip
              exact (canon_width_unique kN k ipN hN hc).elim
    · subst h128
      obtain ⟨t', h1, h2, h3, h4⟩ := Insert_root 128 (Or.inr rfl) kN ipN hN _ h.root6 h.wf6
      obtain ⟨hto4, hto16⟩ := canon_To4_none kN ipN hN
      refine ⟨⟨v.ipV4Ranger, t'⟩, ?_, ?_⟩
      · unfold versionedRanger.Insert
        simp only [hto4, hto16, Bool.false_eq_true, if_false, if_true, h1, Option.map_some']
      · refine ⟨h.root4, h.wf4, ?_, h2, h3, ?_⟩
        · intro k ip
          simp only [h.ent4]
          constructor
          · rintro ⟨m, hm, hd⟩
            exact ⟨m, Or.inl hm, hd⟩
          · rintro ⟨m, hm | hm, hd⟩
            · exact ⟨m, hm, hd⟩
            · subst hm
              rcases hd with ⟨hc, heq⟩ | ⟨heq, _, _⟩
              · have hip : ipN = ip := by
                  have := congrArg IPNet.IP heq
                  exact this
                subst hip
                exact (canon_width_unique k kN ipN hc hN).elim
              · exact absurd heq.symm (mapped96_ne_canon 128 kN (Or.inr rfl) ipN hN)
        · intro k ip
          simp only [h4, h.ent6]
          constructor
          · rintro (⟨m, hm, hd⟩ | ⟨hk, hip⟩)
            · exact ⟨m, Or.inl hm, hd⟩
            · subst hk hip
              exact ⟨_, Or.inr rfl, hN, rfl⟩
          · rintro ⟨m, hm | hm, hc, heq⟩
            · exact Or.inl ⟨m, hm, hc, heq⟩
            · subst hm
              obtain ⟨e1, e2⟩ := canon_net_inj 128 kN k (Or.inr rfl) ipN ip hN hc heq
              exact Or.inr ⟨e1.symm, e2.symm⟩
  · obtain ⟨e, c0, c1, hform⟩ := h.root4
    have hwf := h.wf4
    have hent := h.ent4
    rw [hform] at hwf hent
    have hEq : (mkNet 32 0 (zeroIP 32)).Equal (NewNetwork mapped96) = true := by decide
    have hto4 : (IP.To4 mapped96.IP).isSome = true := by decide
    refine ⟨⟨.node 0 (mkNet 32 0 (zeroIP 32)) (some mapped96) c0 c1, v.ipV6Ranger⟩, ?_, ?_⟩
    · unfold versionedRanger.Insert prefixTrie.Insert
      rw [hform]
      simp only [hto4, if_true]
      have : insertFuel = 259 + 1 := rfl
      rw [this, insert_succ, if_pos hEq]
      rfl
    · refine ⟨⟨_, _, _, rfl⟩, hwf, ?_, h.root6, h.wf6, ?_⟩
      · intro k ip
        have hold := hent k ip
        simp only [HasEntry, mkNet_IP] at hold ⊢
        simp only [Option.isSome_some, true_and]
        constructor
        · rintro (⟨hk, hip⟩ | hc | hc)
          · exact ⟨mapped96, Or.inr rfl, Or.inr ⟨rfl, hk.symm, hip.symm⟩⟩
          · obtain ⟨m, hm, hd⟩ := hold.1 (Or.inr (Or.inl hc))
            exact ⟨m, Or.inl hm, hd⟩
          · obtain ⟨m, hm, hd⟩ := hold.1 (Or.inr (Or.inr hc))
            exact ⟨m, Or.inl hm, hd⟩
        · rintro ⟨m, hm | hm, hd⟩
          · rcases hold.2 ⟨m, hm, hd⟩ with hc | hc | hc
            · exact Or.inl hc.2
            · exact Or.inr (Or.inl hc)
            · exact Or.inr (Or.inr hc)
          · subst hm
            rcases hd with ⟨hc, heq⟩ | ⟨_, hk, hip⟩
            · exact absurd heq (mapped96_ne_canon 32 k (Or.inl rfl) ip hc)
            · exact Or.inl ⟨hk.symm, hip.symm⟩
      · intro k ip
        simp only [h.ent6]
        constructor
        · rintro ⟨m, hm, hd⟩
          exact ⟨m, Or.inl hm, hd⟩
        · rintro ⟨m, hm | hm, hc, heq⟩
          · exact ⟨m, hm, hc, heq⟩
          · subst hm
            exact absurd heq (mapped96_ne_canon 128 k (Or.inr rfl) ip hc)

theorem mapped96_Contains (a : List Nat) :
    mapped96.Contains a = true ↔ (queryBytes a).length * 8 = 32 := by
  have hcongr : networkNumberAndMask mapped96
      = networkNumberAndMask ⟨zeroIP 32, CIDRMask ((0 : Nat) : Int) ((32 : Nat) : Int)⟩ := by
    decide
  rw [IPNet_Contains_congr _ _ hcongr,
    IPNet_Contains_canon 32 0 (Or.inl rfl) _ (canon_zeroIP 32 (Or.inl rfl))]
  constructor
  · exact fun h => h.1
  · exact fun h => ⟨h, fun i hi => absurd hi (Nat.not_lt_zero _)⟩

theorem wordsOf_isEmpty (W : Nat) (b : List Nat) : (wordsOf W b).isEmpty = false := by
  unfold wordsOf
  split <;> rfl

/-- What a trie of a ranger answers, in terms of the nodes that hold an entry. -/
theorem trie_Contains_iff (W : Nat) (hW : W = 32 ∨ W = 128) (t : prefixTrie) (hwf : WF W t)
    (a q : List Nat) (hq : IsBytes q) (hnn : NewNetworkNumber a = wordsOf W q) :
    t.Contains a = true ↔ ∃ k ip, HasEntry t k ip ∧ ∀ i < k, bbit q i = bbit ip i := by
  unfold prefixTrie.Contains
  simp only [hnn, wordsOf_isEmpty, Bool.false_eq_true, if_false]
  constructor
  · intro h
    obtain ⟨k, ip, h1, _, h3⟩ := contains_sound W hW t hwf _ h
    refine ⟨k, ip, h1, ?_⟩
    intro i hi
    have hkW := (hwf.canon_of_nodes h1.nodes).le
    rw [← h3 i hi, wbit_wordsOf W hW q hq i (by omega)]
  · rintro ⟨k, ip, h1, h2⟩
    apply contains_complete W hW t hwf _ (wordsOf_length W hW q) k ip h1
    intro i hi
    have hkW := (hwf.canon_of_nodes h1.nodes).le
    rw [wbit_wordsOf W hW q hq i (by omega), h2 i hi]

/-- A ranger that holds the networks of `S`, all of a good form, contains an address
exactly when one of the networks of `S` includes it. -/
theorem RangerOK.contains_iff {S : IPNet → Prop} {v : versionedRanger} (h : RangerOK S v)
    (hS : ∀ n, S n → GoodForm n) (a : List Nat) (ha : IsBytes a) :
    v.Contains a = true ↔ ∃ n, S n ∧ n.Contains a = true := by
  have hqb := isBytes_queryBytes a ha
  unfold versionedRanger.Contains
  by_cases h4 : (IP.To4 a).isSome = true
  · rw [if_pos h4]
    obtain ⟨hql, _⟩ := queryBytes_length_four a h4
    rw [trie_Contains_iff 32 (Or.inl rfl) _ h.wf4 a (queryBytes a) hqb
      (NewNetworkNumber_query4 a h4)]
    constructor
    · rintro ⟨k, ip, he, hbits⟩
      obtain ⟨n, hn, hd⟩ := (h.ent4 k ip).1 he
      refine ⟨n, hn, ?_⟩
      rcases hd with ⟨hc, rfl⟩ | ⟨rfl, _, _⟩
      · rw [IPNet_Contains_canon 32 k (Or.inl rfl) ip hc]
        exact ⟨by omega, hbits⟩
      · rw [mapped96_Contains]
        omega
    · rintro ⟨n, hn, hc⟩
      rcases hS n hn with ⟨W, k, ip, hW, hcan, rfl⟩ | rfl
      · rw [IPNet_Contains_canon W k hW ip hcan] at hc
        rcases hW with h32 | h128
        · subst h32
          exact ⟨k, ip, (h.ent4 k ip).2 ⟨_, hn, Or.inl ⟨hcan, rfl⟩⟩, hc.2⟩
        · subst h128
          omega
      · exact ⟨0, zeroIP 32, (h.ent4 0 _).2 ⟨_, hn, Or.inr ⟨rfl, rfl, rfl⟩⟩,
          fun i hi => absurd hi (Nat.not_lt_zero _)⟩
  · rw [if_neg h4]
    have h4' : (IP.To4 a).isSome = false := by simpa using h4
    by_cases h16 : (IP.To16 a).isSome = true
    · rw [if_pos h16]
      obtain ⟨hnn, hqa, hlen⟩ := NewNetworkNumber_query16 a h4' h16
      rw [trie_Contains_iff 128 (Or.inr rfl) _ h.wf6 a a ha hnn]
      constructor
      · rintro ⟨k, ip, he, hbits⟩
        obtain ⟨n, hn, hc, rfl⟩ := (h.ent6 k ip).1 he
        refine ⟨_, hn, ?_⟩
        rw [IPNet_Contains_canon 128 k (Or.inr rfl) ip hc, hqa]
        exact ⟨by omega, hbits⟩
      · rintro ⟨n, hn, hc⟩
        rcases hS n hn with ⟨W, k, ip, hW, hcan, rfl⟩ | rfl
        · rw [IPNet_Contains_canon W k hW ip hcan, hqa] at hc
          rcases hW with h32 | h128
          · subst h32
            omega
          · subst h128
            exact ⟨k, ip, (h.ent6 k ip).2 ⟨_, hn, hcan, rfl⟩, hc.2⟩
        · rw [mapped96_Contains, hqa] at hc
          omega
    · rw [if_neg h16]
      simp only [Bool.false_eq_true, false_iff, not_exists, not_and]
      intro n hn hc
      have hnone : IP.To4 a = none := by
        cases h' : IP.To4 a with
        | none => rfl
        | some x => simp [h'] at h4
      have hqa : queryBytes a = a := by simp [queryBytes, hnone]
      have hl4 : a.length ≠ 4 := by
        intro hl
        rw [To4_of_length_four a hl] at hnone
        cases hnone
      have hl16 : a.length ≠ 16 := by
        intro hl
        apply h16
        unfold IP.To16 IPv4len IPv6len
        rw [if_neg hl4, if_pos hl]
        rfl
      rcases hS n hn with ⟨W, k, ip, hW, hcan, rfl⟩ | rfl
      · rw [IPNet_Contains_canon W k hW ip hcan, hqa] at hc
        rcases hW with h32 | h128
        · subst h32
          omega
        · subst h128
          omega
      · rw [mapped96_Contains, hqa] at hc
        omega

/-! ## Building an index -/

theorem insertAll_spec (S : IPNet → Prop) (v : versionedRanger) (h : RangerOK S v)
    (P : List IPNet) (hP : ∀ n ∈ P, GoodForm n) :
    ∃ v', insertAll v P = some v' ∧ RangerOK (fun m => S m ∨ m ∈ P) v' := by
  induction P generalizing S v with
  | nil =>
    refine ⟨v, rfl, ?_⟩
    simpa using h
  | cons n rest ih =>
    obtain ⟨v1, h1, hok1⟩ := h.insert n (hP n (List.mem_cons_self _ _))
    obtain ⟨v2, h2, hok2⟩ := ih _ v1 hok1 (fun m hm => hP m (List.mem_cons_of_mem _ hm))
    refine ⟨v2, ?_, ?_⟩
    · unfold insertAll
      rw [h1]
      exact h2
    · have e : (fun m => (S m ∨ m = n) ∨ m ∈ rest) = (fun m => S m ∨ m ∈ n :: rest) := by
        funext m
        simp only [List.mem_cons, or_assoc]
      rw [← e]
      exact hok2

/-- Building a ranger from networks that are as `ParseCIDR` returns them, none of them an
IPv4-mapped network of prefix length above 96, ends without a fault, and the ranger contains
an address exactly when one of the networks includes it. -/
theorem build_spec (P : List IPNet) (hP : ∀ n ∈ P, IsCIDR n ∧ ¬ IsMappedBlock n) :
    ∃ v, insertAll NewPCTrieRanger P = some v
      ∧ ∀ a, IsBytes a → (v.Contains a = true ↔ ∃ n ∈ P, n.Contains a = true) := by
  have hgood : ∀ n ∈ P, GoodForm n := fun n hn => (hP n hn).1.goodForm (hP n hn).2
  obtain ⟨v, h1, hok⟩ := insertAll_spec _ _ rangerOK_new P hgood
  refine ⟨v, h1, ?_⟩
  intro a ha
  rw [hok.contains_iff (fun n hn => by
    rcases hn with hn | hn
    · exact hn.elim
    · exact hgood n hn) a ha]
  constructor
  · rintro ⟨n, hn | hn, hc⟩
    · exact hn.elim
    · exact ⟨n, hn, hc⟩
  · rintro ⟨n, hn, hc⟩
    exact ⟨n, Or.inr hn, hc⟩

/-! ## What the parsers return -/

theorem isBytes_append {a b : List Nat} (ha : IsBytes a) (hb : IsBytes b) : IsBytes (a ++ b) := by
  intro x hx
  rcases List.mem_append.1 hx with h | h
  · exact ha x h
  · exact hb x h

theorem parseIPv4FieldsLoop_spec (s : GoString) (val digLen : Nat) (fields : List Nat)
    (first prevDot : Bool) (f : List Nat) (hv : val ≤ 255) (hf : IsBytes fields)
    (hl : fields.length ≤ 3)
    (h : parseIPv4FieldsLoop s val digLen fields first prevDot = some f) :
    f.length = 4 ∧ IsBytes f := by
  induction s generalizing val digLen fields first prevDot with
  | nil =>
    unfold parseIPv4FieldsLoop at h
    split at h
    · cases h
    · simp only [Option.some.injEq] at h
      subst h
      refine ⟨by simp only [List.length_append, List.length_singleton]; omega, ?_⟩
      apply isBytes_append hf
      intro x hx
      simp only [List.mem_singleton] at hx
      omega
  | cons c s ih =>
    unfold parseIPv4FieldsLoop at h
    split at h
    · split at h
      · cases h
      · simp only at h
        split at h
        · cases h
        · rename_i hle
          exact ih _ _ _ _ _ (by omega) hf hl h
    · split at h
      · split at h
        · cases h
        · split at h
          · cases h
          · rename_i hne
            refine ih 0 0 _ _ _ (by omega) ?_ ?_ h
            · apply isBytes_append hf
              intro x hx
              simp only [List.mem_singleton] at hx
              omega
            · simp only [List.length_append, List.length_singleton]
              omega
      · cases h

theorem parseIPv4Fields_spec (s : GoString) (f : List Nat) (h : parseIPv4Fields s = some f) :
    f.length = 4 ∧ IsBytes f :=
  parseIPv4FieldsLoop_spec s 0 0 [] true false f (by omega) (fun _ hx => by simp at hx)
    (by simp) h

theorem parseIPv6Loop_spec (fuel : Nat) (s : GoString) (ip : List Nat) (ell : Option Nat)
    (rest : GoString) (ip' : List Nat) (ell' : Option Nat) (hb : IsBytes ip)
    (he : ip.length % 2 = 0) (hl : ip.length ≤ 16)
    (h : parseIPv6Loop fuel s ip ell = some (rest, ip', ell')) :
    IsBytes ip' ∧ ip'.length ≤ 16 := by
  induction fuel generalizing s ip ell with
  | zero =>
    simp only [parseIPv6Loop, Option.some.injEq, Prod.mk.injEq] at h
    obtain ⟨_, h2, _⟩ := h
    subst h2
    exact ⟨hb, hl⟩
  | succ fuel ih =>
    unfold parseIPv6Loop at h
    split at h
    · simp only [Option.some.injEq, Prod.mk.injEq] at h
      obtain ⟨_, h2, _⟩ := h
      subst h2
      exact ⟨hb, hl⟩
    · rename_i hlt
      split at h
      · cases h
      · rename_i off acc rest0 hg
        split at h
        · cases h
        · split at h
          · split at h
            · cases h
            · split at h
              · cases h
              · rename_i hroom
                split at h
                · cases h
                · rename_i fields hfields
                  simp only [Option.some.injEq, Prod.mk.injEq] at h
                  obtain ⟨_, h2, _⟩ := h
                  subst h2
                  obtain ⟨f1, f2⟩ := parseIPv4Fields_spec s fields hfields
                  refine ⟨isBytes_append hb f2, ?_⟩
                  simp only [List.length_append]
                  omega
          · have hb2 : IsBytes (ip ++ [(acc >>> 8) % 256, acc % 256]) := by
              apply isBytes_append hb
              intro x hx
              simp only [List.mem_cons, List.mem_singleton, List.not_mem_nil, or_false] at hx
              rcases hx with hx | hx <;> omega
            have hl2 : (ip ++ [(acc >>> 8) % 256, acc % 256]).length ≤ 16 := by
              simp only [List.length_append, List.length_cons, List.length_nil]
              omega
            have he2 : (ip ++ [(acc >>> 8) % 256, acc % 256]).length % 2 = 0 := by
              simp only [List.length_append, List.length_cons, List.length_nil]
              omega
            simp only at h
            split at h
            · simp only [Option.some.injEq, Prod.mk.injEq] at h
              obtain ⟨_, h2, _⟩ := h
              subst h2
              exact ⟨hb2, hl2⟩
            · split at h
              · cases h
              · split at h
                · cases h
                · split at h
                  · split at h
                    · cases h
                    · split at h
                      · simp only [Option.some.injEq, Prod.mk.injEq] at h
                        obtain ⟨_, h2, _⟩ := h
                        subst h2
                        exact ⟨hb2, hl2⟩
                      · exact ih _ _ _ hb2 he2 hl2 h
                  · exact ih _ _ _ hb2 he2 hl2 h

theorem isBytes_replicate_zero (n : Nat) : IsBytes (List.replicate n 0) := by
  intro x hx
  have := List.eq_of_mem_replicate hx
  omega

theorem parseIPv6_tail (zone : GoString) (r : Option (GoString × List Nat × Option Nat))
    (a : Addr)
    (h : (match r with
      | none => none
      | some (rest, ip, ellipsis) =>
        if ¬ rest.isEmpty then none
        else if ip.length < 16 then
          match ellipsis with
          | none => none
          | some e => some (.v6 (ip.take e ++ List.replicate (16 - ip.length) 0 ++ ip.drop e) zone)
        else if ellipsis.isSome then none
        else some (Addr.v6 ip zone)) = some a)
    (hr : ∀ rest ip ell, r = some (rest, ip, ell) → IsBytes ip ∧ ip.length ≤ 16) :
    ∃ b zone, a = .v6 b zone ∧ b.length = 16 ∧ IsBytes b := by
  cases r with
  | none => cases h
  | some t =>
    obtain ⟨rest, ip, ell⟩ := t
    obtain ⟨hb, hl⟩ := hr rest ip ell rfl
    simp only at h
    split at h
    · cases h
    · split at h
      · cases ell with
        | none => cases h
        | some e =>
          simp only [Option.some.injEq] at h
          subst h
          refine ⟨_, _, rfl, ?_, ?_⟩
          · simp only [List.length_append, List.length_take, List.length_replicate,
              List.length_drop]
            omega
          · apply isBytes_append
            · apply isBytes_append
              · intro x hx
                exact hb x (List.mem_of_mem_take hx)
              · exact isBytes_replicate_zero _
            · intro x hx
              exact hb x (List.mem_of_mem_drop hx)
      · split at h
        · cases h
        · simp only [Option.some.injEq] at h
          subst h
          exact ⟨_, _, rfl, by omega, hb⟩

theorem parseIPv6_spec (s : GoString) (a : Addr) (h : parseIPv6 s = some a) :
    ∃ b zone, a = .v6 b zone ∧ b.length = 16 ∧ IsBytes b := by
  unfold parseIPv6 at h
  simp only at h
  split at h
  · cases h
  · rename_i s1 zone _
    by_cases hlead : strings.HasPrefix s1 [':', ':'] = true
    · simp only [hlead, if_true, true_and] at h
      split at h
      · simp only [Option.some.injEq] at h
        subst h
        exact ⟨_, _, rfl, by simp, isBytes_replicate_zero 16⟩
      · refine parseIPv6_tail zone _ a h ?_
        intro rest ip ell hloop
        exact parseIPv6Loop_spec 9 _ [] _ rest ip ell (fun _ hx => by simp at hx)
          (by simp) (by simp) hloop
    · simp only [hlead, Bool.false_eq_true, if_false, false_and] at h
      refine parseIPv6_tail zone _ a h ?_
      intro rest ip ell hloop
      exact parseIPv6Loop_spec 9 _ [] _ rest ip ell (fun _ hx => by simp at hx)
        (by simp) (by simp) hloop

theorem parseAddrScan_spec (whole s : GoString) (a : Addr) (h : parseAddrScan whole s = some a) :
    ('.' ∈ s ∧ ∃ b, a = .v4 b ∧ parseIPv4Fields whole = some b)
      ∨ (':' ∈ s ∧ parseIPv6 whole = some a) := by
  induction s with
  | nil => simp [parseAddrScan] at h
  | cons c s ih =>
    unfold parseAddrScan at h
    split at h
    · rename_i hc
      left
      refine ⟨by simp [hc], ?_⟩
      unfold parseIPv4 at h
      cases hp : parseIPv4Fields whole with
      | none => simp [hp] at h
      | some b =>
        simp only [hp, Option.map_some', Option.some.injEq] at h
        exact ⟨b, h.symm, rfl⟩
    · split at h
      · rename_i hc
        right
        exact ⟨by simp [hc], h⟩
      · split at h
        · cases h
        · rcases ih h with ⟨h1, h2⟩ | ⟨h1, h2⟩
          · exact Or.inl ⟨List.mem_cons_of_mem _ h1, h2⟩
          · exact Or.inr ⟨List.mem_cons_of_mem _ h1, h2⟩

/-- What `ParseAddr` returns: the four bytes of an IPv4 address, for a text with a dot, or
the sixteen bytes of an IPv6 address, for a text with a colon. -/
theorem ParseAddr_spec (s : GoString) (a : Addr) (h : ParseAddr s = some a) :
    ('.' ∈ s ∧ ∃ b, a = .v4 b ∧ b.length = 4 ∧ IsBytes b ∧ parseIPv4Fields s = some b)
      ∨ (':' ∈ s ∧ ∃ b zone, a = .v6 b zone ∧ b.length = 16 ∧ IsBytes b) := by
  rcases parseAddrScan_spec s s a h with ⟨h1, b, h2, h3⟩ | ⟨h1, h2⟩
  · obtain ⟨h4, h5⟩ := parseIPv4Fields_spec s b h3
    exact Or.inl ⟨h1, b, h2, h4, h5, h3⟩
  · exact Or.inr ⟨h1, parseIPv6_spec s a h2⟩

/-! ## CIDR parsing of an entry -/

theorem takeWhile_ne_append (c : Char) (a m : GoString) (h : c ∉ a) :
    (a ++ c :: m).takeWhile (· != c) = a ∧ (a ++ c :: m).dropWhile (· != c) = c :: m := by
  induction a with
  | nil => simp
  | cons d a ih =>
    have hd : d ≠ c := fun e => h (by simp [e])
    have ha : c ∉ a := fun e => h (List.mem_cons_of_mem _ e)
    obtain ⟨h1, h2⟩ := ih ha
    simp [List.takeWhile_cons, List.dropWhile_cons, hd, h1, h2]

theorem ParseCIDR_append (a m : GoString) (h : '/' ∉ a) :
    ParseCIDR (a ++ '/' :: m) = parseCIDRParts a m := by
  obtain ⟨h1, h2⟩ := takeWhile_ne_append '/' a m h
  unfold ParseCIDR parseCIDRParts
  have hc : (a ++ '/' :: m).contains '/' = true := by simp
  simp only [hc, not_true_eq_false, if_false, h1, h2, List.drop_one, List.tail_cons]

theorem ParseCIDR_split (s : GoString) :
    ParseCIDR s = none ∨ ∃ a m, '/' ∉ a ∧ s = a ++ '/' :: m := by
  by_cases hc : s.contains '/' = true
  · right
    refine ⟨s.takeWhile (· != '/'), (s.dropWhile (· != '/')).drop 1, ?_, ?_⟩
    · intro hmem
      have := List.mem_takeWhile_imp hmem
      simp at this
    · have hdw : s.dropWhile (· != '/') ≠ [] := by
        intro hnil
        rw [List.dropWhile_eq_nil_iff] at hnil
        simp only [List.contains_iff_exists_mem_beq, beq_iff_eq] at hc
        obtain ⟨x, hx, hxe⟩ := hc
        have := hnil x hx
        simp only [bne_iff_ne, ne_eq] at this
        exact this hxe.symm
      cases hd : s.dropWhile (· != '/') with
      | nil => exact absurd hd hdw
      | cons d rest =>
        have hhead : d = '/' := by
          have := List.head_dropWhile_not (· != '/') s (by rw [hd]; simp)
          simp only [hd, List.head_cons, bne_iff_ne, ne_eq, Bool.not_eq_true, bne_eq_false_iff_eq] at this
          exact this
        subst hhead
        have := List.takeWhile_append_dropWhile (· != '/') s
        rw [hd] at this
        simp only [List.drop_one, List.tail_cons]
        exact this.symm
  · left
    unfold ParseCIDR
    rw [if_pos hc]

theorem IP_Mask_v4in16 (b mask : List Nat) (hb : b.length = 4) (hm : mask.length = 4) :
    IP.Mask (v4InV6Prefix ++ b) mask = List.zipWith (· &&& ·) b mask := by
  unfold IP.Mask IPv4len IPv6len
  have h1 : ¬ (mask.length = 16 ∧ (v4InV6Prefix ++ b).length = 4 ∧ allFF (mask.take 12) = true) := by
    omega
  rw [if_neg h1]
  have h2 : mask.length = 4 ∧ (v4InV6Prefix ++ b).length = 16
      ∧ (v4InV6Prefix ++ b).take 12 = v4InV6Prefix := by
    refine ⟨hm, by simp [v4InV6Prefix, hb], ?_⟩
    simp [v4InV6Prefix]
  simp only [h2, and_self, if_true]
  have h3 : (List.drop 12 (v4InV6Prefix ++ b)) = b := by simp [v4InV6Prefix]
  rw [h3, if_neg (by omega)]

/-- Every network that `ParseCIDR` returns is of the form `IsCIDR` describes. -/
theorem parseCIDRParts_isCIDR (a m : GoString) (ip : IP) (n : IPNet)
    (h : parseCIDRParts a m = some (ip, n)) : IsCIDR n := by
  unfold parseCIDRParts at h
  cases hp : ParseAddr a with
  | none => simp [hp] at h
  | some addr =>
    simp only [hp] at h
    split at h
    · cases h
    · split at h
      · cases h
      · rename_i hz hcond
        simp only [not_or, not_not, Nat.not_lt] at hcond
        obtain ⟨_, _, hle⟩ := hcond
        simp only [Option.some.injEq, Prod.mk.injEq] at h
        obtain ⟨_, hn⟩ := h
        rcases ParseAddr_spec a addr hp with ⟨_, b, rfl, hb4, hbb, _⟩ | ⟨_, b, zone, rfl, hb16, hbb⟩
        · simp only [Addr.BitLen, Addr.As16] at hn hle
          refine ⟨32, (dtoi m).1, b, Or.inl rfl, by omega, by omega, hbb, ?_⟩
          rw [← hn]
          have hml : (CIDRMask ((dtoi m).1 : Int) ((32 : Nat) : Int)).length = 4 := by
            rw [CIDRMask_eq 32 _ (Or.inl rfl) (by omega), cidrMaskBytes_length]
          rw [IP_Mask_v4in16 b _ hb4 hml, IP_Mask_same_length b _ (by omega)]
        · simp only [Addr.BitLen, Addr.As16] at hn hle
          refine ⟨128, (dtoi m).1, b, Or.inr rfl, by omega, by omega, hbb, ?_⟩
          rw [← hn]

theorem ParseCIDR_isCIDR (s : GoString) (ip : IP) (n : IPNet) (h : ParseCIDR s = some (ip, n)) :
    IsCIDR n := by
  rcases ParseCIDR_split s with hnone | ⟨a, m, ha, rfl⟩
  · rw [hnone] at h
    cases h
  · rw [ParseCIDR_append a m ha] at h
    exact parseCIDRParts_isCIDR a m ip n h

/-! ## The range index -/

theorem NewTrie_spec (P : List IPNet) (hP : ∀ n ∈ P, IsCIDR n ∧ ¬ IsMappedBlock n) :
    ∃ l, NewTrie P = some l
      ∧ ∀ a, IsBytes a → (l.Contains a = true ↔ ∃ n ∈ P, n.Contains a = true) := by
  obtain ⟨v, h1, h2⟩ := build_spec P hP
  exact ⟨⟨v⟩, by simp [NewTrie, h1], h2⟩

theorem Reload_spec (r : Looker) (P : List IPNet) (hP : ∀ n ∈ P, IsCIDR n ∧ ¬ IsMappedBlock n) :
    ∃ l, r.Reload P = some l
      ∧ ∀ a, IsBytes a → (l.Contains a = true ↔ ∃ n ∈ P, n.Contains a = true) := by
  obtain ⟨v, h1, h2⟩ := build_spec P hP
  exact ⟨⟨v⟩, by simp [Looker.Reload, h1], h2⟩

/-- Building an index and asking it.  For every list `P` of networks as `ParseCIDR` returns
them, none of them an IPv4-mapped IPv6 network of prefix length above 96, every network `C`
of `P` and every address `a` inside `C`: `NewTrie(P)` returns an index, and `Contains(a)` is
true on it. -/
theorem NewTrie_contains_inside (P : List IPNet) (C : IPNet) (a : IP)
    (hP : ∀ n ∈ P, IsCIDR n ∧ ¬ IsMappedBlock n) (hC : C ∈ P) (ha : IsBytes a)
    (hin : C.Contains a = true) :
    ∃ l, NewTrie P = some l ∧ l.Contains a = true := by
  obtain ⟨l, h1, h2⟩ := NewTrie_spec P hP
  exact ⟨l, h1, (h2 a ha).2 ⟨C, hC, hin⟩⟩

theorem net10_isCIDR : IsCIDR net10 ∧ ¬ IsMappedBlock net10 :=
  ⟨⟨32, 24, [10, 0, 0, 0], Or.inl rfl, by decide, rfl, by decide, by decide⟩, by decide⟩

/-- An instance of `NewTrie_contains_inside`: the index built from `10.0.0.0/24` contains
`10.0.0.255`. -/
theorem NewTrie_contains_inside_witness :
    (∀ n ∈ [net10], IsCIDR n ∧ ¬ IsMappedBlock n) ∧ net10 ∈ [net10] ∧ IsBytes [10, 0, 0, 255]
      ∧ net10.Contains [10, 0, 0, 255] = true
      ∧ ∃ l, NewTrie [net10] = some l ∧ l.Contains [10, 0, 0, 255] = true :=
  have hP : ∀ n ∈ [net10], IsCIDR n ∧ ¬ IsMappedBlock n := by
    intro n hn
    rw [List.mem_singleton.1 hn]
    exact net10_isCIDR
  ⟨hP, List.mem_singleton.2 rfl, by decide, by decide,
    NewTrie_contains_inside [net10] net10 [10, 0, 0, 255] hP (List.mem_singleton.2 rfl)
      (by decide) (by decide)⟩

theorem contains_of_no_entry (k : Nat) (network : Network) (y : NetworkNumber) :
    (prefixTrie.node k network none .null .null).contains y = false := by
  unfold prefixTrie.contains
  simp only [Option.isSome_none, Bool.false_eq_true, if_false, prefixTrie.contains]
  split
  · rfl
  · split
    · rfl
    · split
      · split <;> rfl
      · rfl

theorem empty_index_contains (b : IP) :
    ∃ l, NewTrie [] = some l ∧ l.Contains b = false := by
  refine ⟨⟨NewPCTrieRanger⟩, rfl, ?_⟩
  unfold Looker.Contains versionedRanger.Contains prefixTrie.Contains NewPCTrieRanger newPrefixTree
  simp only [contains_of_no_entry]
  split
  · split <;> rfl
  · split
    · split <;> rfl
    · rfl

/-- Reloading an index and asking it.  For every state of the index and every list `P` of
networks as
`ParseCIDR` returns them, none of them an IPv4-mapped IPv6 network of prefix length above
96: `Reload(P)` returns, and after it `Contains(a)` is true exactly when `a` is inside some
network of `P`, whatever the index held before. -/
theorem Reload_contains_iff (r : Looker) (P : List IPNet) (a : IP)
    (hP : ∀ n ∈ P, IsCIDR n ∧ ¬ IsMappedBlock n) (ha : IsBytes a) :
    ∃ l, r.Reload P = some l ∧ (l.Contains a = true ↔ ∃ n ∈ P, n.Contains a = true) := by
  obtain ⟨l, h1, h2⟩ := Reload_spec r P hP
  exact ⟨l, h1, h2 a ha⟩

theorem net192_isCIDR : IsCIDR net192 ∧ ¬ IsMappedBlock net192 :=
  ⟨⟨32, 16, [192, 168, 0, 0], Or.inl rfl, by decide, rfl, by decide, by decide⟩, by decide⟩

/-- An instance of `Reload_contains_iff`: an index that held `10.0.0.0/24` and is reloaded with
`192.168.0.0/16` contains an address exactly when it is inside `192.168.0.0/16`; here for
the address `10.0.0.1`, which was contained before. -/
theorem Reload_contains_iff_witness :
    (∀ n ∈ [net192], IsCIDR n ∧ ¬ IsMappedBlock n) ∧ IsBytes [10, 0, 0, 1]
      ∧ (NewTrie [net10]).map (fun l => l.Contains [10, 0, 0, 1]) = some true
      ∧ ∀ r, NewTrie [net10] = some r →
        ∃ l, r.Reload [net192] = some l
          ∧ (l.Contains [10, 0, 0, 1] = true ↔ ∃ n ∈ [net192], n.Contains [10, 0, 0, 1] = true) :=
  have hP : ∀ n ∈ [net192], IsCIDR n ∧ ¬ IsMappedBlock n := by
    intro n hn
    rw [List.mem_singleton.1 hn]
    exact net192_isCIDR
  ⟨hP, by decide, by decide, fun r _ => Reload_contains_iff r [net192] [10, 0, 0, 1] hP (by decide)⟩

/-! ## A bare address in the source -/

theorem getD_take_lt (l : List Nat) (n i : Nat) (h : i < n) : (l.take n).getD i 0 = l.getD i 0 := by
  rw [List.getD_eq_getElem?_getD, List.getD_eq_getElem?_getD, List.getElem?_take_of_lt h]

theorem isMapped_iff_take (x : List Nat) (hl : x.length = 16) :
    IsMapped x ↔ x.take 12 = v4InV6Prefix := by
  constructor
  · rintro ⟨_, hz, h10, h11⟩
    apply List.ext_getElem
    · simp [v4InV6Prefix, hl]
    · intro i h1 h2
      have hi : i < 12 := by simpa [hl] using h1
      have e1 : (x.take 12)[i] = (x.take 12).getD i 0 := (List.getD_eq_getElem _ 0 h1).symm
      have e2 : v4InV6Prefix[i] = v4InV6Prefix.getD i 0 := (List.getD_eq_getElem _ 0 h2).symm
      rw [e1, e2, getD_take_lt x 12 i hi]
      have c : i < 10 ∨ i = 10 ∨ i = 11 := by omega
      rcases c with c | c | c
      · rw [hz i c]
        interval_cases i <;> rfl
      · subst c
        rw [h10]
        rfl
      · subst c
        rw [h11]
        rfl
  · intro h
    have hg : ∀ i < 12, x.getD i 0 = v4InV6Prefix.getD i 0 := by
      intro i hi
      rw [← getD_take_lt x 12 i hi, h]
    refine ⟨hl, ?_, ?_, ?_⟩
    · intro i hi
      rw [hg i (by omega)]
      interval_cases i <;> rfl
    · rw [hg 10 (by omega)]
      rfl
    · rw [hg 11 (by omega)]
      rfl

theorem queryBytes_of_mapped (x : List Nat) (h : IsMapped x) : queryBytes x = x.drop 12 := by
  unfold queryBytes
  rw [To4_isSome_of_mapped x h]
  rfl

theorem queryBytes_of_not_four (x : List Nat) (h4 : x.length ≠ 4) (hm : ¬ IsMapped x) :
    queryBytes x = x := by
  unfold queryBytes IP.To4 IPv4len IPv6len
  rw [if_neg h4]
  split
  · rename_i hc
    exfalso
    apply hm
    exact ⟨hc.1, (isZeros_take_iff x 10 (by omega)).1 hc.2.1, hc.2.2⟩
  · rfl

theorem queryBytes_of_four (x : List Nat) (h4 : x.length = 4) : queryBytes x = x := by
  unfold queryBytes
  rw [To4_of_length_four x h4]
  rfl

theorem not_mapped_of_length (x : List Nat) (h : x.length ≠ 16) : ¬ IsMapped x :=
  fun hm => h hm.1

/-- For an IPv6 address `b` that is not IPv4-mapped, a query compares equal to `b` bytewise
exactly when `IP.Equal` holds. -/
theorem queryBytes_eq_iff_Equal16 (b x : List Nat) (hb : b.length = 16) (hbm : ¬ IsMapped b) :
    queryBytes x = b ↔ IP.Equal x b = true := by
  unfold IP.Equal IPv4len IPv6len
  by_cases h16 : x.length = 16
  · rw [if_pos (by omega)]
    simp only [beq_iff_eq]
    by_cases hxm : IsMapped x
    · rw [queryBytes_of_mapped x hxm]
      constructor
      · intro h
        have := congrArg List.length h
        simp only [List.length_drop] at this
        omega
      · intro h
        subst h
        exact absurd hxm hbm
    · rw [queryBytes_of_not_four x (by omega) hxm]
  · rw [if_neg (by omega)]
    by_cases h4 : x.length = 4
    · rw [if_pos ⟨h4, hb⟩, queryBytes_of_four x h4]
      have hne : (b.take 12 == v4InV6Prefix) = false := by
        rw [beq_eq_false_iff_ne]
        exact fun h => hbm ((isMapped_iff_take b hb).2 h)
      rw [hne]
      simp only [Bool.false_and, Bool.false_eq_true, iff_false]
      intro h
      have := congrArg List.length h
      omega
    · rw [if_neg (by omega), if_neg (by omega),
        queryBytes_of_not_four x h4 (not_mapped_of_length x h16)]
      simp only [Bool.false_eq_true, iff_false]
      intro h
      have := congrArg List.length h
      omega

/-- For an IPv4 address `b`, a query compares equal to `b` bytewise exactly when `IP.Equal`
holds with the 16-byte form of `b`. -/
theorem queryBytes_eq_iff_Equal4 (b x : List Nat) (hb : b.length = 4) :
    queryBytes x = b ↔ IP.Equal x (v4InV6Prefix ++ b) = true := by
  have hl : (v4InV6Prefix ++ b).length = 16 := by simp [v4InV6Prefix, hb]
  have htake : (v4InV6Prefix ++ b).take 12 = v4InV6Prefix := by simp [v4InV6Prefix]
  have hdrop : (v4InV6Prefix ++ b).drop 12 = b := by simp [v4InV6Prefix]
  unfold IP.Equal IPv4len IPv6len
  by_cases h16 : x.length = 16
  · rw [if_pos (by omega)]
    simp only [beq_iff_eq]
    by_cases hxm : IsMapped x
    · rw [queryBytes_of_mapped x hxm]
      constructor
      · intro h
        have := List.take_append_drop 12 x
        rw [h, (isMapped_iff_take x h16).1 hxm] at this
        exact this.symm
      · intro h
        rw [h, hdrop]
    · rw [queryBytes_of_not_four x (by omega) hxm]
      constructor
      · intro h
        have := congrArg List.length h
        omega
      · intro h
        exfalso
        apply hxm
        rw [h]
        exact (isMapped_iff_take _ hl).2 htake
  · rw [if_neg (by omega)]
    by_cases h4 : x.length = 4
    · rw [if_pos ⟨h4, hl⟩, queryBytes_of_four x h4, htake, hdrop]
      simp
    · rw [if_neg (by omega), if_neg (by omega),
        queryBytes_of_not_four x h4 (not_mapped_of_length x h16)]
      simp only [Bool.false_eq_true, iff_false]
      intro h
      have := congrArg List.length h
      omega

theorem canon_full (W : Nat) (b : List Nat) (hl : b.length * 8 = W)
    (hb : IsBytes b) (hm : W = 128 → ¬ IsMapped b) : Canon W W b where
  len := hl
  bytes := hb
  le := Nat.le_refl _
  zero := fun i hi => bbit_of_length_le b i (by omega)
  v6 := hm

theorem IPNet_Contains_full (W : Nat) (hW : W = 32 ∨ W = 128) (b : List Nat)
    (hc : Canon W W b) (x : List Nat) (hx : IsBytes x) :
    IPNet.Contains ⟨b, CIDRMask (W : Int) (W : Int)⟩ x = true ↔ queryBytes x = b := by
  rw [IPNet_Contains_canon W W hW b hc]
  constructor
  · rintro ⟨h1, h2⟩
    apply bytes_ext _ _ (by have := hc.len; omega) (isBytes_queryBytes x hx) hc.bytes
    intro i hi
    exact h2 i (by omega)
  · intro h
    rw [h]
    exact ⟨hc.len, fun _ _ => rfl⟩

theorem ParseAddr_no_colon (a : GoString) (addr : Addr) (h : ParseAddr a = some addr)
    (hc : ':' ∉ a) : ∃ b, addr = .v4 b ∧ b.length = 4 ∧ IsBytes b := by
  rcases ParseAddr_spec a addr h with ⟨_, b, h1, h2, h3, _⟩ | ⟨h1, _⟩
  · exact ⟨b, h1, h2, h3⟩
  · exact absurd h1 hc

/-- The network and address of a bare source entry: either an IPv4 address `b` with the
network `b/32`, or an IPv6 address `b` with the network `b/128`. -/
theorem bare_entry_forms (a : GoString) (net : IPNet) (hbare : '/' ∉ a)
    (hload : entryNet a = some net) :
    (∃ b, b.length = 4 ∧ IsBytes b ∧ ParseIP a = some (v4InV6Prefix ++ b)
        ∧ net = ⟨b, CIDRMask ((32 : Nat) : Int) ((32 : Nat) : Int)⟩)
      ∨ (∃ b, b.length = 16 ∧ IsBytes b ∧ ParseIP a = some b
        ∧ net = ⟨b, CIDRMask ((128 : Nat) : Int) ((128 : Nat) : Int)⟩) := by
  unfold entryNet at hload
  rw [parseLineToCIDR_cases, if_neg hbare] at hload
  have d128 : dtoi "128".toList = (128, 3, true) := by decide
  have d32 : dtoi "32".toList = (32, 2, true) := by decide
  by_cases hcolon : ':' ∈ a
  · rw [if_pos hcolon] at hload
    have e : a ++ "/128".toList = a ++ '/' :: "128".toList := rfl
    rw [e, ParseCIDR_append a _ hbare] at hload
    unfold parseCIDRParts at hload
    cases hp : ParseAddr a with
    | none => simp [hp] at hload
    | some addr =>
      simp only [hp, d128] at hload
      rcases ParseAddr_spec a addr hp with ⟨_, b, rfl, hb4, hbb, _⟩ | ⟨_, b, zone, rfl, hb16, hbb⟩
      · simp [Addr.Zone, Addr.BitLen] at hload
      · right
        by_cases hz : zone = []
        · subst hz
          simp only [Addr.Zone, ne_eq, not_true_eq_false, if_false, Addr.BitLen, Addr.As16,
            gt_iff_lt, lt_self_iff_false, or_false] at hload
          have hlen : "128".toList.length = 3 := rfl
          simp only [hlen, Bool.not_eq_true, Bool.true_eq_false, ne_eq, not_true_eq_false,
            or_self, if_false, Option.map_some', Option.some.injEq] at hload
          refine ⟨b, hb16, hbb, ?_, ?_⟩
          · unfold ParseIP
            rw [hp]
            simp [Addr.Zone, Addr.As16]
          · rw [← hload]
            have hm : IP.Mask b (CIDRMask ((128 : Nat) : Int) ((128 : Nat) : Int)) = b := by
              rw [CIDRMask_eq 128 128 (Or.inr rfl) (Nat.le_refl _), IP_Mask_same_length]
              · apply bytes_ext _ _ (by simp [cidrMaskBytes_length, hb16])
                  (isBytes_zipWith_and _ _ hbb) hbb
                intro i hi
                rw [bbit_zipWith_and, bbit_cidrMaskBytes]
                simp only [List.length_zipWith, cidrMaskBytes_length] at hi
                have : i < 128 ∧ i < 8 * (128 / 8) := by omega
                simp [this]
              · rw [cidrMaskBytes_length]
                omega
            simp only [Nat.cast_ofNat] at hm ⊢
            rw [hm]
        · simp [Addr.Zone, hz] at hload
  · rw [if_neg hcolon] at hload
    by_cases hdot : '.' ∈ a
    · rw [if_pos hdot] at hload
      have e : a ++ "/32".toList = a ++ '/' :: "32".toList := rfl
      rw [e, ParseCIDR_append a _ hbare] at hload
      unfold parseCIDRParts at hload
      cases hp : ParseAddr a with
      | none => simp [hp] at hload
      | some addr =>
        simp only [hp, d32] at hload
        obtain ⟨b, rfl, hb4, hbb⟩ := ParseAddr_no_colon a addr hp hcolon
        left
        have hlen : "32".toList.length = 2 := rfl
        simp only [Addr.Zone, ne_eq, not_true_eq_false, if_false, Addr.BitLen, Addr.As16, hlen,
          Bool.not_eq_true, Bool.true_eq_false, gt_iff_lt, lt_self_iff_false, or_self,
          Option.map_some', Option.some.injEq] at hload
        refine ⟨b, hb4, hbb, ?_, ?_⟩
        · unfold ParseIP
          rw [hp]
          simp [Addr.Zone, Addr.As16]
        · rw [← hload]
          have hml : (CIDRMask ((32 : Nat) : Int) ((32 : Nat) : Int)).length = 4 := by
            rw [CIDRMask_eq 32 32 (Or.inl rfl) (Nat.le_refl _), cidrMaskBytes_length]
          have hm : IP.Mask (v4InV6Prefix ++ b) (CIDRMask ((32 : Nat) : Int) ((32 : Nat) : Int))
              = b := by
            rw [IP_Mask_v4in16 b _ hb4 hml, CIDRMask_eq 32 32 (Or.inl rfl) (Nat.le_refl _)]
            apply bytes_ext _ _ (by simp [cidrMaskBytes_length, hb4])
              (isBytes_zipWith_and _ _ hbb) hbb
            intro i hi
            rw [bbit_zipWith_and, bbit_cidrMaskBytes]
            simp only [List.length_zipWith, cidrMaskBytes_length] at hi
            have : i < 32 ∧ i < 8 * (32 / 8) := by omega
            simp [this]
          simp only [Nat.cast_ofNat] at hm ⊢
          rw [hm]
    · rw [if_neg hdot] at hload
      rcases ParseCIDR_split a with hnone | ⟨a', m, _, rfl⟩
      · simp [hnone] at hload
      · exact absurd (by simp) hbare

theorem populateLooker_single (a : GoString) (net : IPNet) (hload : entryNet a = some net) :
    populateLooker (readerOfRecords [(a, [])])
      = ((Looker.mk NewPCTrieRanger).Reload [net]).map Except.ok := by
  have hget : getIPNets (readerOfRecords [(a, [])]) = .ok [net] := by
    unfold getIPNets
    rw [getIPNetsLoop_ok]
    exact ⟨[net], by simp [hload], by simp⟩
  unfold populateLooker
  rw [hget]
  rfl

/-- A bare address in the source, loaded alone.  For every bare source entry `a` (a text without `/`) that loads,
other than an IPv4-mapped address written in IPv6 notation (`::ffff:a.b.c.d`, which loads as
an IPv4-mapped network of prefix length 128): loading `a` alone gives an index, `a` is a
textual IP address, and on that index `Contains(x)` is true exactly when `x` is the same
address as `a`; so no other address, the neighbours of `a` included, is contained. -/
theorem bare_address_exact (a : GoString) (net : IPNet) (x : IP) (hbare : '/' ∉ a)
    (hload : entryNet a = some net) (hnm : ¬ IsMappedBlock net) (hx : IsBytes x) :
    ∃ l ipa, populateLooker (readerOfRecords [(a, [])]) = some (.ok l)
      ∧ ParseIP a = some ipa
      ∧ (l.Contains x = true ↔ IP.Equal x ipa = true) := by
  have hcidr : IsCIDR net := by
    unfold entryNet at hload
    cases hp : ParseCIDR (parseLineToCIDR a) with
    | none => simp [hp] at hload
    | some pr =>
      obtain ⟨ip0, n0⟩ := pr
      simp only [hp, Option.map_some', Option.some.injEq] at hload
      subst hload
      exact ParseCIDR_isCIDR _ ip0 n0 hp
  obtain ⟨l, hl, hspec⟩ := Reload_spec (Looker.mk NewPCTrieRanger) [net] (by
    intro n hn
    rw [List.mem_singleton.1 hn]
    exact ⟨hcidr, hnm⟩)
  have hiff : l.Contains x = true ↔ net.Contains x = true := by
    rw [hspec x hx]
    simp
  rcases bare_entry_forms a net hbare hload with ⟨b, hb4, hbb, hip, rfl⟩ | ⟨b, hb16, hbb, hip, rfl⟩
  · refine ⟨l, _, ?_, hip, ?_⟩
    · rw [populateLooker_single a _ hload, hl]
      rfl
    · have hc : Canon 32 32 b := canon_full 32 b (by omega) hbb (by omega)
      rw [hiff, IPNet_Contains_full 32 (Or.inl rfl) b hc x hx, queryBytes_eq_iff_Equal4 b x hb4]
  · have hnotm : ¬ IsMapped b := by
      intro hm
      apply hnm
      refine ⟨hm, ?_⟩
      show (96 : Int) < (IPMask.Size (CIDRMask ((128 : Nat) : Int) ((128 : Nat) : Int))).1
      rw [CIDRMask_size 128 128 (Or.inr rfl) (Nat.le_refl _)]
      decide
    refine ⟨l, _, ?_, hip, ?_⟩
    · rw [populateLooker_single a _ hload, hl]
      rfl
    · have hc : Canon 128 128 b := canon_full 128 b (by omega) hbb (fun _ => hnotm)
      rw [hiff, IPNet_Contains_full 128 (Or.inr rfl) b hc x hx,
        queryBytes_eq_iff_Equal16 b x hb16 hnotm]

set_option maxRecDepth 100000 in
/-- An instance of `bare_address_exact`: with the bare entry `192.168.1.5` loaded alone, the index
contains the neighbour `192.168.1.6` exactly when that is the same address as
`192.168.1.5`. -/
theorem bare_address_exact_witness :
    '/' ∉ "192.168.1.5".toList
      ∧ entryNet "192.168.1.5".toList = some ⟨[192, 168, 1, 5], [255, 255, 255, 255]⟩
      ∧ ¬ IsMappedBlock ⟨[192, 168, 1, 5], [255, 255, 255, 255]⟩
      ∧ IsBytes [192, 168, 1, 6]
      ∧ ∃ l ipa, populateLooker (readerOfRecords [("192.168.1.5".toList, [])]) = some (.ok l)
        ∧ ParseIP "192.168.1.5".toList = some ipa
        ∧ (l.Contains [192, 168, 1, 6] = true ↔ IP.Equal [192, 168, 1, 6] ipa = true) :=
  ⟨by decide, by decide, by decide, by decide,
    bare_address_exact "192.168.1.5".toList ⟨[192, 168, 1, 5], [255, 255, 255, 255]⟩
      [192, 168, 1, 6] (by decide) (by decide) (by decide) (by decide)⟩

/-! ## The bytes of an address text -/

theorem parseIPv4FieldsLoop_chars (s : GoString) (val digLen : Nat) (fields : List Nat)
    (first prevDot : Bool) (f : List Nat)
    (h : parseIPv4FieldsLoop s val digLen fields first prevDot = some f) :
    ∀ c ∈ s, c ≠ '/' ∧ c ≠ ':' := by
  induction s generalizing val digLen fields first prevDot with
  | nil =>
    intro c hc
    simp at hc
  | cons d s ih =>
    unfold parseIPv4FieldsLoop at h
    split at h
    · rename_i hdigit
      split at h
      · cases h
      · simp only at h
        split at h
        · cases h
        · intro c hc
          rcases List.mem_cons.1 hc with hc | hc
          · subst hc
            constructor
            · intro e
              subst e
              simp at hdigit
            · intro e
              subst e
              simp at hdigit
          · exact ih _ _ _ _ _ h c hc
    · split at h
      · rename_i hdot
        split at h
        · cases h
        · split at h
          · cases h
          · intro c hc
            rcases List.mem_cons.1 hc with hc | hc
            · subst hc
              subst hdot
              exact ⟨by decide, by decide⟩
            · exact ih _ _ _ _ _ h c hc
      · cases h

theorem hexGroup_chars (s : GoString) (off acc off' acc' : Nat) (rest : GoString)
    (h : hexGroup s off acc = some (off', acc', rest)) :
    ∃ d, s = d ++ rest ∧ ∀ c ∈ d, c ≠ '/' := by
  induction s generalizing off acc with
  | nil =>
    simp only [hexGroup, Option.some.injEq, Prod.mk.injEq] at h
    exact ⟨[], by simp [h.2.2], by simp⟩
  | cons c s ih =>
    unfold hexGroup at h
    split at h
    · simp only [Option.some.injEq, Prod.mk.injEq] at h
      exact ⟨[], by simp [h.2.2], by simp⟩
    · rename_i dval hd
      simp only at h
      split at h
      · cases h
      · split at h
        · cases h
        · obtain ⟨d, h1, h2⟩ := ih _ _ h
          refine ⟨c :: d, by simp [h1], ?_⟩
          intro x hx
          rcases List.mem_cons.1 hx with hx | hx
          · subst hx
            intro e
            subst e
            simp [hexDigit] at hd
          · exact h2 x hx

theorem parseIPv6Loop_chars (fuel : Nat) (s : GoString) (ip : List Nat) (ell : Option Nat)
    (rest : GoString) (ip' : List Nat) (ell' : Option Nat)
    (h : parseIPv6Loop fuel s ip ell = some (rest, ip', ell')) :
    ∃ d, s = d ++ rest ∧ ∀ c ∈ d, c ≠ '/' := by
  induction fuel generalizing s ip ell with
  | zero =>
    simp only [parseIPv6Loop, Option.some.injEq, Prod.mk.injEq] at h
    exact ⟨[], by simp [h.1], by simp⟩
  | succ fuel ih =>
    unfold parseIPv6Loop at h
    by_cases hlen : ip.length ≥ 16
    · rw [if_pos hlen] at h
      simp only [Option.some.injEq, Prod.mk.injEq] at h
      exact ⟨[], by simp [h.1], by simp⟩
    · rw [if_neg hlen] at h
      cases hg : hexGroup s 0 0 with
      | none => simp [hg] at h
      | some t =>
        obtain ⟨off, acc, rest0⟩ := t
        obtain ⟨d0, hs0, hd0⟩ := hexGroup_chars s 0 0 off acc rest0 hg
        simp only [hg] at h
        by_cases hoff : off = 0
        · simp [hoff] at h
        · rw [if_neg hoff] at h
          by_cases hdot : rest0.head? = some '.'
          · rw [if_pos hdot] at h
            split at h
            · cases h
            · split at h
              · cases h
              · cases hfields : parseIPv4Fields s with
                | none => simp [hfields] at h
                | some fields =>
                  simp only [hfields, Option.some.injEq, Prod.mk.injEq] at h
                  refine ⟨s, by simp [← h.1], ?_⟩
                  intro c hc
                  exact (parseIPv4FieldsLoop_chars s 0 0 [] true false fields hfields c hc).1
          · rw [if_neg hdot] at h
            cases rest0 with
            | nil =>
              simp only [Option.some.injEq, Prod.mk.injEq] at h
              exact ⟨d0, by rw [← h.1]; exact hs0, hd0⟩
            | cons c rest1 =>
              simp only at h
              by_cases hc : c = ':'
              · subst hc
                simp only [ne_eq, not_true_eq_false, if_false] at h
                cases rest1 with
                | nil => simp at h
                | cons d rest2 =>
                  simp only at h
                  by_cases hd : d = ':'
                  · subst hd
                    simp only [if_true] at h
                    split at h
                    · cases h
                    · split at h
                      · rename_i hemp
                        simp only [Option.some.injEq, Prod.mk.injEq] at h
                        have hr2 : rest2 = [] := by simpa using hemp
                        refine ⟨d0 ++ [':', ':'], by rw [← h.1, hs0, hr2]; simp, ?_⟩
                        intro x hx
                        rcases List.mem_append.1 hx with hx | hx
                        · exact hd0 x hx
                        · simp only [List.mem_cons, List.mem_singleton, List.not_mem_nil,
                            or_false, or_self] at hx
                          subst hx
                          decide
                      · obtain ⟨d1, h1, h2⟩ := ih _ _ _ h
                        refine ⟨d0 ++ [':', ':'] ++ d1, by rw [hs0, h1]; simp, ?_⟩
                        intro x hx
                        rcases List.mem_append.1 hx with hx | hx
                        · rcases List.mem_append.1 hx with hx | hx
                          · exact hd0 x hx
                          · simp only [List.mem_cons, List.mem_singleton, List.not_mem_nil,
                              or_false, or_self] at hx
                            subst hx
                            decide
                        · exact h2 x hx
                  · rw [if_neg hd] at h
                    obtain ⟨d1, h1, h2⟩ := ih _ _ _ h
                    refine ⟨d0 ++ [':'] ++ d1, by rw [hs0, h1]; simp, ?_⟩
                    intro x hx
                    rcases List.mem_append.1 hx with hx | hx
                    · rcases List.mem_append.1 hx with hx | hx
                      · exact hd0 x hx
                      · simp only [List.mem_singleton] at hx
                        subst hx
                        decide
                    · exact h2 x hx
              · simp [hc] at h

theorem parseIPv6_tail_rest (zone : GoString) (r : Option (GoString × List Nat × Option Nat))
    (a : Addr)
    (h : (match r with
      | none => none
      | some (rest, ip, ellipsis) =>
        if ¬ rest.isEmpty then none
        else if ip.length < 16 then
          match ellipsis with
          | none => none
          | some e => some (.v6 (ip.take e ++ List.replicate (16 - ip.length) 0 ++ ip.drop e) zone)
        else if ellipsis.isSome then none
        else some (Addr.v6 ip zone)) = some a) :
    (∃ ip ell, r = some ([], ip, ell)) ∧ a.Zone = zone := by
  cases r with
  | none => cases h
  | some t =>
    obtain ⟨rest, ip, ell⟩ := t
    simp only at h
    split at h
    · cases h
    · rename_i hrest
      have hr : rest = [] := by simpa using hrest
      subst hr
      refine ⟨⟨ip, ell, rfl⟩, ?_⟩
      split at h
      · cases ell with
        | none => cases h
        | some e =>
          simp only [Option.some.injEq] at h
          subst h
          rfl
      · split at h
        · cases h
        · simp only [Option.some.injEq] at h
          subst h
          rfl

theorem hasPrefix_colons (s : GoString) (h : strings.HasPrefix s [':', ':'] = true) :
    s = ':' :: ':' :: s.drop 2 := by
  cases s with
  | nil => simp [strings.HasPrefix] at h
  | cons c s =>
    cases s with
    | nil => simp [strings.HasPrefix] at h
    | cons d s =>
      simp only [strings.HasPrefix, Bool.and_true, Bool.and_eq_true, beq_iff_eq] at h
      obtain ⟨h1, h2⟩ := h
      subst h1 h2
      rfl

/-- An IPv6 address text without zone holds no `/`. -/
theorem parseIPv6_no_slash (s : GoString) (b : List Nat) (h : parseIPv6 s = some (.v6 b [])) :
    '/' ∉ s := by
  unfold parseIPv6 at h
  simp only at h
  by_cases hpc : s.contains '%' = true
  · simp only [hpc, if_true] at h
    split at h
    · cases h
    · rename_i s1 zone hcut
      split at hcut
      · cases hcut
      · rename_i hz
        simp only [Option.some.injEq, Prod.mk.injEq] at hcut
        obtain ⟨_, hzone⟩ := hcut
        have hzne : zone ≠ [] := by
          intro e
          apply hz
          rw [hzone, e]
          rfl
        exfalso
        apply hzne
        by_cases hlead : strings.HasPrefix s1 [':', ':'] = true
        · simp only [hlead, if_true, true_and] at h
          split at h
          · simp only [Option.some.injEq, Addr.v6.injEq] at h
            exact h.2
          · exact (parseIPv6_tail_rest zone _ _ h).2.symm
        · simp only [hlead, Bool.false_eq_true, if_false, false_and] at h
          exact (parseIPv6_tail_rest zone _ _ h).2.symm
  · simp only [hpc, Bool.false_eq_true, if_false] at h
    by_cases hlead : strings.HasPrefix s [':', ':'] = true
    · simp only [hlead, if_true, true_and] at h
      have hs := hasPrefix_colons s hlead
      split at h
      · rename_i hemp
        have : s.drop 2 = [] := by simpa using hemp
        rw [hs, this]
        decide
      · obtain ⟨⟨ip, ell, hloop⟩, _⟩ := parseIPv6_tail_rest [] _ _ h
        obtain ⟨d, hd1, hd2⟩ := parseIPv6Loop_chars 9 _ _ _ _ _ _ hloop
        rw [hs, hd1]
        simp only [List.append_nil, List.mem_cons, not_or]
        exact ⟨by decide, by decide, fun hm => hd2 _ hm rfl⟩
    · simp only [hlead, Bool.false_eq_true, if_false, false_and] at h
      obtain ⟨⟨ip, ell, hloop⟩, _⟩ := parseIPv6_tail_rest [] _ _ h
      obtain ⟨d, hd1, hd2⟩ := parseIPv6Loop_chars 9 _ _ _ _ _ _ hloop
      rw [hd1]
      simp only [List.append_nil]
      exact fun hm => hd2 _ hm rfl

/-- Claim C7.  `parseLineToCIDR` returns its input unchanged when the input contains `/`;
otherwise it returns the input followed by `/128` when the input contains `:`, otherwise
the input followed by `/32` when the input contains `.`, and otherwise the input unchanged.
So every text of an IPv4 address becomes a `/32`, and every text of an IPv6 address
(without zone) becomes a `/128`, the address `::ffff:1.2.3.4` with its embedded dotted quad
included. -/
theorem parseLineToCIDR_normalises (line : GoString) :
    parseLineToCIDR line
        = (if '/' ∈ line then line
          else if ':' ∈ line then line ++ "/128".toList
          else if '.' ∈ line then line ++ "/32".toList
          else line)
      ∧ (∀ b, ParseAddr line = some (.v4 b) → parseLineToCIDR line = line ++ "/32".toList)
      ∧ (∀ b, ParseAddr line = some (.v6 b []) → parseLineToCIDR line = line ++ "/128".toList)
      ∧ parseLineToCIDR "::ffff:1.2.3.4".toList = "::ffff:1.2.3.4/128".toList := by
  refine ⟨parseLineToCIDR_cases line, ?_, ?_, by decide⟩
  · intro b hb
    rcases parseAddrScan_spec line line _ hb with ⟨hdot, b', hb', hf⟩ | ⟨_, h6⟩
    · have hch := parseIPv4FieldsLoop_chars line 0 0 [] true false b' hf
      rw [parseLineToCIDR_cases, if_neg (fun hm => (hch _ hm).1 rfl),
        if_neg (fun hm => (hch _ hm).2 rfl), if_pos hdot]
    · obtain ⟨b6, zone, h1, _⟩ := parseIPv6_spec line _ h6
      cases h1
  · intro b hb
    rcases parseAddrScan_spec line line _ hb with ⟨_, b', hb', _⟩ | ⟨hcolon, h6⟩
    · cases hb'
    · rw [parseLineToCIDR_cases, if_neg (parseIPv6_no_slash line b h6), if_pos hcolon]

/-- Claim C9, an instance: a reload whose source holds the entry `not-an-ip` leaves an
index built from `10.0.0.0/24` as it was. -/
theorem reloadStep_failure_keeps_index_witness :
    (∀ r, (Except.ok (readerOfRecords [("not-an-ip".toList, [])]) : Except GoString Reader) = .ok r →
        ∃ err, getIPNets r = .error err)
      ∧ ∀ looker, NewTrie [net10] = some looker →
        ∃ res, reloadStep "ranges.csv".toList (.ok (readerOfRecords [("not-an-ip".toList, [])])) looker
            = some res
          ∧ res.reloadCalled = false ∧ res.err ≠ none ∧ res.looker = looker
          ∧ ∀ a, res.looker.Contains a = looker.Contains a :=
  have hfail : ∀ r,
      (Except.ok (readerOfRecords [("not-an-ip".toList, [])]) : Except GoString Reader) = .ok r →
        ∃ err, getIPNets r = .error err := by
    intro r hr
    cases hr
    exact ⟨_, rfl⟩
  ⟨hfail, fun looker _ => reloadStep_failure_keeps_index "ranges.csv".toList _ looker hfail⟩

/-! ## No false positives, whatever networks were inserted -/

theorem allOK_child {W : Nat} {S : IPNet → Prop} {p : prefixTrie} (h : AllOK W S p) (bit : Nat) :
    AllOK W S (p.child bit) := by
  cases p with
  | null => exact h
  | node k network e c0 c1 =>
    by_cases hb : bit = 0
    · simp only [prefixTrie.child, hb, if_true]
      exact h.2.1
    · simp only [prefixTrie.child, hb, if_false]
      exact h.2.2

theorem allOK_setChild {W : Nat} {S : IPNet → Prop} {p c : prefixTrie} (h : AllOK W S p)
    (hc : AllOK W S c) (bit : Nat) : AllOK W S (p.setChild bit c) := by
  cases p with
  | null => exact h
  | node k network e c0 c1 =>
    by_cases hb : bit = 0
    · simp only [prefixTrie.setChild, hb, if_true]
      exact ⟨h.1, hc, h.2.2⟩
    · simp only [prefixTrie.setChild, hb, if_false]
      exact ⟨h.1, h.2.1, hc⟩

theorem isQuery_number_ne_nil (W : Nat) (hW : W = 32 ∨ W = 128) (a : List Nat) (h : IsQuery W a) :
    (NewNetworkNumber a).length ≠ 0 := by
  rw [h.2.2]
  have := wordsOf_length W hW (queryBytes a)
  rcases hW with h | h <;> omega

/-- A network without a mask contains no number of a query. -/
theorem dead_not_contains (W : Nat) (hW : W = 32 ∨ W = 128) (network : Network)
    (hd : network.Mask = []) (a : List Nat) (h : IsQuery W a) :
    network.Contains (NewNetworkNumber a) = false := by
  unfold Network.Contains
  rw [hd]
  have := isQuery_number_ne_nil W hW a h
  rw [if_pos]
  simpa using fun h => this h.symm

/-- A canonical network that compares equal to the network made of `m` contains only
numbers of addresses that `m` contains. -/
theorem canon_equal_sound (W k : Nat) (hW : W = 32 ∨ W = 128) (ip : List Nat) (hc : Canon W k ip)
    (m : IPNet) (heq : (mkNet W k ip).Equal (NewNetwork m) = true) (a : List Nat)
    (hq : IsQuery W a) (hcont : (mkNet W k ip).Contains (NewNetworkNumber a) = true) :
    m.Contains a = true := by
  have e1 : networkNumberAndMask ⟨ip, CIDRMask (k : Int) (W : Int)⟩ = networkNumberAndMask m := by
    unfold Network.Equal mkNet NewNetwork at heq
    exact eq_of_beq heq
  rw [← IPNet_Contains_congr _ _ e1 a, IPNet_Contains_canon W k hW ip hc a]
  rw [mkNet_Contains W k hW ip hc, hq.2.2] at hcont
  refine ⟨hq.2.1, ?_⟩
  intro i hi
  rw [← hcont.2 i hi, wbit_wordsOf W hW _ (isBytes_queryBytes a hq.1) i (by have := hc.le; omega)]

/-- The two kinds of networks that `ParseCIDR` returns: canonical networks, and networks of
IPv4-mapped IPv6 addresses, whose prefix length is 96 or more. -/
theorem IsCIDR.forms {n : IPNet} (h : IsCIDR n) :
    (∃ W k ip, (W = 32 ∨ W = 128) ∧ Canon W k ip ∧ n = ⟨ip, CIDRMask (k : Int) (W : Int)⟩)
      ∨ (IsMapped n.IP ∧ IsBytes n.IP ∧ 96 ≤ n.Mask.Size.1 ∧ n.Mask.Size.1 ≤ 128) := by
  by_cases hm : IsMappedBlock n
  · right
    obtain ⟨W, k, ip, hW, hk, hlen, hb, rfl⟩ := h
    have hmask : IP.Mask ip (CIDRMask (k : Int) (W : Int)) = maskIP W k ip := by
      rw [CIDRMask_eq W k hW hk, IP_Mask_same_length]
      · rfl
      · rw [cidrMaskBytes_length]
        omega
    obtain ⟨h1, h2⟩ := hm
    refine ⟨h1, ?_, by omega, ?_⟩
    · show IsBytes (IP.Mask ip (CIDRMask (k : Int) (W : Int)))
      rw [hmask]
      exact isBytes_zipWith_and _ _ hb
    · show (IPMask.Size (CIDRMask (k : Int) (W : Int))).1 ≤ 128
      rw [CIDRMask_size W k hW hk]
      rcases hW with h | h <;> omega
  · rcases h.goodForm hm with hc | rfl
    · exact Or.inl hc
    · right
      exact ⟨mapped96_IP_mapped, by decide, by decide, by decide⟩

/-- Cutting a network to a number of bits that its version does not have gives a network
without a mask. -/
theorem Masked_dead (N : Network) (s : Int)
    (h : s < 0 ∨ s > ((N.Number.length * 32 : Nat) : Int)) : (N.Masked s).Mask = [] := by
  unfold Network.Masked BitsPerUint32
  have e : CIDRMask s ((N.Number.length * 32 : Nat) : Int) = [] := by
    unfold CIDRMask
    by_cases hb : ((N.Number.length * 32 : Nat) : Int) ≠ 8 * IPv4len
        ∧ ((N.Number.length * 32 : Nat) : Int) ≠ 8 * IPv6len
    · rw [if_pos hb]
    · rw [if_neg hb, if_pos h]
  simp only [e]
  rfl

theorem Masked_canon_class (W k : Nat) (hW : W = 32 ∨ W = 128) (ip : List Nat)
    (hc : Canon W k ip) (s : Int) :
    ((mkNet W k ip).Masked s).Mask = []
      ∨ ∃ k' ip', Canon W k' ip' ∧ (mkNet W k ip).Masked s = mkNet W k' ip' := by
  have hN := mkNet_Number_length W k hW ip hc
  by_cases h : s < 0 ∨ s > (W : Int)
  · left
    apply Masked_dead
    rw [hN]
    exact h
  · right
    have h0 : 0 ≤ s := by omega
    have hj : s.toNat ≤ W := by omega
    have hs : s = toInt s.toNat := by
      rw [toInt_small s.toNat (by rcases hW with h | h <;> omega)]
      omega
    refine ⟨s.toNat, maskIP W s.toNat ip, canon_maskIP W s.toNat hW ip hc.len hc.bytes hc.v6 hj, ?_⟩
    rw [hs, Masked_eq W s.toNat hW (mkNet W k ip) hN hc.len hj]
    rw [← hs]
    rfl

theorem IP_Mask_mapped (ip mask : List Nat) (hm : IsMapped ip) (hl : mask.length = 4) :
    IP.Mask ip mask = List.zipWith (· &&& ·) (ip.drop 12) mask := by
  have e : ip = v4InV6Prefix ++ ip.drop 12 := by
    rw [← (isMapped_iff_take ip hm.1).1 hm, List.take_append_drop]
  have hd : (ip.drop 12).length = 4 := by
    rw [List.length_drop, hm.1]
  rw [e, IP_Mask_v4in16 _ _ hd hl, ← e]

theorem Masked_mapped_class (n : IPNet) (hm : IsMapped n.IP) (hb : IsBytes n.IP) (s : Int) :
    ((NewNetwork n).Masked s).Mask = []
      ∨ ∃ k' ip', Canon 32 k' ip' ∧ (NewNetwork n).Masked s = mkNet 32 k' ip' := by
  have h4 : (IP.To4 n.IP).isSome = true := by
    rw [To4_isSome_of_mapped n.IP hm]
    rfl
  have hN : (NewNetwork n).Number.length * 32 = 32 := by
    show (NewNetworkNumber n.IP).length * 32 = 32
    rw [NewNetworkNumber_query4 n.IP h4]
    exact wordsOf_length 32 (Or.inl rfl) _
  by_cases h : s < 0 ∨ s > (32 : Int)
  · left
    apply Masked_dead
    rw [hN]
    exact h
  · right
    obtain ⟨j, rfl⟩ := Int.eq_ofNat_of_zero_le (by omega : 0 ≤ s)
    have hj : j ≤ 32 := by omega
    have hd : (n.IP.drop 12).length * 8 = 32 := by
      rw [List.length_drop, hm.1]
    have hbd : IsBytes (n.IP.drop 12) := fun x hx => hb x (List.mem_of_mem_drop hx)
    refine ⟨j, maskIP 32 j (n.IP.drop 12),
      canon_maskIP 32 j (Or.inl rfl) _ hd hbd (by omega) hj, ?_⟩
    unfold Network.Masked BitsPerUint32 mkNet
    rw [hN, CIDRMask_eq 32 j (Or.inl rfl) hj]
    dsimp only
    have e : (NewNetwork n).IPNet.IP = n.IP := rfl
    rw [e, IP_Mask_mapped n.IP _ hm (by rw [cidrMaskBytes_length])]
    rfl

/-- The width of the trie that holds the network `n`. -/
theorem canon_width (W W' k : Nat) (hW : W = 32 ∨ W = 128) (hW' : W' = 32 ∨ W' = 128)
    (ip : List Nat) (hc : Canon W' k ip) (hd : (IP.To4 ip).isSome = decide (W = 32)) : W' = W := by
  rcases hW' with h | h
  · subst h
    rw [canon_To4 k ip hc] at hd
    simp only [true_eq_decide_iff] at hd
    exact hd.symm
  · subst h
    rw [(canon_To4_none k ip hc).1] at hd
    simp only [false_eq_decide_iff] at hd
    rcases hW with h | h
    · exact absurd h hd
    · exact h.symm

theorem mapped_width (W : Nat) (ip : List Nat) (hm : IsMapped ip)
    (hd : (IP.To4 ip).isSome = decide (W = 32)) : W = 32 := by
  rw [To4_isSome_of_mapped ip hm] at hd
  simpa using hd

/-- Whatever number of bits a network of `ParseCIDR` is cut to, the result is a network
without a mask or a canonical network of the trie that holds it. -/
theorem Masked_class (W : Nat) (hW : W = 32 ∨ W = 128) (n : IPNet) (hn : IsCIDR n)
    (hd : (IP.To4 n.IP).isSome = decide (W = 32)) (s : Int) :
    ((NewNetwork n).Masked s).Mask = []
      ∨ ∃ k' ip', Canon W k' ip' ∧ (NewNetwork n).Masked s = mkNet W k' ip' := by
  rcases hn.forms with ⟨W', k, ip, hW', hc, rfl⟩ | ⟨hm, hb, _, _⟩
  · have e := canon_width W W' k hW hW' ip hc hd
    subst e
    exact Masked_canon_class W' k hW ip hc s
  · have e := mapped_width W n.IP hm hd
    subst e
    exact Masked_mapped_class n hm hb s

theorem newPathprefixTrie_allOK (W : Nat) (hW : W = 32 ∨ W = 128) (S : IPNet → Prop) (n : IPNet)
    (hn : IsCIDR n) (hd : (IP.To4 n.IP).isSome = decide (W = 32)) (x : Nat) :
    AllOK W S (newPathprefixTrie (NewNetwork n) x) := by
  unfold newPathprefixTrie
  refine ⟨⟨Masked_class W hW n hn hd _, ?_⟩, trivial, trivial⟩
  intro e he
  cases he

theorem newEntryTrie_allOK (W : Nat) (hW : W = 32 ∨ W = 128) (S : IPNet → Prop) (n : IPNet)
    (hn : IsCIDR n) (hd : (IP.To4 n.IP).isSome = decide (W = 32)) (hS : S n) :
    AllOK W S (newEntryTrie (NewNetwork n) n) := by
  rcases hn.forms with ⟨W', k, ip, hW', hc, rfl⟩ | ⟨hm, hb, h96, h128⟩
  · have e := canon_width W W' k hW hW' ip hc hd
    subst e
    have e2 : NewNetwork ⟨ip, CIDRMask (k : Int) (W' : Int)⟩ = mkNet W' k ip := rfl
    rw [e2, newEntryTrie_eq W' k hW ip hc]
    refine ⟨⟨Or.inr ⟨k, ip, hc, rfl⟩, ?_⟩, trivial, trivial⟩
    intro e he
    cases he
    refine ⟨hS, ?_⟩
    intro a hq hcont
    refine canon_equal_sound W' k hW ip hc _ ?_ a hq hcont
    rw [e2]
    unfold Network.Equal
    exact beq_self_eq_true _
  · have e := mapped_width W n.IP hm hd
    subst e
    have h4 : (IP.To4 n.IP).isSome = true := by
      rw [To4_isSome_of_mapped n.IP hm]
      rfl
    have hN : (NewNetwork n).Number.length * 32 = 32 := by
      show (NewNetworkNumber n.IP).length * 32 = 32
      rw [NewNetworkNumber_query4 n.IP h4]
      exact wordsOf_length 32 (Or.inl rfl) _
    unfold newEntryTrie
    have e1 : (NewNetwork n).IPNet.Mask = n.Mask := rfl
    simp only [e1]
    have hdead : ((NewNetwork n).Masked (toInt (toUint n.Mask.Size.1))).Mask = [] := by
      apply Masked_dead
      right
      rw [hN, toUint_small _ (by omega) (by omega), toInt_small _ (by omega)]
      omega
    refine ⟨⟨Or.inl hdead, ?_⟩, trivial, trivial⟩
    intro e he
    cases he
    refine ⟨hS, ?_⟩
    intro a hq hcont
    rw [dead_not_contains 32 (Or.inl rfl) _ hdead a hq] at hcont
    cases hcont

/-- An insertion that returns leaves every node as `NodeOK` says. -/
theorem insert_allOK (W : Nat) (hW : W = 32 ∨ W = 128) (S : IPNet → Prop) (n : IPNet)
    (hn : IsCIDR n) (hd : (IP.To4 n.IP).isSome = decide (W = 32)) (hS : S n) :
    ∀ (fuel : Nat) (t t' : prefixTrie), AllOK W S t →
      prefixTrie.insert fuel t (NewNetwork n) n = some t' → AllOK W S t' := by
  intro fuel
  induction fuel with
  | zero =>
    intro t t' _ h
    cases t <;> cases h
  | succ fuel ih =>
    intro t t' hok h
    cases t with
    | null => cases h
    | node k pnet e c0 c1 =>
      rw [insert_succ] at h
      by_cases heq : pnet.Equal (NewNetwork n) = true
      · rw [if_pos heq] at h
        cases h
        refine ⟨⟨hok.1.1, ?_⟩, hok.2.1, hok.2.2⟩
        intro e' he'
        cases he'
        refine ⟨hS, ?_⟩
        intro a hq hcont
        rcases hok.1.1 with hdead | ⟨k', ip', hc, rfl⟩
        · rw [dead_not_contains W hW _ hdead a hq] at hcont
          cases hcont
        · exact canon_equal_sound W k' hW ip' hc n heq a hq hcont
      · rw [if_neg heq] at h
        cases hbit : (prefixTrie.node k pnet e c0 c1).targetBitFromIP (NewNetwork n).Number with
        | indexOutOfRange =>
          rw [hbit] at h
          cases h
        | invalidPosition =>
          rw [hbit] at h
          cases h
          exact hok
        | ok bit =>
          rw [hbit] at h
          dsimp only at h
          have hchild := allOK_child hok bit
          cases hch : (prefixTrie.node k pnet e c0 c1).child bit with
          | null =>
            rw [hch] at h
            cases h
            exact allOK_setChild hok (newEntryTrie_allOK W hW S n hn hd hS) bit
          | node ck cnet ce cc0 cc1 =>
            rw [hch] at h hchild
            dsimp only at h
            have hpath := newPathprefixTrie_allOK W hW S n hn hd
              (usub (prefixTrie.node k pnet e c0 c1).totalNumberOfBits
                (((NewNetwork n).LeastCommonBitPosition cnet).getD 0))
            split at h
            · split at h
              · cases h
              · cases h
                exact allOK_setChild hok hpath bit
              · rename_i pathPrefixBit _
                split at h
                · cases h
                · rename_i t hins
                  cases h
                  exact allOK_setChild hok (ih _ t (allOK_setChild hpath hchild pathPrefixBit) hins) bit
            · split at h
              · cases h
              · rename_i t hins
                cases h
                exact allOK_setChild hok (ih _ t hchild hins) bit

/-- On a trie whose nodes are as `NodeOK` says, `contains` is true only for the number of an
address that some network of `S` contains. -/
theorem contains_allOK (W : Nat) (S : IPNet → Prop) (a : List Nat)
    (hq : IsQuery W a) :
    ∀ t : prefixTrie, AllOK W S t → t.contains (NewNetworkNumber a) = true →
      ∃ e, S e ∧ e.Contains a = true := by
  intro t
  induction t with
  | null =>
    intro _ h
    cases h
  | node k pnet e c0 c1 ih0 ih1 =>
    intro hok h
    unfold prefixTrie.contains at h
    by_cases hc : pnet.Contains (NewNetworkNumber a) = true
    · simp only [hc, not_true_eq_false, if_false] at h
      cases e with
      | some x => exact ⟨x, (hok.1.2 x rfl).1, (hok.1.2 x rfl).2 a hq hc⟩
      | none =>
        simp only [Option.isSome_none, Bool.false_eq_true, if_false] at h
        split at h
        · cases h
        · split at h
          · split at h
            · exact ih0 hok.2.1 h
            · exact ih1 hok.2.2 h
          · cases h
    · simp only [hc, not_false_eq_true, if_true] at h
      cases h

theorem rangerSound_new (S : IPNet → Prop) : RangerSound S NewPCTrieRanger := by
  constructor
  · refine ⟨⟨Or.inr ⟨0, zeroIP 32, canon_zeroIP 32 (Or.inl rfl), ?_⟩, ?_⟩, trivial, trivial⟩
    · rfl
    · intro e he
      cases he
  · refine ⟨⟨Or.inr ⟨0, zeroIP 128, canon_zeroIP 128 (Or.inr rfl), ?_⟩, ?_⟩, trivial, trivial⟩
    · rfl
    · intro e he
      cases he

theorem rangerSound_insert {S : IPNet → Prop} {v v' : versionedRanger} (h : RangerSound S v)
    (n : IPNet) (hn : IsCIDR n) (hS : S n) (hv : v.Insert n = some v') : RangerSound S v' := by
  unfold versionedRanger.Insert at hv
  by_cases h4 : (IP.To4 n.IP).isSome = true
  · rw [if_pos h4] at hv
    cases hi : v.ipV4Ranger.Insert n with
    | none =>
      rw [hi] at hv
      cases hv
    | some t =>
      rw [hi] at hv
      cases hv
      exact ⟨insert_allOK 32 (Or.inl rfl) S n hn (by rw [h4]; rfl) hS _ _ t h.1 hi, h.2⟩
  · rw [if_neg h4] at hv
    split at hv
    · cases hi : v.ipV6Ranger.Insert n with
      | none =>
        rw [hi] at hv
        cases hv
      | some t =>
        rw [hi] at hv
        cases hv
        have h4' : (IP.To4 n.IP).isSome = false := by simpa using h4
        exact ⟨h.1, insert_allOK 128 (Or.inr rfl) S n hn (by rw [h4']; rfl) hS _ _ t h.2 hi⟩
    · cases hv
      exact h

theorem rangerSound_contains {S : IPNet → Prop} {v : versionedRanger} (h : RangerSound S v)
    (a : List Nat) (ha : IsBytes a) (hc : v.Contains a = true) :
    ∃ e, S e ∧ e.Contains a = true := by
  unfold versionedRanger.Contains at hc
  by_cases h4 : (IP.To4 a).isSome = true
  · rw [if_pos h4] at hc
    have hq : IsQuery 32 a :=
      ⟨ha, by rw [(queryBytes_length_four a h4).1], NewNetworkNumber_query4 a h4⟩
    unfold prefixTrie.Contains at hc
    dsimp only at hc
    split at hc
    · cases hc
    · exact contains_allOK 32 S a hq _ h.1 hc
  · rw [if_neg h4] at hc
    have h4' : (IP.To4 a).isSome = false := by simpa using h4
    split at hc
    · rename_i h16
      obtain ⟨e1, e2, e3⟩ := NewNetworkNumber_query16 a h4' h16
      have hq : IsQuery 128 a := ⟨ha, by rw [e2, e3], by rw [e2]; exact e1⟩
      unfold prefixTrie.Contains at hc
      dsimp only at hc
      split at hc
      · cases hc
      · exact contains_allOK 128 S a hq _ h.2 hc
    · cases hc

theorem insertAll_sound (S : IPNet → Prop) (P : List IPNet) (hP : ∀ n ∈ P, IsCIDR n ∧ S n) :
    ∀ v v', RangerSound S v → insertAll v P = some v' → RangerSound S v' := by
  induction P with
  | nil =>
    intro v v' h hv
    cases hv
    exact h
  | cons n rest ih =>
    intro v v' h hv
    unfold insertAll at hv
    cases hi : v.Insert n with
    | none =>
      rw [hi] at hv
      cases hv
    | some v1 =>
      rw [hi] at hv
      exact ih (fun m hm => hP m (List.mem_cons_of_mem _ hm)) v1 v'
        (rangerSound_insert h n (hP n (List.mem_cons_self _ _)).1 (hP n (List.mem_cons_self _ _)).2 hi) hv

/-- Whatever networks of `ParseCIDR` an index is built from: if the construction returns,
the index contains only addresses that one of the networks contains. -/
theorem build_sound (P : List IPNet) (hP : ∀ n ∈ P, IsCIDR n) (v : versionedRanger)
    (hv : insertAll NewPCTrieRanger P = some v) (a : List Nat) (ha : IsBytes a)
    (hc : v.Contains a = true) : ∃ n ∈ P, n.Contains a = true := by
  have h := insertAll_sound (fun m => m ∈ P) P (fun n hn => ⟨hP n hn, hn⟩) _ v
    (rangerSound_new _) hv
  exact rangerSound_contains h a ha hc

/-! ## Addresses outside every network -/

/-- Claim C2.  For every list `P` of networks as `ParseCIDR` returns them and
every address `a` that is inside no network of `P`: on every index that `NewTrie(P)`
returns, `Contains(a)` is false; `NewTrie(P)` does return an index when no network of `P` is
an IPv4-mapped IPv6 network of prefix length above 96; and on the empty index `NewTrie()`,
`Contains` is false for every address. -/
theorem NewTrie_not_contains_outside (P : List IPNet) (a : IP)
    (hP : ∀ n ∈ P, IsCIDR n) (ha : IsBytes a) (hout : ∀ n ∈ P, n.Contains a = false) :
    (∀ l, NewTrie P = some l → l.Contains a = false)
      ∧ ((∀ n ∈ P, ¬ IsMappedBlock n) → ∃ l, NewTrie P = some l)
      ∧ ∀ b : IP, ∃ l, NewTrie [] = some l ∧ l.Contains b = false := by
  refine ⟨?_, ?_, empty_index_contains⟩
  · intro l hl
    unfold NewTrie at hl
    cases hv : insertAll NewPCTrieRanger P with
    | none =>
      rw [hv] at hl
      cases hl
    | some v =>
      rw [hv] at hl
      cases hl
      cases hc : Looker.Contains ⟨v⟩ a with
      | false => rfl
      | true =>
        obtain ⟨n, hn, hcn⟩ := build_sound P hP v hv a ha hc
        rw [hout n hn] at hcn
        cases hcn
  · intro hgood
    obtain ⟨l, h1, _⟩ := NewTrie_spec P (fun n hn => ⟨hP n hn, hgood n hn⟩)
    exact ⟨l, h1⟩

/-- Claim C2, an instance: the index built from `10.0.0.0/24` does not contain
`10.0.1.0`. -/
theorem NewTrie_not_contains_outside_witness :
    (∀ n ∈ [net10], IsCIDR n) ∧ IsBytes [10, 0, 1, 0]
      ∧ (∀ n ∈ [net10], n.Contains [10, 0, 1, 0] = false)
      ∧ (∃ l, NewTrie [net10] = some l)
      ∧ ∀ l, NewTrie [net10] = some l → l.Contains [10, 0, 1, 0] = false :=
  have hP : ∀ n ∈ [net10], IsCIDR n := by
    intro n hn
    rw [List.mem_singleton.1 hn]
    exact net10_isCIDR.1
  have hout : ∀ n ∈ [net10], n.Contains [10, 0, 1, 0] = false := by
    intro n hn
    rw [List.mem_singleton.1 hn]
    decide
  have h := NewTrie_not_contains_outside [net10] [10, 0, 1, 0] hP (by decide) hout
  ⟨hP, by decide, hout,
    h.2.1 (by
      intro n hn
      rw [List.mem_singleton.1 hn]
      exact net10_isCIDR.2),
    h.1⟩

set_option maxRecDepth 100000 in
/-- An index that is not built: on the list made of the entries `::ffff:1.2.3.4/128` and
`10.0.0.0/24`, `NewTrie` returns no index on which `Contains` could answer for `9.9.9.9` or
any other address: the second insertion meets the node of the first, whose network has no
number, and reads a bit of that number outside its bounds. -/
theorem NewTrie_faults_after_mapped_block :
    entryNet "::ffff:1.2.3.4/128".toList = some netMapped
      ∧ entryNet "10.0.0.0/24".toList = some net10
      ∧ (∀ n ∈ [netMapped, net10], n.Contains [9, 9, 9, 9] = false)
      ∧ NetworkNumber.Bit [] (toUint (-1)) = BitResult.indexOutOfRange
      ∧ ¬ ∃ l, NewTrie [netMapped, net10] = some l ∧ l.Contains [9, 9, 9, 9] = false := by
  refine ⟨by decide, by decide, by decide, by decide, ?_⟩
  have h : (NewTrie [netMapped, net10]).isSome = false := by decide
  rintro ⟨l, hl, _⟩
  rw [hl] at h
  cases h

/-! ## Payloads the front-ends do not expect -/

/-- Claim C11, on the code.  Given the payload without any byte, the line-protocol handler
faults at the slice `buf[:len(buf)-1]` and writes nothing.  Given any other payload, text
or not, it completes and writes one of the three protocol lines. -/
theorem NetworkServer_OnTraffic_empty_payload (ipsrv : NetworkServer) :
    ipsrv.OnTraffic [] = none
      ∧ ∀ buf : GoString, buf ≠ [] →
          ipsrv.OnTraffic buf = some "error: invalid IP format\n".toList
            ∨ ipsrv.OnTraffic buf = some "1\n".toList
            ∨ ipsrv.OnTraffic buf = some "0\n".toList := by
  refine ⟨rfl, ?_⟩
  intro buf hbuf
  have hlen : buf.length ≠ 0 := fun h => hbuf (List.length_eq_zero.1 h)
  unfold NetworkServer.OnTraffic
  rw [if_neg hlen]
  cases ParseIP (buf.take (buf.length - 1)) with
  | none => exact Or.inl rfl
  | some ip =>
    by_cases hc : ipsrv.l.Contains ip = true
    · right
      left
      simp [hc]
    · right
      right
      simp [hc]

/-- The minimal-HTTP handler on a buffer whose address text is no IP address: it writes the
error line, does not call `Discard` and leaves the codec as it was. -/
theorem HTTPServer_OnTraffic_unparseable (hs : HTTPServer) (now : GoString) (hc : httpCodec)
    (buf : GoString)
    (h : ParseIP (strings.TrimPrefix ((strings.SplitSpace buf).getD 1 []) hs.basepath) = none) :
    hs.OnTraffic now hc buf = ⟨hc, ["error: invalid IP format\n".toList], none⟩ := by
  unfold HTTPServer.OnTraffic httpCodec.parse
  by_cases hlen : (strings.SplitSpace buf).length < 2
  · have h2 : ParseIP (strings.TrimPrefix [] hs.basepath) = none := by
      have : strings.TrimPrefix [] hs.basepath = [] := by
        unfold strings.TrimPrefix
        split <;> simp
      rw [this]
      rfl
    simp only [hlen, if_true, h2]
  · simp only [hlen, if_false, h]

/-- Claim C12, as amended.  For the input `not-an-ip`: the line-protocol handler writes the
line `error: invalid IP format`, which is neither of its two answers; the minimal-HTTP
handler writes that same line and no response, on every buffer whose address text is
`not-an-ip`, such as `GET /not-an-ip HTTP/1.1` for the base path `/`; the route handler of
the framework-HTTP server sends the body `0`, its answer for an address that is not
contained.  None of the three faults. -/
theorem front_ends_not_an_ip (ipsrv : NetworkServer) (hs : HTTPServer) (now : GoString)
    (hc : httpCodec) (fs : FiberServer) :
    ipsrv.OnTraffic "not-an-ip\n".toList = some "error: invalid IP format\n".toList
      ∧ "error: invalid IP format\n".toList ≠ "1\n".toList
      ∧ "error: invalid IP format\n".toList ≠ "0\n".toList
      ∧ (∀ buf, strings.TrimPrefix ((strings.SplitSpace buf).getD 1 []) hs.basepath
            = "not-an-ip".toList →
          (hs.OnTraffic now hc buf).written = ["error: invalid IP format\n".toList])
      ∧ (HTTPServer.OnTraffic ⟨hs.l, hs.addr, "/".toList⟩ now hc
            "GET /not-an-ip HTTP/1.1\r\n\r\n".toList).written
          = ["error: invalid IP format\n".toList]
      ∧ (∀ body, "error: invalid IP format\n".toList ≠ httpResponse now body)
      ∧ fs.handler "not-an-ip".toList = "0".toList := by
  have hp : ParseIP "not-an-ip".toList = none := by decide
  refine ⟨?_, by decide, by decide, ?_, ?_, ?_, ?_⟩
  · have h1 : ParseIP (List.take ("not-an-ip\n".toList.length - 1) "not-an-ip\n".toList) = none := by
      decide
    unfold NetworkServer.OnTraffic
    rw [if_neg (by decide)]
    simp only [h1]
  · intro buf hbuf
    rw [HTTPServer_OnTraffic_unparseable hs now hc buf (by rw [hbuf]; exact hp)]
  · have h2 : ParseIP (strings.TrimPrefix
        ((strings.SplitSpace "GET /not-an-ip HTTP/1.1\r\n\r\n".toList).getD 1 []) "/".toList)
        = none := by decide
    rw [HTTPServer_OnTraffic_unparseable _ now hc _ h2]
  · intro body hEq
    unfold httpResponse at hEq
    simp at hEq
  · unfold FiberServer.handler
    rw [hp]

set_option maxRecDepth 100000 in
/-- Claim C12 fails as stated: on the framework-HTTP server the input `not-an-ip` gets the
body `0`, the very answer that the address `192.0.2.1`, which the empty index does not
contain, gets. -/
theorem FiberServer_not_an_ip_answers_zero :
    ParseIP "not-an-ip".toList = none
      ∧ (ParseIP "192.0.2.1".toList).map
          (fun x => Looker.Contains ⟨NewPCTrieRanger⟩ x) = some false
      ∧ FiberServer.handler ⟨⟨NewPCTrieRanger⟩, ":8080".toList, "/".toList⟩ "not-an-ip".toList
          = "0".toList
      ∧ FiberServer.handler ⟨⟨NewPCTrieRanger⟩, ":8080".toList, "/".toList⟩ "192.0.2.1".toList
          = FiberServer.handler ⟨⟨NewPCTrieRanger⟩, ":8080".toList, "/".toList⟩
              "not-an-ip".toList := by
  decide

/-- The minimal-HTTP handler on a buffer whose address text is an IP address: the argument
of `Discard` is `n - len(buf)` with `n = len(buf)`. -/
theorem HTTPServer_OnTraffic_discarded (hs : HTTPServer) (now : GoString) (hc : httpCodec)
    (buf : GoString) (x : IP)
    (h : ParseIP (strings.TrimPrefix ((strings.SplitSpace buf).getD 1 []) hs.basepath) = some x) :
    (hs.OnTraffic now hc buf).discarded = some 0 := by
  unfold HTTPServer.OnTraffic httpCodec.parse
  by_cases hlen : (strings.SplitSpace buf).length < 2
  · exfalso
    have h1 : (strings.SplitSpace buf).getD 1 [] = [] := by
      rw [List.getD_eq_default]
      omega
    have h2 : ParseIP (strings.TrimPrefix [] hs.basepath) = none := by
      have : strings.TrimPrefix [] hs.basepath = [] := by
        unfold strings.TrimPrefix
        split <;> simp
      rw [this]
      rfl
    rw [h1, h2] at h
    cases h
  · simp only [hlen, if_false, h, sub_self]

/-- Claim C13, on the code.  Whatever the request, the minimal-HTTP handler either does not
call `Discard` (when it writes the error line) or calls it with 0; when it has answered a
request, it has called `Discard` with 0, as for the 26-byte request
`GET /10.0.0.1 HTTP/1.1` with the base path `/`: no byte of an answered request leaves the
inbound buffer. -/
theorem HTTPServer_OnTraffic_discards_nothing (hs : HTTPServer) (now : GoString)
    (hc : httpCodec) (buf : GoString) :
    ((hs.OnTraffic now hc buf).discarded = none ∨ (hs.OnTraffic now hc buf).discarded = some 0)
      ∧ (∀ x, ParseIP (strings.TrimPrefix ((strings.SplitSpace buf).getD 1 []) hs.basepath)
            = some x → (hs.OnTraffic now hc buf).discarded = some 0)
      ∧ "GET /10.0.0.1 HTTP/1.1\r\n\r\n".toList.length = 26
      ∧ (HTTPServer.OnTraffic ⟨hs.l, hs.addr, "/".toList⟩ now hc
            "GET /10.0.0.1 HTTP/1.1\r\n\r\n".toList).discarded = some 0 := by
  refine ⟨?_, fun x hx => HTTPServer_OnTraffic_discarded hs now hc buf x hx, by decide, ?_⟩
  · cases hp : ParseIP (strings.TrimPrefix ((strings.SplitSpace buf).getD 1 []) hs.basepath) with
    | none =>
      left
      rw [HTTPServer_OnTraffic_unparseable hs now hc buf hp]
    | some x => exact Or.inr (HTTPServer_OnTraffic_discarded hs now hc buf x hp)
  · have h2 : ParseIP (strings.TrimPrefix
        ((strings.SplitSpace "GET /10.0.0.1 HTTP/1.1\r\n\r\n".toList).getD 1 []) "/".toList)
        = some [0, 0, 0, 0, 0, 0, 0, 0, 0, 0, 255, 255, 10, 0, 0, 1] := by decide
    exact HTTPServer_OnTraffic_discarded _ now hc _ _ h2

/-! ## The reload goroutine -/

/-- Claim C14, on the code.  The reload goroutine sleeps once, runs the reload step once and
returns: whatever time has passed it has started at most one reload step, exactly one once
the interval has passed `k` times for any `k ≥ 1` (so one, not two, after two intervals of
one minute), and none when the interval is zero. -/
theorem reloadGoroutine_reloads_once (ep : EndpointCfg) (t : Int) :
    reloadsBy t (reloadGoroutine ep) ≤ 1
      ∧ (ep.AutoReload = 0 → reloadsBy t (reloadGoroutine ep) = 0)
      ∧ (∀ k : Nat, 1 ≤ k → 0 < ep.AutoReload → ep.AutoReload * 60000000000 < 2 ^ 63 →
          reloadsBy ((k : Int) * ((ep.AutoReload * 60000000000 : Nat) : Int)) (reloadGoroutine ep) = 1)
      ∧ reloadGoroutine endpointBoth = [.sleep 60000000000, .reload "ranges.csv".toList]
      ∧ reloadsBy (2 * 60000000000) (reloadGoroutine endpointBoth) = 1 := by
  refine ⟨?_, ?_, ?_, by decide, by decide⟩
  · unfold reloadGoroutine
    split
    · simp only [reloadsBy]
      split <;> omega
    · simp [reloadsBy]
  · intro h0
    unfold reloadGoroutine
    rw [if_neg (by omega)]
    rfl
  · intro k hk hpos hsmall
    unfold reloadGoroutine
    rw [if_pos hpos, toInt_small _ hsmall]
    simp only [reloadsBy]
    have h1 : max ((ep.AutoReload * 60000000000 : Nat) : Int) 0
        = ((ep.AutoReload * 60000000000 : Nat) : Int) := by omega
    rw [h1]
    have h2 : ((ep.AutoReload * 60000000000 : Nat) : Int)
        ≤ (k : Int) * ((ep.AutoReload * 60000000000 : Nat) : Int) := by
      have : (1 : Int) ≤ (k : Int) := by omega
      nlinarith
    rw [if_pos h2]

/-! ## The servers of an endpoint -/

theorem validateModes_none (name : GoString) (ms : List GoString)
    (h : validateModes name ms = none) :
    ∀ m ∈ ms, m = "http".toList ∨ m = "socket".toList := by
  induction ms with
  | nil =>
    intro m hm
    cases hm
  | cons x rest ih =>
    unfold validateModes at h
    by_cases hx : x ≠ "http".toList ∧ x ≠ "socket".toList
    · rw [if_pos hx] at h
      cases h
    · rw [if_neg hx] at h
      intro m hm
      rcases List.mem_cons.1 hm with rfl | hm
      · by_cases h1 : m = "http".toList
        · exact Or.inl h1
        · right
          by_contra h2
          exact hx ⟨h1, h2⟩
      · exact ih h m hm

theorem validateEndpoints_none (es : List EndpointCfg) (h : validateEndpoints es = none) :
    ∀ e ∈ es, ∀ m ∈ e.Modes, m = "http".toList ∨ m = "socket".toList := by
  induction es with
  | nil =>
    intro e he
    cases he
  | cons x rest ih =>
    unfold validateEndpoints at h
    split at h
    · cases h
    · split at h
      · cases h
      · split at h
        · cases h
        · split at h
          · cases h
          · rename_i hm
            intro e he
            rcases List.mem_cons.1 he with rfl | he
            · exact validateModes_none _ _ hm
            · exact ih h e he

theorem startListeners_valid (looker : Looker) (ep : EndpointCfg) (ms : List GoString)
    (h : ∀ m ∈ ms, m = "http".toList ∨ m = "socket".toList) :
    startListeners looker ep ms = ms.map (listenerFor looker ep) := by
  induction ms with
  | nil => rfl
  | cons x rest ih =>
    have ih' := ih (fun m hm => h m (List.mem_cons_of_mem _ hm))
    unfold startListeners
    rw [ih', List.map_cons]
    unfold listenerFor
    by_cases h1 : x = "http".toList
    · rw [if_pos h1, if_pos h1]
    · rw [if_neg h1, if_neg h1]
      have h2 : x = "socket".toList := by
        rcases h x (List.mem_cons_self _ _) with h | h
        · exact absurd h h1
        · exact h
      rw [if_pos h2]

theorem listenerFor_looker (looker : Looker) (ep : EndpointCfg) (m : GoString) :
    (listenerFor looker ep m).looker = looker := by
  unfold listenerFor
  split <;> rfl

theorem waitListeners_le (n : Nat) (cs : List (Option GoString)) : (waitListeners n cs).1 ≤ n := by
  induction n generalizing cs with
  | zero => simp [waitListeners]
  | succ n ih =>
    cases cs with
    | nil => simp [waitListeners]
    | cons c rest =>
      cases c with
      | none =>
        simp only [waitListeners]
        have := ih rest
        omega
      | some err => simp [waitListeners]

theorem waitListeners_all_nil (n : Nat) (cs : List (Option GoString)) (hlen : n ≤ cs.length)
    (h : ∀ e ∈ cs.take n, e = none) : waitListeners n cs = (n, some none) := by
  induction n generalizing cs with
  | zero => simp [waitListeners]
  | succ n ih =>
    cases cs with
    | nil => simp at hlen
    | cons c rest =>
      have hc : c = none := h c (by simp)
      subst hc
      simp only [waitListeners]
      rw [ih rest (by simpa using hlen) (fun e he => h e (by simp [he]))]

theorem waitListeners_first_error (n : Nat) (cs : List (Option GoString)) (i : Nat)
    (err : GoString) (hi : i < n) (herr : cs[i]? = some (some err))
    (hbefore : ∀ j < i, cs[j]? = some none) : waitListeners n cs = (i + 1, some (some err)) := by
  induction n generalizing cs i with
  | zero => omega
  | succ n ih =>
    cases cs with
    | nil => simp at herr
    | cons c rest =>
      cases i with
      | zero =>
        simp only [List.getElem?_cons_zero, Option.some.injEq] at herr
        subst herr
        simp [waitListeners]
      | succ i =>
        have h0 := hbefore 0 (by omega)
        simp only [List.getElem?_cons_zero, Option.some.injEq] at h0
        subst h0
        simp only [waitListeners]
        rw [ih rest i (by omega) (by simpa using herr) (fun j hj => by
          have := hbefore (j + 1) (by omega)
          simpa using this)]

/-- Claim C15, as amended.  For an endpoint of a configuration that `Config.Validate`
accepts, whose source has been fetched and loaded into the index `looker`: `serveEndpoint`
starts one server per entry of `Modes`, in order, a framework-HTTP server for `http` and a
line-protocol server for `socket`, each answering from `looker`; it receives at most as many
completions as it has started servers; it receives exactly that many and returns `nil` when
they all arrive without an error, and it returns the first error that arrives, at once. -/
theorem serveEndpoint_one_server_per_mode (c : Config) (ep : EndpointCfg) (r : Reader)
    (looker : Looker) (completions : List (Option GoString))
    (hv : c.Validate = none) (hep : ep ∈ c.Endpoints)
    (hload : populateLooker r = some (.ok looker)) :
    ∃ res, serveEndpoint ep (.ok r) completions = some res
      ∧ res.started = ep.Modes.map (listenerFor looker ep)
      ∧ res.started.length = ep.Modes.length
      ∧ (∀ s ∈ res.started, s.looker = looker)
      ∧ res.received ≤ res.started.length
      ∧ (ep.Modes.length ≤ completions.length →
          (∀ e ∈ completions.take ep.Modes.length, e = none) →
          res.received = res.started.length ∧ res.returned = some none)
      ∧ (∀ i err, i < ep.Modes.length → completions[i]? = some (some err) →
          (∀ j < i, completions[j]? = some none) →
          res.received = i + 1 ∧ res.returned = some (some err)) := by
  have hmodes := validateEndpoints_none c.Endpoints hv ep hep
  have hstart := startListeners_valid looker ep ep.Modes hmodes
  refine ⟨⟨startListeners looker ep ep.Modes, reloadGoroutine ep,
    (waitListeners ep.Modes.length completions).1,
    (waitListeners ep.Modes.length completions).2⟩, ?_, hstart, ?_, ?_, ?_, ?_, ?_⟩
  · unfold serveEndpoint
    simp only [hload]
  · simp only [hstart, List.length_map]
  · intro s hs
    simp only [hstart, List.mem_map] at hs
    obtain ⟨m, _, rfl⟩ := hs
    exact listenerFor_looker looker ep m
  · simp only [hstart, List.length_map]
    exact waitListeners_le _ _
  · intro hlen hall
    simp only [hstart, List.length_map]
    rw [waitListeners_all_nil _ _ hlen hall]
    exact ⟨rfl, rfl⟩
  · intro i err hi herr hbefore
    simp only
    rw [waitListeners_first_error _ _ i err hi herr hbefore]
    exact ⟨rfl, rfl⟩

set_option maxRecDepth 100000 in
/-- The source with the one entry `10.0.0.0/24` loads. -/
theorem populateLooker_net10 :
    ∃ looker, populateLooker (readerOf ["10.0.0.0/24".toList]) = some (.ok looker) := by
  have h : (match populateLooker (readerOf ["10.0.0.0/24".toList]) with
      | some (.ok _) => true
      | _ => false) = true := by decide
  cases hp : populateLooker (readerOf ["10.0.0.0/24".toList]) with
  | none =>
    rw [hp] at h
    cases h
  | some x =>
    cases x with
    | error e =>
      rw [hp] at h
      cases h
    | ok looker => exact ⟨looker, rfl⟩

/-- Claim C15, an instance: the endpoint with the modes `http` and `socket`, loaded from the
entry `10.0.0.0/24`, starts two servers and returns `nil` after both have completed without
an error. -/
theorem serveEndpoint_one_server_per_mode_witness :
    configBoth.Validate = none ∧ endpointBoth ∈ configBoth.Endpoints
      ∧ ∃ looker, populateLooker (readerOf ["10.0.0.0/24".toList]) = some (.ok looker)
        ∧ ∃ res, serveEndpoint endpointBoth (.ok (readerOf ["10.0.0.0/24".toList])) [none, none]
              = some res
          ∧ res.started.length = 2 ∧ res.received = 2 ∧ res.returned = some none := by
  have hv : configBoth.Validate = none := by decide
  have hep : endpointBoth ∈ configBoth.Endpoints := List.mem_singleton.2 rfl
  obtain ⟨looker, hl⟩ := populateLooker_net10
  obtain ⟨res, h1, _, h3, _, _, h6, _⟩ :=
    serveEndpoint_one_server_per_mode configBoth endpointBoth _ looker [none, none] hv hep hl
  refine ⟨hv, hep, looker, hl, res, h1, h3, ?_⟩
  have h := h6 (by decide) (by
    intro e he
    simp only [endpointBoth, List.length_cons, List.length_nil, List.take_succ_cons,
      List.take_zero, List.mem_cons, List.not_mem_nil, or_false, or_self] at he
    exact he)
  exact ⟨by rw [h.1, h3]; rfl, h.2⟩

set_option maxRecDepth 100000 in
/-- Claim C15 fails as stated: the endpoint with the modes `http` and `socket` is accepted
by `Config.Validate` and its source loads, and when the first server to complete reports an
error, `serveEndpoint` returns that error after one completion, with two servers
started. -/
theorem serveEndpoint_returns_at_first_error :
    configBoth.Validate = none ∧ endpointBoth ∈ configBoth.Endpoints
      ∧ (serveEndpoint endpointBoth (.ok (readerOf ["10.0.0.0/24".toList]))
            [some "listen tcp :8080: bind: address already in use".toList, none]).map
          (fun res => (res.started.length, res.received, res.returned))
        = some (2, 1, some (some "listen tcp :8080: bind: address already in use".toList)) := by
  refine ⟨by decide, List.mem_singleton.2 rfl, ?_⟩
  decide

/-! ## Adding a network to an index -/

theorem rangerOK_of_insertAll (P : List IPNet) (hP : ∀ n ∈ P, IsCIDR n ∧ ¬ IsMappedBlock n)
    (v : versionedRanger) (h : insertAll NewPCTrieRanger P = some v) :
    ∃ S, RangerOK S v ∧ ∀ n, S n → GoodForm n := by
  have hgood : ∀ n ∈ P, GoodForm n := fun n hn => (hP n hn).1.goodForm (hP n hn).2
  obtain ⟨v', h1, hok⟩ := insertAll_spec _ _ rangerOK_new P hgood
  rw [h] at h1
  cases h1
  refine ⟨_, hok, ?_⟩
  intro n hn
  rcases hn with hn | hn
  · exact absurd hn id
  · exact hgood n hn

/-- A state of the index that was built from networks it holds as written is well formed and
holds networks of the good forms only. -/
theorem Built.rangerOK {l : Looker} (h : Built l) :
    ∃ S, RangerOK S l.ranger ∧ ∀ n, S n → GoodForm n := by
  induction h with
  | newTrie P l hP h =>
    unfold NewTrie at h
    cases hv : insertAll NewPCTrieRanger P with
    | none =>
      rw [hv] at h
      cases h
    | some v =>
      rw [hv] at h
      cases h
      exact rangerOK_of_insertAll P hP v hv
  | insert l p l' _ hp h ih =>
    obtain ⟨S, hok, hS⟩ := ih
    obtain ⟨v', h1, hok'⟩ := hok.insert p (hp.1.goodForm hp.2)
    unfold Looker.Insert at h
    rw [h1] at h
    cases h
    refine ⟨_, hok', ?_⟩
    intro n hn
    rcases hn with hn | rfl
    · exact hS n hn
    · exact hp.1.goodForm hp.2
  | reload l P l' _ hP h _ =>
    unfold Looker.Reload at h
    cases hv : insertAll NewPCTrieRanger P with
    | none =>
      rw [hv] at h
      cases h
    | some v =>
      rw [hv] at h
      cases h
      exact rangerOK_of_insertAll P hP v hv

/-- Inserting a network and asking the index.  For every state of the index that `NewTrie`, `Insert` and
`Reload` lead to from networks of `ParseCIDR` none of which is an IPv4-mapped IPv6 network
of prefix length above 96, and every such network `p`: `Insert(p)` returns, after it
`Contains(a)` is true exactly when it was true before or `a` is inside `p`, and every
address contained before is still contained. -/
theorem Insert_contains_iff (l : Looker) (p : IPNet) (a : IP) (hl : Built l)
    (hp : IsCIDR p) (hpm : ¬ IsMappedBlock p) (ha : IsBytes a) :
    ∃ l', l.Insert p = some l'
      ∧ (l'.Contains a = true ↔ l.Contains a = true ∨ p.Contains a = true)
      ∧ (l.Contains a = true → l'.Contains a = true) := by
  obtain ⟨S, hok, hS⟩ := hl.rangerOK
  obtain ⟨v', h1, hok'⟩ := hok.insert p (hp.goodForm hpm)
  have hS' : ∀ n, (S n ∨ n = p) → GoodForm n := by
    intro n hn
    rcases hn with hn | rfl
    · exact hS n hn
    · exact hp.goodForm hpm
  have key : (Looker.mk v').Contains a = true ↔ l.Contains a = true ∨ p.Contains a = true := by
    unfold Looker.Contains
    rw [hok'.contains_iff hS' a ha, hok.contains_iff hS a ha]
    constructor
    · rintro ⟨n, hn | rfl, hc⟩
      · exact Or.inl ⟨n, hn, hc⟩
      · exact Or.inr hc
    · rintro (⟨n, hn, hc⟩ | hc)
      · exact ⟨n, Or.inl hn, hc⟩
      · exact ⟨p, Or.inr rfl, hc⟩
  refine ⟨⟨v'⟩, ?_, key, fun h => key.2 (Or.inl h)⟩
  unfold Looker.Insert
  rw [h1]
  rfl

/-- An instance of `Insert_contains_iff`: after `192.168.0.0/16` is inserted into the index built from
`10.0.0.0/24`, the index contains `192.168.1.1`. -/
theorem Insert_contains_iff_witness :
    ∃ l, NewTrie [net10] = some l ∧ Built l ∧ IsCIDR net192 ∧ ¬ IsMappedBlock net192
      ∧ IsBytes [192, 168, 1, 1]
      ∧ ∃ l', l.Insert net192 = some l' ∧ l'.Contains [192, 168, 1, 1] = true := by
  have hP : ∀ n ∈ [net10], IsCIDR n ∧ ¬ IsMappedBlock n := by
    intro n hn
    rw [List.mem_singleton.1 hn]
    exact net10_isCIDR
  obtain ⟨l, hl, _⟩ := NewTrie_spec [net10] hP
  have hb : Built l := Built.newTrie [net10] l hP hl
  obtain ⟨l', h1, h2, _⟩ :=
    Insert_contains_iff l net192 [192, 168, 1, 1] hb net192_isCIDR.1 net192_isCIDR.2 (by decide)
  exact ⟨l, hl, hb, net192_isCIDR.1, net192_isCIDR.2, by decide, l', h1, h2.2 (Or.inr (by decide))⟩

/-! ## Reloading twice -/

/-- Claim C18.  In every state of the index and for every list `P` of networks: when
`Reload(P)` returns, a second `Reload(P)` returns as well and `Contains(a)` answers after it
as it did after the first; and `Reload(P)` does return when the networks of `P` are networks
of `ParseCIDR`, none an IPv4-mapped IPv6 network of prefix length above 96. -/
theorem Reload_idempotent (r : Looker) (P : List IPNet) (a : IP) :
    (∀ l1, r.Reload P = some l1 →
        ∃ l2, l1.Reload P = some l2 ∧ l2.Contains a = l1.Contains a)
      ∧ ((∀ n ∈ P, IsCIDR n ∧ ¬ IsMappedBlock n) →
          ∃ l1 l2, r.Reload P = some l1 ∧ l1.Reload P = some l2
            ∧ l2.Contains a = l1.Contains a) := by
  have key : ∀ l1, r.Reload P = some l1 →
      ∃ l2, l1.Reload P = some l2 ∧ l2.Contains a = l1.Contains a := by
    intro l1 h1
    unfold Looker.Reload at h1 ⊢
    cases hv : insertAll NewPCTrieRanger P with
    | none =>
      rw [hv] at h1
      cases h1
    | some v =>
      rw [hv] at h1
      cases h1
      exact ⟨_, rfl, rfl⟩
  refine ⟨key, ?_⟩
  intro hP
  obtain ⟨l1, h1, _⟩ := Reload_spec r P hP
  obtain ⟨l2, h2, h3⟩ := key l1 h1
  exact ⟨l1, l2, h1, h2, h3⟩

/-! ## Two tests of the specification -/

set_option maxRecDepth 100000 in
/-- Claim C19.  On the index built from the one network `10.0.0.0/24`, `Contains` is true for
`10.0.0.255`, the last address of the block, and false for `10.0.1.0`, the first address
after it. -/
theorem NewTrie_boundary_of_block :
    (ParseCIDR "10.0.0.0/24".toList).map (fun x => x.2) = some net10
      ∧ ParseIP "10.0.0.255".toList = some [0, 0, 0, 0, 0, 0, 0, 0, 0, 0, 255, 255, 10, 0, 0, 255]
      ∧ ParseIP "10.0.1.0".toList = some [0, 0, 0, 0, 0, 0, 0, 0, 0, 0, 255, 255, 10, 0, 1, 0]
      ∧ (NewTrie [net10]).map
          (fun l => l.Contains [0, 0, 0, 0, 0, 0, 0, 0, 0, 0, 255, 255, 10, 0, 0, 255]) = some true
      ∧ (NewTrie [net10]).map
          (fun l => l.Contains [0, 0, 0, 0, 0, 0, 0, 0, 0, 0, 255, 255, 10, 0, 1, 0])
        = some false := by
  decide

set_option maxRecDepth 100000 in
/-- Claim C20.  The index loaded from the two source entries `10.0.0.0/24` and `192.168.1.5`
contains `10.0.0.1` and `192.168.1.5` and contains neither `192.168.1.6` nor `::1`. -/
theorem load_two_entries_and_ask :
    loadAndAsk ["10.0.0.0/24".toList, "192.168.1.5".toList] "10.0.0.1".toList = some true
      ∧ loadAndAsk ["10.0.0.0/24".toList, "192.168.1.5".toList] "192.168.1.5".toList = some true
      ∧ loadAndAsk ["10.0.0.0/24".toList, "192.168.1.5".toList] "192.168.1.6".toList = some false
      ∧ loadAndAsk ["10.0.0.0/24".toList, "192.168.1.5".toList] "::1".toList = some false := by
  refine ⟨?_, ?_, ?_, ?_⟩ <;> decide

/-! ## The characters of an address text -/

theorem isAddrChar_of_digit (c : Char) (h : 48 ≤ c.toNat ∧ c.toNat ≤ 57) : IsAddrChar c := by
  left
  unfold hexDigit
  rw [if_pos h]
  rfl

theorem parseIPv4FieldsLoop_class (s : GoString) (val digLen : Nat) (fields : List Nat)
    (first prevDot : Bool) (f : List Nat)
    (h : parseIPv4FieldsLoop s val digLen fields first prevDot = some f) :
    ∀ c ∈ s, IsAddrChar c := by
  induction s generalizing val digLen fields first prevDot with
  | nil =>
    intro c hc
    simp at hc
  | cons d s ih =>
    unfold parseIPv4FieldsLoop at h
    split at h
    · rename_i hdigit
      split at h
      · cases h
      · simp only at h
        split at h
        · cases h
        · intro c hc
          rcases List.mem_cons.1 hc with hc | hc
          · subst hc
            exact isAddrChar_of_digit c hdigit
          · exact ih _ _ _ _ _ h c hc
    · split at h
      · rename_i hdot
        split at h
        · cases h
        · split at h
          · cases h
          · intro c hc
            rcases List.mem_cons.1 hc with hc | hc
            · subst hc
              exact Or.inr (Or.inr hdot)
            · exact ih _ _ _ _ _ h c hc
      · cases h

theorem hexGroup_class (s : GoString) (off acc off' acc' : Nat) (rest : GoString)
    (h : hexGroup s off acc = some (off', acc', rest)) :
    ∃ d, s = d ++ rest ∧ ∀ c ∈ d, IsAddrChar c := by
  induction s generalizing off acc with
  | nil =>
    simp only [hexGroup, Option.some.injEq, Prod.mk.injEq] at h
    exact ⟨[], by simp [h.2.2], by simp⟩
  | cons c s ih =>
    unfold hexGroup at h
    split at h
    · simp only [Option.some.injEq, Prod.mk.injEq] at h
      exact ⟨[], by simp [h.2.2], by simp⟩
    · rename_i dval hd
      simp only at h
      split at h
      · cases h
      · split at h
        · cases h
        · obtain ⟨d, h1, h2⟩ := ih _ _ h
          refine ⟨c :: d, by simp [h1], ?_⟩
          intro x hx
          rcases List.mem_cons.1 hx with hx | hx
          · subst hx
            left
            rw [hd]
            rfl
          · exact h2 x hx

theorem parseIPv6Loop_class (fuel : Nat) (s : GoString) (ip : List Nat) (ell : Option Nat)
    (rest : GoString) (ip' : List Nat) (ell' : Option Nat)
    (h : parseIPv6Loop fuel s ip ell = some (rest, ip', ell')) :
    ∃ d, s = d ++ rest ∧ ∀ c ∈ d, IsAddrChar c := by
  induction fuel generalizing s ip ell with
  | zero =>
    simp only [parseIPv6Loop, Option.some.injEq, Prod.mk.injEq] at h
    exact ⟨[], by simp [h.1], by simp⟩
  | succ fuel ih =>
    unfold parseIPv6Loop at h
    by_cases hlen : ip.length ≥ 16
    · rw [if_pos hlen] at h
      simp only [Option.some.injEq, Prod.mk.injEq] at h
      exact ⟨[], by simp [h.1], by simp⟩
    · rw [if_neg hlen] at h
      cases hg : hexGroup s 0 0 with
      | none => simp [hg] at h
      | some t =>
        obtain ⟨off, acc, rest0⟩ := t
        obtain ⟨d0, hs0, hd0⟩ := hexGroup_class s 0 0 off acc rest0 hg
        simp only [hg] at h
        by_cases hoff : off = 0
        · simp [hoff] at h
        · rw [if_neg hoff] at h
          by_cases hdot : rest0.head? = some '.'
          · rw [if_pos hdot] at h
            split at h
            · cases h
            · split at h
              · cases h
              · cases hfields : parseIPv4Fields s with
                | none => simp [hfields] at h
                | some fields =>
                  simp only [hfields, Option.some.injEq, Prod.mk.injEq] at h
                  refine ⟨s, by simp [← h.1], ?_⟩
                  intro c hc
                  exact parseIPv4FieldsLoop_class s 0 0 [] true false fields hfields c hc
          · rw [if_neg hdot] at h
            cases rest0 with
            | nil =>
              simp only [Option.some.injEq, Prod.mk.injEq] at h
              exact ⟨d0, by rw [← h.1]; exact hs0, hd0⟩
            | cons c rest1 =>
              simp only at h
              by_cases hc : c = ':'
              · subst hc
                simp only [ne_eq, not_true_eq_false, if_false] at h
                cases rest1 with
                | nil => simp at h
                | cons d rest2 =>
                  simp only at h
                  by_cases hd : d = ':'
                  · subst hd
                    simp only [if_true] at h
                    split at h
                    · cases h
                    · split at h
                      · rename_i hemp
                        simp only [Option.some.injEq, Prod.mk.injEq] at h
                        have hr2 : rest2 = [] := by simpa using hemp
                        refine ⟨d0 ++ [':', ':'], by rw [← h.1, hs0, hr2]; simp, ?_⟩
                        intro x hx
                        rcases List.mem_append.1 hx with hx | hx
                        · exact hd0 x hx
                        · simp only [List.mem_cons, List.mem_singleton, List.not_mem_nil,
                            or_false, or_self] at hx
                          subst hx
                          exact Or.inr (Or.inl rfl)
                      · obtain ⟨d1, h1, h2⟩ := ih _ _ _ h
                        refine ⟨d0 ++ [':', ':'] ++ d1, by rw [hs0, h1]; simp, ?_⟩
                        intro x hx
                        rcases List.mem_append.1 hx with hx | hx
                        · rcases List.mem_append.1 hx with hx | hx
                          · exact hd0 x hx
                          · simp only [List.mem_cons, List.mem_singleton, List.not_mem_nil,
                              or_false, or_self] at hx
                            subst hx
                            exact Or.inr (Or.inl rfl)
                        · exact h2 x hx
                  · rw [if_neg hd] at h
                    obtain ⟨d1, h1, h2⟩ := ih _ _ _ h
                    refine ⟨d0 ++ [':'] ++ d1, by rw [hs0, h1]; simp, ?_⟩
                    intro x hx
                    rcases List.mem_append.1 hx with hx | hx
                    · rcases List.mem_append.1 hx with hx | hx
                      · exact hd0 x hx
                      · simp only [List.mem_singleton] at hx
                        subst hx
                        exact Or.inr (Or.inl rfl)
                    · exact h2 x hx
              · simp [hc] at h

/-- Every character of an IPv6 address text without zone is a hexadecimal digit, a colon or
a dot. -/
theorem parseIPv6_class (s : GoString) (b : List Nat) (h : parseIPv6 s = some (.v6 b [])) :
    ∀ c ∈ s, IsAddrChar c := by
  unfold parseIPv6 at h
  simp only at h
  by_cases hpc : s.contains '%' = true
  · simp only [hpc, if_true] at h
    split at h
    · cases h
    · rename_i s1 zone hcut
      split at hcut
      · cases hcut
      · rename_i hz
        simp only [Option.some.injEq, Prod.mk.injEq] at hcut
        obtain ⟨_, hzone⟩ := hcut
        have hzne : zone ≠ [] := by
          intro e
          apply hz
          rw [hzone, e]
          rfl
        exfalso
        apply hzne
        by_cases hlead : strings.HasPrefix s1 [':', ':'] = true
        · simp only [hlead, if_true, true_and] at h
          split at h
          · simp only [Option.some.injEq, Addr.v6.injEq] at h
            exact h.2
          · exact (parseIPv6_tail_rest zone _ _ h).2.symm
        · simp only [hlead, Bool.false_eq_true, if_false, false_and] at h
          exact (parseIPv6_tail_rest zone _ _ h).2.symm
  · simp only [hpc, Bool.false_eq_true, if_false] at h
    by_cases hlead : strings.HasPrefix s [':', ':'] = true
    · simp only [hlead, if_true, true_and] at h
      have hs := hasPrefix_colons s hlead
      split at h
      · rename_i hemp
        have : s.drop 2 = [] := by simpa using hemp
        rw [hs, this]
        intro c hc
        simp only [List.mem_cons, List.mem_singleton, List.not_mem_nil, or_false, or_self] at hc
        exact Or.inr (Or.inl hc)
      · obtain ⟨⟨ip, ell, hloop⟩, _⟩ := parseIPv6_tail_rest [] _ _ h
        obtain ⟨d, hd1, hd2⟩ := parseIPv6Loop_class 9 _ _ _ _ _ _ hloop
        rw [hs, hd1]
        intro c hc
        simp only [List.append_nil, List.mem_cons] at hc
        rcases hc with hc | hc | hc
        · exact Or.inr (Or.inl hc)
        · exact Or.inr (Or.inl hc)
        · exact hd2 c hc
    · simp only [hlead, Bool.false_eq_true, if_false, false_and] at h
      obtain ⟨⟨ip, ell, hloop⟩, _⟩ := parseIPv6_tail_rest [] _ _ h
      obtain ⟨d, hd1, hd2⟩ := parseIPv6Loop_class 9 _ _ _ _ _ _ hloop
      rw [hd1]
      intro c hc
      simp only [List.append_nil] at hc
      exact hd2 c hc

/-- Every character of a text that `ParseIP` accepts is a hexadecimal digit, a colon or a
dot. -/
theorem ParseIP_class (s : GoString) (x : IP) (h : ParseIP s = some x) :
    ∀ c ∈ s, IsAddrChar c := by
  unfold ParseIP at h
  cases ha : ParseAddr s with
  | none =>
    rw [ha] at h
    cases h
  | some addr =>
    rw [ha] at h
    simp only at h
    split at h
    · cases h
    · rename_i hz
      rcases parseAddrScan_spec s s addr ha with ⟨_, b, hb, hf⟩ | ⟨_, h6⟩
      · exact parseIPv4FieldsLoop_class s 0 0 [] true false b hf
      · obtain ⟨b, zone, hb, _⟩ := parseIPv6_spec s addr h6
        subst hb
        have hzone : zone = [] := by simpa [Addr.Zone] using hz
        subst hzone
        exact parseIPv6_class s b h6

theorem not_isAddrChar_space : ¬ IsAddrChar ' ' := by
  unfold IsAddrChar
  decide

theorem not_isAddrChar_cr : ¬ IsAddrChar '\r' := by
  unfold IsAddrChar
  decide

/-! ## The request line of the minimal-HTTP server -/

theorem splitByte_cons_ne (sep c : Char) (s cur : GoString) (h : c ≠ sep) :
    strings.splitByte sep (c :: s) cur = strings.splitByte sep s (c :: cur) := by
  have : (c == sep) = false := by simpa using h
  simp [strings.splitByte, this]

theorem splitByte_cons_eq (sep : Char) (s cur : GoString) :
    strings.splitByte sep (sep :: s) cur = cur.reverse :: strings.splitByte sep s [] := by
  simp [strings.splitByte]

theorem splitByte_no_sep (sep : Char) (a cur : GoString) (h : sep ∉ a) :
    strings.splitByte sep a cur = [cur.reverse ++ a] := by
  induction a generalizing cur with
  | nil => simp [strings.splitByte]
  | cons c a ih =>
    have hc : c ≠ sep := fun e => h (by simp [e])
    have ha : sep ∉ a := fun hm => h (List.mem_cons_of_mem _ hm)
    rw [splitByte_cons_ne sep c a cur hc, ih _ ha]
    simp

theorem splitByte_append (sep : Char) (a rest cur : GoString) (h : sep ∉ a) :
    strings.splitByte sep (a ++ sep :: rest) cur
      = (cur.reverse ++ a) :: strings.splitByte sep rest [] := by
  induction a generalizing cur with
  | nil => simp [splitByte_cons_eq]
  | cons c a ih =>
    have hc : c ≠ sep := fun e => h (by simp [e])
    have ha : sep ∉ a := fun hm => h (List.mem_cons_of_mem _ hm)
    rw [List.cons_append, splitByte_cons_ne sep c _ cur hc, ih _ ha]
    simp

theorem splitByte_length (sep : Char) (s cur : GoString) :
    (strings.splitByte sep s cur).length = s.count sep + 1 := by
  induction s generalizing cur with
  | nil => simp [strings.splitByte]
  | cons c s ih =>
    by_cases hc : c = sep
    · subst hc
      rw [splitByte_cons_eq]
      simp [ih]
    · rw [splitByte_cons_ne sep c s cur hc, ih]
      simp [List.count_cons, hc]

/-- The second field of a text is what stands between its first space and its second one,
or the end of the text. -/
theorem splitSpace_second (a b : GoString) (ha : ' ' ∉ a) (hb : ' ' ∉ b) :
    strings.SplitSpace (a ++ ' ' :: b) = [a, b]
      ∧ ∀ r, (strings.SplitSpace (a ++ ' ' :: (b ++ ' ' :: r))).length ≥ 2
        ∧ (strings.SplitSpace (a ++ ' ' :: (b ++ ' ' :: r))).getD 1 [] = b := by
  unfold strings.SplitSpace
  constructor
  · rw [splitByte_append ' ' a b [] ha, splitByte_no_sep ' ' b [] hb]
    rfl
  · intro r
    rw [splitByte_append ' ' a _ [] ha, splitByte_append ' ' b r [] hb]
    simp

theorem splitSpace_short_iff (data : GoString) :
    (strings.SplitSpace data).length < 2 ↔ ' ' ∉ data := by
  unfold strings.SplitSpace
  rw [splitByte_length, ← List.count_eq_zero]
  omega

/-- Claim C24.  For every path `p` without a space and every tail `r`, `parse` on
`GET p HTTP/1.1` followed by the line end and `r` returns `p` and no error.  On any input,
`parse` returns an error exactly when the input holds no space, and otherwise it returns the
text between the first space and the second one, or the end of the input when there is no
second space. -/
theorem httpCodec_parse_path (hc : httpCodec) :
    (∀ p r : GoString, ' ' ∉ p →
        hc.parse ("GET ".toList ++ p ++ " HTTP/1.1\r\n".toList ++ r) = (0, p, none))
      ∧ (∀ data : GoString, (hc.parse data).2.2.isSome = true ↔ ' ' ∉ data)
      ∧ (∀ a b : GoString, ' ' ∉ a → ' ' ∉ b → hc.parse (a ++ ' ' :: b) = (0, b, none))
      ∧ (∀ a b r : GoString, ' ' ∉ a → ' ' ∉ b →
          hc.parse (a ++ ' ' :: (b ++ ' ' :: r)) = (0, b, none)) := by
  have h3 : ∀ a b : GoString, ' ' ∉ a → ' ' ∉ b → hc.parse (a ++ ' ' :: b) = (0, b, none) := by
    intro a b ha hb
    unfold httpCodec.parse
    rw [(splitSpace_second a b ha hb).1]
    rfl
  have h4 : ∀ a b r : GoString, ' ' ∉ a → ' ' ∉ b →
      hc.parse (a ++ ' ' :: (b ++ ' ' :: r)) = (0, b, none) := by
    intro a b r ha hb
    obtain ⟨h1, h2⟩ := (splitSpace_second a b ha hb).2 r
    unfold httpCodec.parse
    simp only
    rw [if_neg (by omega), h2]
  refine ⟨?_, ?_, h3, h4⟩
  · intro p r hp
    have e : "GET ".toList ++ p ++ " HTTP/1.1\r\n".toList ++ r
        = "GET".toList ++ ' ' :: (p ++ ' ' :: ("HTTP/1.1\r\n".toList ++ r)) := by
      simp
    rw [e]
    exact h4 _ _ _ (by decide) hp
  · intro data
    unfold httpCodec.parse
    simp only
    rw [← splitSpace_short_iff]
    split <;> simp_all

/-! ## The response of the minimal-HTTP server -/

theorem writeResponse_buf (now : GoString) (hc : httpCodec) (body : GoString) :
    (writeResponse now hc body).buf
      = hc.buf ++ "HTTP/1.1 200 OK\r\nServer: gnet\r\nContent-Type: text/plain\r\nDate: ".toList
          ++ now ++ "\r\nContent-Length: ".toList ++ strconv.Itoa body.length
          ++ "\r\n\r\n".toList ++ body := rfl

theorem writeResponse_two (now : GoString) (hc : httpCodec) (body : GoString)
    (h : body.length = 2) :
    (writeResponse now hc body).buf = hc.buf ++ httpResponse now body := by
  rw [writeResponse_buf, h]
  have e : strconv.Itoa 2 = ['2'] := by decide
  rw [e]
  simp [httpResponse]

theorem answerLine_length (l : Looker) (x : IP) : (answerLine l x).length = 2 := by
  unfold answerLine
  split <;> rfl

/-- The minimal-HTTP handler on a buffer whose address text is the IP address `x`: `parse`
has returned no error and the offset 0, and the handler writes the codec buffer with the
response for `x` appended. -/
theorem HTTPServer_OnTraffic_parsed (hs : HTTPServer) (now : GoString) (hc : httpCodec)
    (buf : GoString) (x : IP)
    (h : ParseIP (strings.TrimPrefix ((strings.SplitSpace buf).getD 1 []) hs.basepath) = some x) :
    (hc.parse buf).2.2 = none ∧ (hc.parse buf).1 = 0
      ∧ (hs.OnTraffic now hc buf).written = [hc.buf ++ httpResponse now (answerLine hs.l x)] := by
  have hlen : ¬ (strings.SplitSpace buf).length < 2 := by
    intro hlen
    have h1 : (strings.SplitSpace buf).getD 1 [] = [] := by
      rw [List.getD_eq_default]
      omega
    have h2 : ParseIP (strings.TrimPrefix [] hs.basepath) = none := by
      have : strings.TrimPrefix [] hs.basepath = [] := by
        unfold strings.TrimPrefix
        split <;> simp
      rw [this]
      rfl
    rw [h1, h2] at h
    cases h
  refine ⟨?_, ?_, ?_⟩
  · unfold httpCodec.parse
    simp only [hlen, if_false]
  · unfold httpCodec.parse
    simp only [hlen, if_false]
  · have hw := writeResponse_two now hc.resetParser (answerLine hs.l x) (answerLine_length hs.l x)
    have hb : hc.resetParser.buf = hc.buf := rfl
    rw [hb] at hw
    have hne : (writeResponse now hc.resetParser (answerLine hs.l x)).buf.length > 0 := by
      rw [hw]
      simp [httpResponse]
    unfold HTTPServer.OnTraffic httpCodec.parse
    simp only [hlen, if_false, h, Option.isSome_none, Bool.false_eq_true, Nat.not_lt_zero]
    unfold answerLine at hw hne ⊢
    rw [hw] at hne
    simp only [hw, hne, if_true]

theorem digit_char_toNat (d : Nat) (h : d < 10) : (Char.ofNat (48 + d)).toNat - 48 = d := by
  interval_cases d <;> rfl

theorem digitsRev_value (fuel n : Nat) (h : n < 10 ^ fuel) :
    (strconv.digitsRev fuel n).foldr (fun c acc => acc * 10 + (c.toNat - 48)) 0 = n := by
  induction fuel generalizing n with
  | zero =>
    have : n = 0 := by simpa using h
    subst this
    rfl
  | succ fuel ih =>
    unfold strconv.digitsRev
    by_cases h0 : n / 10 = 0
    · rw [if_pos h0]
      simp only [List.foldr_cons, List.foldr_nil, Nat.zero_mul, Nat.zero_add]
      rw [digit_char_toNat _ (Nat.mod_lt _ (by decide))]
      omega
    · rw [if_neg h0]
      simp only [List.foldr_cons]
      have hlt : n / 10 < 10 ^ fuel := by
        rw [Nat.div_lt_iff_lt_mul (by decide)]
        rw [pow_succ] at h
        exact h
      rw [ih _ hlt, digit_char_toNat _ (Nat.mod_lt _ (by decide))]
      omega

/-- The text that `strconv.Itoa` gives for `n` is a decimal representation of `n`. -/
theorem decimalValue_Itoa (n : Nat) : decimalValue (strconv.Itoa n) = n := by
  unfold decimalValue strconv.Itoa
  rw [List.foldl_reverse]
  apply digitsRev_value
  calc n < 2 ^ n := Nat.lt_two_pow n
    _ ≤ 10 ^ n := Nat.pow_le_pow_left (by decide) _
    _ ≤ 10 ^ (n + 1) := Nat.pow_le_pow_right (by decide) (Nat.le_succ n)

/-- Claim C23, as amended.  `writeResponse` leaves the codec buffer as a prefix and appends
the status line and headers up to `Date: `, the time text, `Content-Length: ` with a line
break before it, the decimal text of the length of the body, an empty line and the body; the
announced length is the number of bytes of the body.  The body that `OnTraffic` passes is
`1` or `0` followed by a newline, two bytes. -/
theorem writeResponse_appends (now : GoString) (hc : httpCodec) (body : GoString) :
    (writeResponse now hc body).buf
        = hc.buf ++ "HTTP/1.1 200 OK\r\nServer: gnet\r\nContent-Type: text/plain\r\nDate: ".toList
            ++ now ++ "\r\nContent-Length: ".toList ++ strconv.Itoa body.length
            ++ "\r\n\r\n".toList ++ body
      ∧ decimalValue (strconv.Itoa body.length) = body.length
      ∧ ∀ (hs : HTTPServer) (buf : GoString) (x : IP),
          ParseIP (strings.TrimPrefix ((strings.SplitSpace buf).getD 1 []) hs.basepath) = some x →
          (hs.OnTraffic now hc buf).written
              = [(writeResponse now hc.resetParser (answerLine hs.l x)).buf]
            ∧ (answerLine hs.l x = "1\n".toList ∨ answerLine hs.l x = "0\n".toList)
            ∧ (answerLine hs.l x).length = 2 := by
  refine ⟨rfl, decimalValue_Itoa _, ?_⟩
  intro hs buf x h
  refine ⟨?_, ?_, answerLine_length hs.l x⟩
  · rw [(HTTPServer_OnTraffic_parsed hs now hc buf x h).2.2,
      writeResponse_two now hc.resetParser _ (answerLine_length hs.l x)]
    rfl
  · unfold answerLine
    split
    · exact Or.inl rfl
    · exact Or.inr rfl

set_option maxRecDepth 100000 in
/-- Claim C23 fails as stated: for the request `GET /10.0.0.1 HTTP/1.1` on a new connection
of a server with an empty index, the handler writes the response that `writeResponse` builds
for the body `0` followed by a newline, which is two bytes long and announced as such. -/
theorem writeResponse_body_two_bytes :
    (HTTPServer.OnTraffic ⟨⟨NewPCTrieRanger⟩, ":8080".toList, "/".toList⟩
          "Mon, 02 Jan 2006 15:04:05 GMT".toList HTTPServer.OnOpen
          "GET /10.0.0.1 HTTP/1.1\r\n\r\n".toList).written
        = [(writeResponse "Mon, 02 Jan 2006 15:04:05 GMT".toList HTTPServer.OnOpen.resetParser
            "0\n".toList).buf]
      ∧ (writeResponse "Mon, 02 Jan 2006 15:04:05 GMT".toList HTTPServer.OnOpen.resetParser
            "0\n".toList).buf
        = ("HTTP/1.1 200 OK\r\nServer: gnet\r\nContent-Type: text/plain\r\n"
            ++ "Date: Mon, 02 Jan 2006 15:04:05 GMT\r\nContent-Length: 2\r\n\r\n0\n").toList
      ∧ "0\n".toList.length = 2 ∧ "0\n".toList.length ≠ 1 := by
  decide

/-- Claim C25.  On a connection of the minimal-HTTP server, after any calls of `OnTraffic`
since `OnOpen` the buffer of the codec is empty, and it is empty again after one more call,
whatever the input; what that call writes is the error line alone or the response to its
own request alone. -/
theorem HTTPServer_codec_buf_empty (history : List (HTTPServer × GoString × GoString))
    (hs : HTTPServer) (now buf : GoString) :
    (codecAfter history).buf = []
      ∧ (hs.OnTraffic now (codecAfter history) buf).hc.buf = []
      ∧ ((hs.OnTraffic now (codecAfter history) buf).written = ["error: invalid IP format\n".toList]
        ∨ ∃ x, (hs.OnTraffic now (codecAfter history) buf).written
            = [httpResponse now (answerLine hs.l x)]) := by
  have hb := codecAfter_buf history
  refine ⟨hb, OnTraffic_keeps_buf_empty hs now _ buf hb, ?_⟩
  cases hp : ParseIP (strings.TrimPrefix ((strings.SplitSpace buf).getD 1 []) hs.basepath) with
  | none =>
    left
    rw [HTTPServer_OnTraffic_unparseable hs now _ buf hp]
  | some x =>
    right
    refine ⟨x, ?_⟩
    rw [(HTTPServer_OnTraffic_parsed hs now _ buf x hp).2.2, hb]
    rfl

/-- Claim C26.  When the text that the minimal-HTTP handler extracts from the buffer parses
as the IP address `x`, `parse` has returned no error and the offset 0, which the length of
the buffer is not below, so `writeResponse` is not skipped: the handler writes one
non-empty text, the codec buffer followed by the 200 response for `x`. -/
theorem HTTPServer_OnTraffic_valid_ip_answered (hs : HTTPServer) (now : GoString)
    (hc : httpCodec) (buf : GoString) (x : IP)
    (h : ParseIP (strings.TrimPrefix ((strings.SplitSpace buf).getD 1 []) hs.basepath) = some x) :
    (hc.parse buf).2.2 = none ∧ (hc.parse buf).1 = 0 ∧ ¬ buf.length < (hc.parse buf).1
      ∧ (hs.OnTraffic now hc buf).written = [hc.buf ++ httpResponse now (answerLine hs.l x)]
      ∧ hc.buf ++ httpResponse now (answerLine hs.l x) ≠ []
      ∧ strings.HasPrefix (httpResponse now (answerLine hs.l x)) "HTTP/1.1 200 OK".toList
          = true := by
  obtain ⟨h1, h2, h3⟩ := HTTPServer_OnTraffic_parsed hs now hc buf x h
  refine ⟨h1, h2, by rw [h2]; exact Nat.not_lt_zero _, h3, ?_, rfl⟩
  simp [httpResponse]

/-- Claim C26, an instance: the request `GET /10.0.0.1 HTTP/1.1` on a new connection of a
server with the base path `/`. -/
theorem HTTPServer_OnTraffic_valid_ip_answered_witness :
    ParseIP (strings.TrimPrefix
        ((strings.SplitSpace "GET /10.0.0.1 HTTP/1.1\r\n\r\n".toList).getD 1 []) "/".toList)
        = some [0, 0, 0, 0, 0, 0, 0, 0, 0, 0, 255, 255, 10, 0, 0, 1]
      ∧ (HTTPServer.OnTraffic ⟨⟨NewPCTrieRanger⟩, ":8080".toList, "/".toList⟩ [] HTTPServer.OnOpen
            "GET /10.0.0.1 HTTP/1.1\r\n\r\n".toList).written
          = [httpResponse [] (answerLine ⟨NewPCTrieRanger⟩
              [0, 0, 0, 0, 0, 0, 0, 0, 0, 0, 255, 255, 10, 0, 0, 1])] :=
  have h : ParseIP (strings.TrimPrefix
      ((strings.SplitSpace "GET /10.0.0.1 HTTP/1.1\r\n\r\n".toList).getD 1 []) "/".toList)
      = some [0, 0, 0, 0, 0, 0, 0, 0, 0, 0, 255, 255, 10, 0, 0, 1] := by decide
  ⟨h, (HTTPServer_OnTraffic_valid_ip_answered ⟨⟨NewPCTrieRanger⟩, ":8080".toList, "/".toList⟩ []
    HTTPServer.OnOpen _ _ h).2.2.2.1⟩

/-! ## The three front-ends on one index -/

theorem hasPrefix_append (b s : GoString) : strings.HasPrefix (b ++ s) b = true := by
  induction b with
  | nil => cases s <;> rfl
  | cons c b ih => simp [strings.HasPrefix, ih]

theorem trimPrefix_append (b s : GoString) : strings.TrimPrefix (b ++ s) b = s := by
  unfold strings.TrimPrefix
  rw [hasPrefix_append, if_pos rfl]
  simp

/-- The address text the minimal-HTTP handler extracts from a request for the path
`basepath ++ s`, when neither holds a space. -/
theorem getRequest_ipStr (basepath s r : GoString) (hb : ' ' ∉ basepath) (hs : ' ' ∉ s) :
    strings.TrimPrefix ((strings.SplitSpace (getRequest basepath s r)).getD 1 []) basepath = s := by
  have e : getRequest basepath s r
      = "GET".toList ++ ' ' :: ((basepath ++ s) ++ ' ' :: ("HTTP/1.1\r\n".toList ++ r)) := by
    simp [getRequest]
  have hp : ' ' ∉ basepath ++ s := by
    intro hm
    rcases List.mem_append.1 hm with hm | hm
    · exact hb hm
    · exact hs hm
  rw [e, ((splitSpace_second "GET".toList (basepath ++ s) (by decide) hp).2 _).2,
    trimPrefix_append]

theorem NetworkServer_OnTraffic_parsed (ipsrv : NetworkServer) (s : GoString) (x : IP)
    (h : ParseIP s = some x) :
    ipsrv.OnTraffic (s ++ ['\n']) = some (answerLine ipsrv.l x) := by
  have hlen : (s ++ ['\n']).length ≠ 0 := by simp
  unfold NetworkServer.OnTraffic
  rw [if_neg hlen, take_length_pred_append, h]
  unfold answerLine
  simp only
  split <;> rfl

theorem FiberServer_handler_parsed (fs : FiberServer) (s : GoString) (x : IP)
    (h : ParseIP s = some x) :
    fs.handler s = if fs.l.Contains x then "1".toList else "0".toList := by
  unfold FiberServer.handler
  rw [h]

/-- Claim C21, as amended.  For every index `l`, every text `s` that parses as an IP address
and every base path without a space: the line protocol answers `1` and a newline to the
payload `s` and a newline exactly when the minimal-HTTP handler answers the request for the
path `basepath ++ s` with the response whose body is `1` and a newline, and exactly when the
framework-HTTP handler answers the parameter `s` with the body `1`; in the other case the
three answer `0`. -/
theorem front_ends_agree (l : Looker) (addr1 addr2 addr3 basepath basepath3 : GoString)
    (now : GoString) (history : List (HTTPServer × GoString × GoString)) (s r : GoString)
    (x : IP) (hs : ParseIP s = some x) (hb : ' ' ∉ basepath) :
    (NetworkServer.OnTraffic ⟨l, addr1⟩ (s ++ ['\n']) = some "1\n".toList
        ↔ (HTTPServer.OnTraffic ⟨l, addr2, basepath⟩ now (codecAfter history)
            (getRequest basepath s r)).written = [httpResponse now "1\n".toList])
      ∧ (NetworkServer.OnTraffic ⟨l, addr1⟩ (s ++ ['\n']) = some "1\n".toList
        ↔ FiberServer.handler ⟨l, addr3, basepath3⟩ s = "1".toList)
      ∧ (NetworkServer.OnTraffic ⟨l, addr1⟩ (s ++ ['\n']) = some "0\n".toList
        ↔ (HTTPServer.OnTraffic ⟨l, addr2, basepath⟩ now (codecAfter history)
            (getRequest basepath s r)).written = [httpResponse now "0\n".toList])
      ∧ (NetworkServer.OnTraffic ⟨l, addr1⟩ (s ++ ['\n']) = some "0\n".toList
        ↔ FiberServer.handler ⟨l, addr3, basepath3⟩ s = "0".toList)
      ∧ (NetworkServer.OnTraffic ⟨l, addr1⟩ (s ++ ['\n']) = some "1\n".toList
        ∨ NetworkServer.OnTraffic ⟨l, addr1⟩ (s ++ ['\n']) = some "0\n".toList) := by
  have hsp : ' ' ∉ s := fun hm => not_isAddrChar_space (ParseIP_class s x hs _ hm)
  have hip : ParseIP (strings.TrimPrefix ((strings.SplitSpace (getRequest basepath s r)).getD 1 [])
      (HTTPServer.mk l addr2 basepath).basepath) = some x := by
    show ParseIP (strings.TrimPrefix _ basepath) = some x
    rw [getRequest_ipStr basepath s r hb hsp, hs]
  have h1 := NetworkServer_OnTraffic_parsed ⟨l, addr1⟩ s x hs
  have h2 := (HTTPServer_OnTraffic_parsed ⟨l, addr2, basepath⟩ now (codecAfter history) _ x hip).2.2
  have h3 := FiberServer_handler_parsed ⟨l, addr3, basepath3⟩ s x hs
  rw [codecAfter_buf] at h2
  rw [h1, h2, h3]
  unfold answerLine
  by_cases hc : l.Contains x = true
  · simp [hc, httpResponse]
  · simp [hc, httpResponse]

set_option maxRecDepth 100000 in
/-- Claim C21, an instance: the text `10.0.0.1`, the base path `/` and the empty index, on
which the three front-ends answer `0`. -/
theorem front_ends_agree_witness :
    ParseIP "10.0.0.1".toList = some [0, 0, 0, 0, 0, 0, 0, 0, 0, 0, 255, 255, 10, 0, 0, 1]
      ∧ ' ' ∉ "/".toList
      ∧ NetworkServer.OnTraffic ⟨⟨NewPCTrieRanger⟩, []⟩ ("10.0.0.1".toList ++ ['\n'])
          = some "0\n".toList
      ∧ (HTTPServer.OnTraffic ⟨⟨NewPCTrieRanger⟩, [], "/".toList⟩ [] (codecAfter [])
            (getRequest "/".toList "10.0.0.1".toList [])).written = [httpResponse [] "0\n".toList]
      ∧ FiberServer.handler ⟨⟨NewPCTrieRanger⟩, [], "/".toList⟩ "10.0.0.1".toList = "0".toList :=
  have hs : ParseIP "10.0.0.1".toList
      = some [0, 0, 0, 0, 0, 0, 0, 0, 0, 0, 255, 255, 10, 0, 0, 1] := by decide
  have hb : ' ' ∉ "/".toList := by decide
  have h := front_ends_agree ⟨NewPCTrieRanger⟩ [] [] [] "/".toList "/".toList [] []
    "10.0.0.1".toList [] _ hs hb
  have h0 : NetworkServer.OnTraffic ⟨⟨NewPCTrieRanger⟩, []⟩ ("10.0.0.1".toList ++ ['\n'])
      = some "0\n".toList := by decide
  ⟨hs, hb, h0, h.2.2.1.1 h0, h.2.2.2.1.1 h0⟩

set_option maxRecDepth 100000 in
/-- Claim C21 fails as stated: with the base path `/ip list/` and the index built from
`10.0.0.0/24`, the line protocol answers `1` for the text `10.0.0.1` and the framework-HTTP
handler sends `1`, while the minimal-HTTP handler, asked for the path `/ip list/10.0.0.1`,
writes the error line: it reads the path up to its first space. -/
theorem minimal_http_base_path_with_space :
    ParseIP "10.0.0.1".toList = some [0, 0, 0, 0, 0, 0, 0, 0, 0, 0, 255, 255, 10, 0, 0, 1]
      ∧ (NewTrie [net10]).map (fun l =>
          (NetworkServer.OnTraffic ⟨l, []⟩ ("10.0.0.1".toList ++ ['\n']),
            (HTTPServer.OnTraffic ⟨l, [], "/ip list/".toList⟩ [] HTTPServer.OnOpen
              (getRequest "/ip list/".toList "10.0.0.1".toList "\r\n".toList)).written,
            FiberServer.handler ⟨l, [], "/ip list/".toList⟩ "10.0.0.1".toList))
        = some (some "1\n".toList, ["error: invalid IP format\n".toList], "1".toList) := by
  decide

/-! ## A failing initial load -/

/-- Claim C22.  When fetching the source fails, and when `getIPNets` fails on what was
fetched, as it does whenever a source entry fails to parse, `serveEndpoint` returns an error
that is not `nil`, has started no server and no reload goroutine, and has received nothing
from the servers. -/
theorem serveEndpoint_initial_load_failure (ep : EndpointCfg)
    (completions : List (Option GoString)) :
    (∀ err, serveEndpoint ep (.error err) completions
        = some ⟨[], [], 0,
            some (some ("failed to fetch file ".toList ++ ep.File ++ ": ".toList ++ err))⟩)
      ∧ (∀ r err, getIPNets r = .error err →
          serveEndpoint ep (.ok r) completions
            = some ⟨[], [], 0, some (some ("failed to populate looker: ".toList ++ err))⟩)
      ∧ (∀ entries : List (GoString × List GoString), (∃ e ∈ entries, entryNet e.1 = none) →
          ∃ err, serveEndpoint ep (.ok (readerOfRecords entries)) completions
            = some ⟨[], [], 0, some (some err)⟩) := by
  have h2 : ∀ r err, getIPNets r = .error err →
      serveEndpoint ep (.ok r) completions
        = some ⟨[], [], 0, some (some ("failed to populate looker: ".toList ++ err))⟩ := by
    intro r err h
    have hp : populateLooker r = some (.error err) := by
      unfold populateLooker
      rw [h]
      rfl
    unfold serveEndpoint
    simp only [hp]
  refine ⟨fun err => rfl, h2, ?_⟩
  intro entries hbad
  obtain ⟨err, herr⟩ := (getIPNetsLoop_error entries []).2 hbad
  exact ⟨_, h2 _ err herr⟩

/-! ## The last byte of a payload of the line protocol -/

/-- Claim C27.  The line-protocol handler answers two payloads that differ in their last
byte only in the same way; the payload `10.0.0.15` is answered as the address `10.0.0.1` is,
and every payload that ends in a carriage return and a newline is answered with the error
line. -/
theorem NetworkServer_OnTraffic_cuts_last_byte (ipsrv : NetworkServer) :
    (∀ (p : GoString) (c1 c2 : Char), ipsrv.OnTraffic (p ++ [c1]) = ipsrv.OnTraffic (p ++ [c2]))
      ∧ ParseIP "10.0.0.1".toList = some [0, 0, 0, 0, 0, 0, 0, 0, 0, 0, 255, 255, 10, 0, 0, 1]
      ∧ ipsrv.OnTraffic "10.0.0.15".toList
          = some (answerLine ipsrv.l [0, 0, 0, 0, 0, 0, 0, 0, 0, 0, 255, 255, 10, 0, 0, 1])
      ∧ ipsrv.OnTraffic "10.0.0.15".toList = ipsrv.OnTraffic "10.0.0.1\n".toList
      ∧ (∀ s : GoString, ipsrv.OnTraffic (s ++ "\r\n".toList)
          = some "error: invalid IP format\n".toList) := by
  have key : ∀ (p : GoString) (c : Char),
      ipsrv.OnTraffic (p ++ [c]) = (match ParseIP p with
        | none => some "error: invalid IP format\n".toList
        | some x => some (answerLine ipsrv.l x)) := by
    intro p c
    have hlen : (p ++ [c]).length ≠ 0 := by simp
    unfold NetworkServer.OnTraffic
    rw [if_neg hlen, take_length_pred_append]
    cases ParseIP p with
    | none => rfl
    | some x =>
      unfold answerLine
      simp only
      split <;> rfl
  have hp : ParseIP "10.0.0.1".toList
      = some [0, 0, 0, 0, 0, 0, 0, 0, 0, 0, 255, 255, 10, 0, 0, 1] := by decide
  have h15 : ipsrv.OnTraffic "10.0.0.15".toList
      = some (answerLine ipsrv.l [0, 0, 0, 0, 0, 0, 0, 0, 0, 0, 255, 255, 10, 0, 0, 1]) := by
    have := key "10.0.0.1".toList '5'
    rw [hp] at this
    exact this
  refine ⟨?_, hp, h15, ?_, ?_⟩
  · intro p c1 c2
    rw [key, key]
  · rw [h15]
    have := key "10.0.0.1".toList '\n'
    rw [hp] at this
    exact this.symm
  · intro s
    have e : s ++ "\r\n".toList = (s ++ ['\r']) ++ ['\n'] := by simp
    rw [e, key]
    cases hq : ParseIP (s ++ ['\r']) with
    | none => rfl
    | some x =>
      exfalso
      exact not_isAddrChar_cr (ParseIP_class _ x hq '\r' (by simp))

/-! ## Three ways to build an index -/

theorem insertEach_eq (v : versionedRanger) (P : List IPNet) :
    insertEach ⟨v⟩ P = (insertAll v P).map Looker.mk := by
  induction P generalizing v with
  | nil => rfl
  | cons n rest ih =>
    unfold insertEach insertAll Looker.Insert
    cases hv : v.Insert n with
    | none => rfl
    | some v1 => exact ih v1

theorem insertEach_from_empty (P : List IPNet) :
    (NewTrie []).bind (fun t => insertEach t P) = NewTrie P := by
  show insertEach ⟨NewPCTrieRanger⟩ P = NewTrie P
  rw [insertEach_eq]
  rfl

theorem Reload_from_empty (P : List IPNet) :
    (NewTrie []).bind (fun t => t.Reload P) = NewTrie P := rfl

theorem listToLookerLoop_eq (t : Looker) (texts : List GoString) (P : List IPNet)
    (h : texts.map (fun v => (ParseCIDR v).map (fun x => x.2)) = P.map some) :
    listToLookerLoop t texts = insertEach t P := by
  induction texts generalizing t P with
  | nil =>
    cases P with
    | nil => rfl
    | cons n rest => simp at h
  | cons v rest ih =>
    cases P with
    | nil => simp at h
    | cons n P =>
      simp only [List.map_cons, List.cons.injEq] at h
      obtain ⟨h1, h2⟩ := h
      unfold listToLookerLoop insertEach
      cases hp : ParseCIDR v with
      | none =>
        rw [hp] at h1
        cases h1
      | some x =>
        rw [hp] at h1
        simp only [Option.map_some', Option.some.injEq] at h1
        subst h1
        simp only
        cases hi : t.Insert x.2 with
        | none => rfl
        | some t1 => exact ih t1 P h2

/-- Claim C28.  For every list `P` of networks and every address `a`, `Contains(a)` gives the
same on the index `NewTrie(P...)`, on `NewTrie()` after `Insert` of each network of `P` in
order, which is what `listToLooker` does for texts that parse to `P`, and on `NewTrie()`
after `Reload(P...)`, which is what `populateLooker` does for a source that gives `P`; the
three constructions return together or not at all, and they return when the networks of `P`
are networks of `ParseCIDR`, none an IPv4-mapped IPv6 network of prefix length above 96. -/
theorem three_constructions_agree (P : List IPNet) (a : IP) :
    ((NewTrie []).bind (fun t => insertEach t P)).map (fun l => l.Contains a)
        = (NewTrie P).map (fun l => l.Contains a)
      ∧ ((NewTrie []).bind (fun t => t.Reload P)).map (fun l => l.Contains a)
        = (NewTrie P).map (fun l => l.Contains a)
      ∧ (∀ texts : List GoString,
          texts.map (fun v => (ParseCIDR v).map (fun x => x.2)) = P.map some →
          (listToLooker texts).map (fun l => l.Contains a)
            = (NewTrie P).map (fun l => l.Contains a))
      ∧ (∀ r : Reader, getIPNets r = .ok P →
          ∀ l, populateLooker r = some (.ok l) ↔ (NewTrie []).bind (fun t => t.Reload P) = some l)
      ∧ ((∀ n ∈ P, IsCIDR n ∧ ¬ IsMappedBlock n) → ∃ l, NewTrie P = some l) := by
  refine ⟨by rw [insertEach_from_empty], by rw [Reload_from_empty], ?_, ?_, ?_⟩
  · intro texts h
    have e : listToLooker texts = listToLookerLoop ⟨NewPCTrieRanger⟩ texts := rfl
    rw [e, listToLookerLoop_eq _ texts P h, insertEach_eq]
    rfl
  · intro r hr l
    have e : populateLooker r = ((NewTrie []).bind (fun t => t.Reload P)).map Except.ok := by
      unfold populateLooker
      rw [hr]
      rfl
    rw [e]
    cases (NewTrie []).bind (fun t => t.Reload P) with
    | none => simp
    | some l1 => simp
  · intro hP
    obtain ⟨l, h1, _⟩ := NewTrie_spec P hP
    exact ⟨l, h1⟩

/-! ## The rules of fakedns and the flags of elasticdump -/

set_option maxRecDepth 100000 in
/-- Claim C29, on the code.  For a rule line that does not split into exactly three fields
at its commas, the loop body of `LoadDomainsCsv` replaces the fields by the line and `fqdn`,
two elements, and then reads the element with index 2 for the address: it faults, and
records nothing.  So for the line `example.com`, and with it the whole load. -/
theorem loadLine_faults_without_three_fields (reverse : GoString → GoString)
    (c : Fakedns.FakeDNS) :
    (∀ line : GoString, (strings.splitByte ',' line []).length ≠ 3 →
        Fakedns.loadLine reverse c line = none)
      ∧ Fakedns.loadLine reverse c "example.com".toList = none
      ∧ (∀ (toLower : GoString → GoString) (rest : List GoString),
          toLower "Example.com".toList = "example.com".toList →
          Fakedns.FakeDNS.LoadDomainsCsv toLower reverse c (.ok ("Example.com".toList :: rest))
            = none) := by
  have key : ∀ (c1 : Fakedns.FakeDNS) (line : GoString),
      (strings.splitByte ',' line []).length ≠ 3 → Fakedns.loadLine reverse c1 line = none := by
    intro c1 line h
    unfold Fakedns.loadLine
    simp only [h, ne_eq, not_false_eq_true, if_true]
    rfl
  refine ⟨key c, key c _ (by decide), ?_⟩
  intro toLower rest h
  unfold Fakedns.FakeDNS.LoadDomainsCsv Fakedns.loadLines
  simp only [h]
  rw [key _ _ (by decide)]
  rfl

/-- Claim C30, on the code.  Given a target IP that is not empty and a pattern that
compiles, `parseFlags` accepts the target port exactly when it is at most 65535: it returns
an error for every port above 65535, and for the port 0 it returns the configuration with
`TargetPort` 0. -/
theorem parseFlags_accepts_port_zero {R : Type} (compile : GoString → Except GoString R)
    (targetIP : GoString) (targetPort minDocCount minIndexSizeKB : Nat) (indexRegex : GoString)
    (re : R) :
    (targetIP ≠ [] → compile indexRegex = .ok re →
        ((∃ cfg, Elasticdump.parseFlags compile targetIP targetPort minDocCount minIndexSizeKB
            indexRegex = .ok cfg) ↔ targetPort ≤ 65535))
      ∧ (65535 < targetPort →
          Elasticdump.parseFlags compile targetIP targetPort minDocCount minIndexSizeKB indexRegex
            = .error ("targetPort must be between 1 and 65535, got ".toList
                ++ strconv.Itoa targetPort))
      ∧ (compile ".*".toList = .ok re →
          Elasticdump.parseFlags compile "10.0.0.1".toList 0 100 1024 ".*".toList
            = .ok ⟨"10.0.0.1".toList, 0, 100, 1024, re⟩) := by
  refine ⟨?_, ?_, ?_⟩
  · intro hip hre
    unfold Elasticdump.parseFlags
    by_cases hp : targetPort > 65535
    · rw [if_pos hp]
      constructor
      · rintro ⟨cfg, h⟩
        cases h
      · intro h
        omega
    · rw [if_neg hp, if_neg hip, hre]
      constructor
      · intro _
        omega
      · intro _
        exact ⟨_, rfl⟩
  · intro hp
    unfold Elasticdump.parseFlags
    rw [if_pos hp]
  · intro hre
    unfold Elasticdump.parseFlags
    rw [if_neg (by decide), if_neg (by decide), hre]

/-! ## IPv4-mapped IPv6 blocks in the index -/

set_option maxRecDepth 100000 in
/-- Claim C1, on the code.  The index built from the valid block `::ffff:1.2.3.4/128` does
not contain the address `::ffff:1.2.3.4`, which is inside that block, which `ParseIP` also
gives for `1.2.3.4`, and which the index built from `1.2.3.4/32` and the index built from
`::ffff:0:0/96` do contain.  On every list of networks of `ParseCIDR` without an IPv4-mapped
IPv6 network of prefix length above 96, the index is built and contains every address that
is inside one of the networks. -/
theorem NewTrie_mapped_block_never_matched :
    (ParseCIDR "::ffff:1.2.3.4/128".toList).map (fun x => x.2) = some netMapped
      ∧ ParseIP "::ffff:1.2.3.4".toList
          = some [0, 0, 0, 0, 0, 0, 0, 0, 0, 0, 255, 255, 1, 2, 3, 4]
      ∧ ParseIP "1.2.3.4".toList = some [0, 0, 0, 0, 0, 0, 0, 0, 0, 0, 255, 255, 1, 2, 3, 4]
      ∧ netMapped.Contains [0, 0, 0, 0, 0, 0, 0, 0, 0, 0, 255, 255, 1, 2, 3, 4] = true
      ∧ (NewTrie [netMapped]).map
          (fun l => l.Contains [0, 0, 0, 0, 0, 0, 0, 0, 0, 0, 255, 255, 1, 2, 3, 4])
        = some false
      ∧ (ParseCIDR "1.2.3.4/32".toList).map (fun x => x.2) = some net1234
      ∧ (NewTrie [net1234]).map
          (fun l => l.Contains [0, 0, 0, 0, 0, 0, 0, 0, 0, 0, 255, 255, 1, 2, 3, 4])
        = some true
      ∧ (ParseCIDR "::ffff:0:0/96".toList).map (fun x => x.2) = some mapped96
      ∧ (NewTrie [mapped96]).map
          (fun l => l.Contains [0, 0, 0, 0, 0, 0, 0, 0, 0, 0, 255, 255, 1, 2, 3, 4])
        = some true
      ∧ ∀ (P : List IPNet) (C : IPNet) (a : IP), (∀ n ∈ P, IsCIDR n ∧ ¬ IsMappedBlock n) →
          C ∈ P → IsBytes a → C.Contains a = true →
          ∃ l, NewTrie P = some l ∧ l.Contains a = true := by
  refine ⟨by decide, by decide, by decide, by decide, by decide, by decide, by decide,
    by decide, by decide, ?_⟩
  intro P C a hP hC ha hin
  obtain ⟨l, h1, h2⟩ := NewTrie_spec P hP
  exact ⟨l, h1, (h2 a ha).2 ⟨C, hC, hin⟩⟩

set_option maxRecDepth 100000 in
/-- Claim C3, on the code.  After `Reload` with the single valid block `::ffff:10.0.0.1/128`
the index does not contain the address `::ffff:10.0.0.1`, which is inside that block and
which it does contain after `Reload` with `10.0.0.1/32`.  On every list `P` of networks of
`ParseCIDR` without an IPv4-mapped IPv6 network of prefix length above 96, `Reload(P)`
returns whatever the index held, and after it `Contains(a)` is true exactly when `a` is
inside some network of `P`. -/
theorem Reload_mapped_block_never_matched :
    (ParseCIDR "::ffff:10.0.0.1/128".toList).map (fun x => x.2) = some netMapped10
      ∧ ParseIP "10.0.0.1".toList = some [0, 0, 0, 0, 0, 0, 0, 0, 0, 0, 255, 255, 10, 0, 0, 1]
      ∧ netMapped10.Contains [0, 0, 0, 0, 0, 0, 0, 0, 0, 0, 255, 255, 10, 0, 0, 1] = true
      ∧ ((NewTrie []).bind (fun r => r.Reload [netMapped10])).map
          (fun l => l.Contains [0, 0, 0, 0, 0, 0, 0, 0, 0, 0, 255, 255, 10, 0, 0, 1])
        = some false
      ∧ (ParseCIDR "10.0.0.1/32".toList).map (fun x => x.2) = some net10001
      ∧ ((NewTrie []).bind (fun r => r.Reload [net10001])).map
          (fun l => l.Contains [0, 0, 0, 0, 0, 0, 0, 0, 0, 0, 255, 255, 10, 0, 0, 1])
        = some true
      ∧ ∀ (r : Looker) (P : List IPNet) (a : IP), (∀ n ∈ P, IsCIDR n ∧ ¬ IsMappedBlock n) →
          IsBytes a →
          ∃ l, r.Reload P = some l ∧ (l.Contains a = true ↔ ∃ n ∈ P, n.Contains a = true) := by
  refine ⟨by decide, by decide, by decide, by decide, by decide, by decide, ?_⟩
  intro r P a hP ha
  obtain ⟨l, h1, h2⟩ := Reload_spec r P hP
  exact ⟨l, h1, h2 a ha⟩

set_option maxRecDepth 100000 in
/-- Claim C8, on the code.  The bare source entry `::ffff:1.2.3.4` loads, and the index that
holds it alone does not contain the address `::ffff:1.2.3.4`, written so or as `1.2.3.4`,
while the index that holds the bare entry `1.2.3.4` alone contains that address, written
either way, and not its neighbours `1.2.3.3` and `1.2.3.5`.  For every other bare entry
that loads, the index that holds it alone contains exactly the address of the entry. -/
theorem bare_mapped_address_never_matched :
    '/' ∉ "::ffff:1.2.3.4".toList
      ∧ entryNet "::ffff:1.2.3.4".toList = some netMapped
      ∧ loadAndAsk ["::ffff:1.2.3.4".toList] "::ffff:1.2.3.4".toList = some false
      ∧ loadAndAsk ["::ffff:1.2.3.4".toList] "1.2.3.4".toList = some false
      ∧ loadAndAsk ["1.2.3.4".toList] "1.2.3.4".toList = some true
      ∧ loadAndAsk ["1.2.3.4".toList] "::ffff:1.2.3.4".toList = some true
      ∧ loadAndAsk ["1.2.3.4".toList] "1.2.3.3".toList = some false
      ∧ loadAndAsk ["1.2.3.4".toList] "1.2.3.5".toList = some false
      ∧ ∀ (a : GoString) (net : IPNet) (x : IP), '/' ∉ a → entryNet a = some net →
          ¬ IsMappedBlock net → IsBytes x →
          ∃ l ipa, populateLooker (readerOfRecords [(a, [])]) = some (.ok l)
            ∧ ParseIP a = some ipa
            ∧ (l.Contains x = true ↔ IP.Equal x ipa = true) := by
  refine ⟨by decide, by decide, by decide, by decide, by decide, by decide, by decide,
    by decide, ?_⟩
  intro a net x hbare hload hnm hx
  exact bare_address_exact a net x hbare hload hnm hx

set_option maxRecDepth 100000 in
/-- Claim C17, on the code.  After `Insert` of the valid block `::ffff:1.2.3.4/128` into the
empty index, `Contains` is false for the address `::ffff:1.2.3.4`, which is inside that
block, while after `Insert` of `1.2.3.4/32` it is true.  In every state of the index that
`NewTrie`, `Insert` and `Reload` lead to from networks of `ParseCIDR` none of which is an
IPv4-mapped IPv6 network of prefix length above 96, and for every such network `p`,
`Insert(p)` returns, after it `Contains(a)` is true exactly when it was true before or `a`
is inside `p`, and every address contained before is still contained. -/
theorem Insert_mapped_block_never_matched :
    netMapped.Contains [0, 0, 0, 0, 0, 0, 0, 0, 0, 0, 255, 255, 1, 2, 3, 4] = true
      ∧ ((NewTrie []).bind (fun l => l.Insert netMapped)).map
          (fun l => l.Contains [0, 0, 0, 0, 0, 0, 0, 0, 0, 0, 255, 255, 1, 2, 3, 4])
        = some false
      ∧ ((NewTrie []).bind (fun l => l.Insert net1234)).map
          (fun l => l.Contains [0, 0, 0, 0, 0, 0, 0, 0, 0, 0, 255, 255, 1, 2, 3, 4])
        = some true
      ∧ ∀ (l : Looker) (p : IPNet) (a : IP), Built l → IsCIDR p → ¬ IsMappedBlock p →
          IsBytes a →
          ∃ l', l.Insert p = some l'
            ∧ (l'.Contains a = true ↔ l.Contains a = true ∨ p.Contains a = true)
            ∧ (l.Contains a = true → l'.Contains a = true) := by
  refine ⟨by decide, by decide, by decide, ?_⟩
  intro l p a hl hp hpm ha
  exact Insert_contains_iff l p a hl hp hpm ha

/-! ## Loading from any reader -/

theorem getIPNetsLoop_ok_any (r : Reader) (acc nets : List IPNet) :
    getIPNetsLoop r acc = .ok nets
      ↔ ∃ more, r.map resultNet = more.map some ∧ nets = acc ++ more := by
  induction r generalizing acc with
  | nil =>
    simp only [List.map_nil, getIPNetsLoop, Except.ok.injEq]
    constructor
    · intro h
      exact ⟨[], rfl, by simp [h]⟩
    · rintro ⟨more, h1, h2⟩
      have : more = [] := by
        cases more with
        | nil => rfl
        | cons x xs => simp at h1
      subst this
      simp [h2]
  | cons x rest ih =>
    cases x with
    | error msg =>
      simp only [getIPNetsLoop, List.map_cons, resultNet]
      constructor
      · intro h
        cases h
      · rintro ⟨more, h1, _⟩
        cases more with
        | nil => simp at h1
        | cons y ys => simp at h1
    | record first others =>
      have hstep : getIPNetsLoop (.record first others :: rest) acc
          = match ParseCIDR (parseLineToCIDR first) with
            | none => .error ("failed to parse CIDR ".toList ++ parseLineToCIDR first
                ++ ": invalid CIDR address: ".toList ++ parseLineToCIDR first)
            | some (_, ipnet) => getIPNetsLoop rest (acc ++ [ipnet]) := rfl
      rw [hstep]
      cases hp : ParseCIDR (parseLineToCIDR first) with
      | none =>
        simp only [List.map_cons, resultNet, entryNet, hp, Option.map_none']
        constructor
        · intro h
          cases h
        · rintro ⟨more, h1, _⟩
          cases more with
          | nil => simp at h1
          | cons y ys => simp at h1
      | some pr =>
        obtain ⟨ip0, n0⟩ := pr
        simp only [List.map_cons, resultNet, entryNet, hp, Option.map_some']
        rw [ih]
        constructor
        · rintro ⟨more, h1, h2⟩
          exact ⟨n0 :: more, by simp [h1], by simp [h2]⟩
        · rintro ⟨more, h1, h2⟩
          cases more with
          | nil => simp at h1
          | cons y ys =>
            simp only [List.map_cons, List.cons.injEq, Option.some.injEq] at h1
            obtain ⟨hy, hys⟩ := h1
            subst hy
            exact ⟨ys, hys, by simp [h2]⟩

theorem getIPNetsLoop_error_any (r : Reader) (acc : List IPNet) :
    (∃ err, getIPNetsLoop r acc = .error err) ↔ ∃ x ∈ r, resultNet x = none := by
  induction r generalizing acc with
  | nil => simp [getIPNetsLoop]
  | cons x rest ih =>
    cases x with
    | error msg =>
      simp only [getIPNetsLoop, List.mem_cons, exists_eq_or_imp, resultNet, true_or, iff_true]
      exact ⟨_, rfl⟩
    | record first others =>
      have hstep : getIPNetsLoop (.record first others :: rest) acc
          = match ParseCIDR (parseLineToCIDR first) with
            | none => .error ("failed to parse CIDR ".toList ++ parseLineToCIDR first
                ++ ": invalid CIDR address: ".toList ++ parseLineToCIDR first)
            | some (_, ipnet) => getIPNetsLoop rest (acc ++ [ipnet]) := rfl
      rw [hstep]
      cases hp : ParseCIDR (parseLineToCIDR first) with
      | none =>
        simp only [List.mem_cons, exists_eq_or_imp, resultNet, entryNet, hp, Option.map_none',
          true_or, iff_true]
        exact ⟨_, rfl⟩
      | some pr =>
        obtain ⟨ip0, n0⟩ := pr
        simp only [ih, List.mem_cons, exists_eq_or_imp, resultNet, entryNet, hp,
          Option.map_some']
        simp

/-- Claim C10, as amended.  For every sequence of results that the CSV reader yields,
`getIPNets` returns an error, and no list, exactly when the sequence holds a read error or a
record whose entry CIDR parsing rejects as `parseLineToCIDR` hands it on; it returns a list
of networks exactly when every result is a record and the list is, record by record and in
the order of the input, the network parsed from the entry.  So for a source that is read
without a read error the error is returned exactly when an entry is rejected.  When
`getIPNets` returns an error, `populateLooker` returns that error and no index. -/
theorem getIPNets_all_or_error (r : Reader) :
    ((∃ err, getIPNets r = .error err)
        ↔ ∃ x ∈ r, (∃ msg, x = .error msg)
            ∨ ∃ first rest, x = .record first rest ∧ entryNet first = none)
      ∧ (∀ nets, getIPNets r = .ok nets ↔ r.map resultNet = nets.map some)
      ∧ (∀ entries : List (GoString × List GoString), r = readerOfRecords entries →
          ((∃ err, getIPNets r = .error err) ↔ ∃ e ∈ entries, entryNet e.1 = none)
            ∧ ∀ nets, getIPNets r = .ok nets
              ↔ entries.map (fun e => entryNet e.1) = nets.map some)
      ∧ (∀ err, getIPNets r = .error err → populateLooker r = some (.error err)) := by
  refine ⟨?_, ?_, ?_, ?_⟩
  · unfold getIPNets
    rw [getIPNetsLoop_error_any]
    constructor
    · rintro ⟨x, hx, hn⟩
      refine ⟨x, hx, ?_⟩
      cases x with
      | error msg => exact Or.inl ⟨msg, rfl⟩
      | record first rest => exact Or.inr ⟨first, rest, rfl, hn⟩
    · rintro ⟨x, hx, h⟩
      refine ⟨x, hx, ?_⟩
      rcases h with ⟨msg, rfl⟩ | ⟨first, rest, rfl, hn⟩
      · rfl
      · exact hn
  · intro nets
    unfold getIPNets
    rw [getIPNetsLoop_ok_any]
    simp
  · intro entries hr
    subst hr
    refine ⟨getIPNetsLoop_error entries [], ?_⟩
    intro nets
    unfold getIPNets
    rw [getIPNetsLoop_ok]
    simp
  · intro err herr
    unfold populateLooker
    rw [herr]
    rfl

set_option maxRecDepth 100000 in
/-- Claim C10 fails as stated: when the reader yields the record `10.0.0.0/24`, whose entry
CIDR parsing accepts, and then the read error of a second line with two fields,
`getIPNets` returns an error although no entry is rejected, and `populateLooker` returns
it. -/
theorem getIPNets_read_error :
    entryNet "10.0.0.0/24".toList = some net10
      ∧ getIPNets [.record "10.0.0.0/24".toList [],
            .error "record on line 2: wrong number of fields".toList]
          = .error ("failed to read CSV record: ".toList
              ++ "record on line 2: wrong number of fields".toList)
      ∧ (populateLooker [.record "10.0.0.0/24".toList [],
            .error "record on line 2: wrong number of fields".toList]).map
          (fun res => match res with
            | .error err => some err
            | .ok _ => none)
        = some (some ("failed to read CSV record: ".toList
              ++ "record on line 2: wrong number of fields".toList)) := by
  refine ⟨by decide, rfl, rfl⟩

end Grizz
